import Mathlib

/-!
# conduit: channel pipelines as transition systems

Every combinator of the Go package spawns one goroutine that loops over
channel operations.  A goroutine is embedded as a function from its control
point (program counter plus live locals) to the operation it performs there
(`Op`); channels, the cancellation flag of the context and the consumer's
`for v := range ch` loop live in the state of a network, and a scheduler move
picks which goroutine (or which rendezvous) advances.  Everything is
executable: a schedule is a list of moves and `run` replays it.

A move is enabled as follows.  A local step (`call`, `close`, `go`, `wgDone`)
is always enabled.  On an unbuffered channel a value passes in one move from a
goroutine standing at a send to the goroutine standing at a receive on the same
channel, whether either operation is plain or a case of a select; on a buffered
channel a send needs room and a receive needs a buffered value.  A receive sees
the end of the stream once the channel is closed and empty.  The
`<-ctx.Done()` case of a select is enabled once the context is cancelled, and
a select with several enabled cases may take any of them, as in Go.  Every
execution of the Go program is a schedule of the network; the theorems that
quantify over schedules therefore cover all of them.
-/

namespace Conduit

/-! ## Goroutine operations -/

/-- The operation a goroutine performs at a control point.  `recv`/`send` are
the plain blocking channel operations (`v, ok := <-stream`, `for v := range
stream`, `out <- v`); `selRecv`/`selSend` are the two-case `select` statements
that race the same operation against `<-ctx.Done()`; `close` is the deferred
`close(out)`; `call` is an invocation of the user callback; `go` starts a
goroutine with an argument (`go func(index uint) {...}(i)`); `wgDone` and
`wgWait` are `wg.Done()` and `wg.Wait()` of a `sync.WaitGroup`; `halt` is a
goroutine that has returned. -/
inductive Op (σ I O : Type) where
  | halt : Op σ I O
  | call (next : σ) : Op σ I O
  | close (next : σ) : Op σ I O
  | go (arg : Nat) (next : σ) : Op σ I O
  | wgDone (next : σ) : Op σ I O
  | wgWait (next : σ) : Op σ I O
  | recv (k : Option I → σ) : Op σ I O
  | send (v : O) (next : σ) : Op σ I O
  | selRecv (onDone : σ) (k : Option I → σ) : Op σ I O
  | selSend (onDone : σ) (v : O) (next : σ) : Op σ I O

/-- The value offered on the output channel and the control point after the
send, when the goroutine is at a send (plain or inside a select). -/
def Op.sendOffer {σ I O : Type} : Op σ I O → Option (O × σ)
  | .send v nx => some (v, nx)
  | .selSend _ v nx => some (v, nx)
  | _ => none

/-- The continuation of a receive (plain or inside a select): it is applied to
`some v` for a value and to `none` for a closed channel (`ok == false`, or the
end of a `range` loop). -/
def Op.recvOffer {σ I O : Type} : Op σ I O → Option (Option I → σ)
  | .recv k => some k
  | .selRecv _ k => some k
  | _ => none

/-- The control point reached by the `case <-ctx.Done():` branch of a select. -/
def Op.doneOffer {σ I O : Type} : Op σ I O → Option σ
  | .selRecv d _ => some d
  | .selSend d _ _ => some d
  | _ => none

/-- Re-tag the control points of an operation (used when one combinator
delegates to another). -/
def Op.lift {σ τ I O : Type} (f : σ → τ) : Op σ I O → Op τ I O
  | .halt => .halt
  | .call nx => .call (f nx)
  | .close nx => .close (f nx)
  | .go arg nx => .go arg (f nx)
  | .wgDone nx => .wgDone (f nx)
  | .wgWait nx => .wgWait (f nx)
  | .recv k => .recv (fun r => f (k r))
  | .send v nx => .send v (f nx)
  | .selRecv d k => .selRecv (f d) (fun r => f (k r))
  | .selSend d v nx => .selSend (f d) v (f nx)

/-- A Go channel: capacity, buffered values (oldest first) and the closed
flag. -/
structure Chan (T : Type) where
  cap : Nat
  buf : List T
  closed : Bool
deriving DecidableEq, Repr

/-- The channel made by `make(chan T, cap)`. -/
def Chan.make {T : Type} (cap : Nat) : Chan T := ⟨cap, [], false⟩

/-- A combinator call: the goroutine it spawns (initial control point and
transition function) and the output channel it returns. -/
structure Worker (σ I O : Type) where
  init : σ
  op : σ → Op σ I O
  out : Chan O

/-! ## producer.go -/

/-- Control points of the goroutine of `From`: in the `range values` loop with
the values still to send, returning (deferred close pending), returned. -/
inductive FromPc (T : Type) where
  | loop (vs : List T) : FromPc T
  | exit : FromPc T
  | halted : FromPc T
deriving DecidableEq, Repr

/-- Goroutine body of `From`:
`defer close(out); for _, v := range values { select { case <-ctx.Done(): return; case out <- v: } }`. -/
def From.op {T : Type} : FromPc T → Op (FromPc T) Empty T
  | .loop [] => .close .halted
  | .loop (v :: vs) => .selSend .exit v (.loop vs)
  | .exit => .close .halted
  | .halted => .halt

/-- `From(ctx, values...)`: `out := make(chan T)` and the goroutine. -/
def From {T : Type} (values : List T) : Worker (FromPc T) Empty T :=
  { init := .loop values, op := From.op, out := Chan.make 0 }

/-- Control points of the goroutine of `Repeat`: about to call `fn` (after `i`
calls), at the select holding `val`, returning, returned. -/
inductive RepeatPc (T : Type) where
  | gen (i : Nat) : RepeatPc T
  | sel (i : Nat) (val : T) : RepeatPc T
  | exit : RepeatPc T
  | halted : RepeatPc T
deriving DecidableEq, Repr

/-- Goroutine body of `Repeat`:
`defer close(out); for { val := fn(ctx); select { case <-ctx.Done(): return; case out <- val: } }`.
The generator may be stateful: `fn i` is the value its call number `i`
(counted from zero) returns. -/
def Repeat.op {T : Type} (fn : Nat → T) : RepeatPc T → Op (RepeatPc T) Empty T
  | .gen i => .call (.sel (i + 1) (fn i))
  | .sel i val => .selSend .exit val (.gen i)
  | .exit => .close .halted
  | .halted => .halt

/-- `Repeat(ctx, fn)`: `out := make(chan T)` and the goroutine. -/
def Repeat {T : Type} (fn : Nat → T) : Worker (RepeatPc T) Empty T :=
  { init := .gen 0, op := Repeat.op fn, out := Chan.make 0 }

/-- `FanOut(ctx, n, fn)`: `streams[i] = fn(ctx, i)` for `i` in `0..n-1`, called
synchronously, returned as a slice. -/
def FanOut {α : Type} (n : Nat) (fn : Nat → α) : List α :=
  (List.range n).map fn

/-! ## filter.go -/

/-- Control points of the goroutine of `First`: at the select, holding the
received value before `out <- v`, returning, returned. -/
inductive FirstPc (T : Type) where
  | sel : FirstPc T
  | sendv (v : T) : FirstPc T
  | exit : FirstPc T
  | halted : FirstPc T
deriving DecidableEq, Repr

/-- Goroutine body of `First`:
`defer close(out); select { case <-ctx.Done(): return; case v, ok := <-stream: if !ok { return }; out <- v }`. -/
def First.op {T : Type} : FirstPc T → Op (FirstPc T) T T
  | .sel => .selRecv .exit (fun r => match r with
      | none => .exit
      | some v => .sendv v)
  | .sendv v => .send v .exit
  | .exit => .close .halted
  | .halted => .halt

/-- `First(ctx, stream)`: `out := make(chan T, 1)` and the goroutine. -/
def First {T : Type} : Worker (FirstPc T) T T :=
  { init := .sel, op := First.op, out := Chan.make 1 }

/-- Control points of the goroutine of `Skip`: at `range stream`, about to call
`eq(ctx, v)`, at the select holding `v`, returning, returned. -/
inductive SkipPc (T : Type) where
  | loop : SkipPc T
  | test (v : T) : SkipPc T
  | sel (v : T) : SkipPc T
  | exit : SkipPc T
  | halted : SkipPc T
deriving DecidableEq, Repr

/-- Goroutine body of `Skip`:
`defer close(out); for v := range stream { if eq(ctx, v) { continue }; select { case <-ctx.Done(): return; case out <- v: } }`. -/
def Skip.op {T : Type} (eq : T → Bool) : SkipPc T → Op (SkipPc T) T T
  | .loop => .recv (fun r => match r with
      | none => .exit
      | some v => .test v)
  | .test v => .call (if eq v then .loop else .sel v)
  | .sel v => .selSend .exit v .loop
  | .exit => .close .halted
  | .halted => .halt

/-- `Skip(ctx, stream, eq)`: `if eq == nil { return stream }` (no goroutine,
no new channel: `none`), otherwise `out := make(chan T)` and the goroutine. -/
def Skip {T : Type} (eq : Option (T → Bool)) : Option (Worker (SkipPc T) T T) :=
  match eq with
  | none => none
  | some p => some { init := .loop, op := Skip.op p, out := Chan.make 0 }

/-- Control points of the goroutine of `SkipN`: in the discarding
`for range n` loop with `k` iterations left, at the forwarding
`range stream`, at the select holding `v`, returning, returned. -/
inductive SkipNPc (T : Type) where
  | drop (k : Nat) : SkipNPc T
  | loop : SkipNPc T
  | sel (v : T) : SkipNPc T
  | exit : SkipNPc T
  | halted : SkipNPc T
deriving DecidableEq, Repr

/-- Goroutine body of `SkipN`:
`defer close(out); for range n { select { case <-ctx.Done(): return; case _, ok := <-stream: if !ok { return } } }; for v := range stream { select { case <-ctx.Done(): return; case out <- v: } }`. -/
def SkipN.op {T : Type} : SkipNPc T → Op (SkipNPc T) T T
  | .drop (k + 1) => .selRecv .exit (fun r => match r with
      | none => .exit
      | some _ => .drop k)
  | .drop 0 => .recv (fun r => match r with
      | none => .exit
      | some v => .sel v)
  | .loop => .recv (fun r => match r with
      | none => .exit
      | some v => .sel v)
  | .sel v => .selSend .exit v .loop
  | .exit => .close .halted
  | .halted => .halt

/-- `SkipN(ctx, stream, n)`: `if n == 0 { return stream }` (`none`), otherwise
`out := make(chan T)` and the goroutine. -/
def SkipN {T : Type} (n : Nat) : Option (Worker (SkipNPc T) T T) :=
  if n = 0 then none
  else some { init := .drop n, op := SkipN.op, out := Chan.make 0 }

/-- Control points of what `Take` returns: the goroutine of `First` (case 1),
or the `for range n` loop with `k` iterations left, at its select (`loop`) or
holding a received value before the plain `out <- v` (`sendv`). -/
inductive TakePc (T : Type) where
  | first (s : FirstPc T) : TakePc T
  | loop (k : Nat) : TakePc T
  | sendv (k : Nat) (v : T) : TakePc T
  | exit : TakePc T
  | halted : TakePc T
deriving DecidableEq, Repr

/-- Goroutine body of `Take` for `n >= 2`:
`defer close(out); for range n { select { case <-ctx.Done(): return; case v, ok := <-stream: if !ok { return }; out <- v } }`;
for `n = 1` the body of `First`. -/
def Take.op {T : Type} : TakePc T → Op (TakePc T) T T
  | .first s => (First.op s).lift .first
  | .loop 0 => .close .halted
  | .loop (k + 1) => .selRecv .exit (fun r => match r with
      | none => .exit
      | some v => .sendv k v)
  | .sendv k v => .send v (.loop k)
  | .exit => .close .halted
  | .halted => .halt

/-- `Take(ctx, stream, n)`: the `switch n`: case 0 makes a channel and closes
it at once (no goroutine), case 1 returns `First(ctx, stream)`, otherwise
`out := make(chan T)` and the looping goroutine. -/
def Take {T : Type} (n : Nat) : Worker (TakePc T) T T :=
  match n with
  | 0 => { init := .halted, op := Take.op, out := { Chan.make 0 with closed := true } }
  | 1 => { init := .first First.init, op := Take.op, out := First.out }
  | n + 2 => { init := .loop (n + 2), op := Take.op, out := Chan.make 0 }

/-! ## transformer.go -/

/-- Control points of the goroutine of `Map`: at `range stream`, about to call
`fn(ctx, v)`, at the select holding `val`, returning, returned. -/
inductive MapPc (T U : Type) where
  | loop : MapPc T U
  | apply (v : T) : MapPc T U
  | sel (val : U) : MapPc T U
  | exit : MapPc T U
  | halted : MapPc T U
deriving DecidableEq, Repr

/-- Goroutine body of `Map`:
`defer close(out); for v := range stream { val := fn(ctx, v); select { case <-ctx.Done(): return; case out <- val: } }`. -/
def Map.op {T U : Type} (fn : T → U) : MapPc T U → Op (MapPc T U) T U
  | .loop => .recv (fun r => match r with
      | none => .exit
      | some v => .apply v)
  | .apply v => .call (.sel (fn v))
  | .sel val => .selSend .exit val .loop
  | .exit => .close .halted
  | .halted => .halt

/-- `Map(ctx, stream, fn)`: `out := make(chan U)` and the goroutine. -/
def Map {T U : Type} (fn : T → U) : Worker (MapPc T U) T U :=
  { init := .loop, op := Map.op fn, out := Chan.make 0 }

/-! ## pipeline.go -/

/-- Control points of the goroutine of `OrDone`: at the outer select, at the
inner select holding `v`, returning, returned. -/
inductive OrDonePc (T : Type) where
  | loop : OrDonePc T
  | sel (v : T) : OrDonePc T
  | exit : OrDonePc T
  | halted : OrDonePc T
deriving DecidableEq, Repr

/-- Goroutine body of `OrDone`:
`defer close(out); for { select { case <-ctx.Done(): return; case v, ok := <-stream: if !ok { return }; select { case out <- v: case <-ctx.Done(): } } }`.
The `<-ctx.Done()` case of the inner select has an empty body: control falls
out of both selects to the next iteration of the `for`. -/
def OrDone.op {T : Type} : OrDonePc T → Op (OrDonePc T) T T
  | .loop => .selRecv .exit (fun r => match r with
      | none => .exit
      | some v => .sel v)
  | .sel v => .selSend .loop v .loop
  | .exit => .close .halted
  | .halted => .halt

/-- `OrDone(ctx, stream)`: `out := make(chan T)` and the goroutine. -/
def OrDone {T : Type} : Worker (OrDonePc T) T T :=
  { init := .loop, op := OrDone.op, out := Chan.make 0 }

/-! ## Linear pipelines: producer, one stage, consumer -/

/-- State of `consumer <- stage <- producer`: the context's cancellation flag,
the two goroutines, the unbuffered channel between them (closed flag and the
log of values that crossed it), the stage's output channel, and the consumer
`for v := range out { got = append(got, v) }` (`fin` once the loop has ended).
`calls1`, `calls2` count callback invocations of each goroutine. -/
structure Net (σ₁ σ₂ A B : Type) where
  done : Bool
  s1 : σ₁
  calls1 : Nat
  closed1 : Bool
  log1 : List A
  s2 : σ₂
  calls2 : Nat
  c2 : Chan B
  got : List B
  fin : Bool
deriving DecidableEq, Repr

/-- Scheduler moves of a linear pipeline. -/
inductive Move where
  | cancel  -- the context is cancelled
  | act1    -- producer: callback or close(out)
  | done1   -- producer: a select takes `<-ctx.Done()`
  | pass    -- rendezvous on the middle channel
  | eof1    -- stage: its receive observes the middle channel closed
  | act2    -- stage: callback or close(out)
  | done2   -- stage: a select takes `<-ctx.Done()`
  | emit    -- stage sends on its output (to the consumer, or into the buffer)
  | pull    -- consumer receives a buffered value
  | eof2    -- consumer observes the output closed and drained
deriving DecidableEq, Repr

/-- Initial state of the pipeline `Q(ctx, P(ctx, ...))` read by a consumer. -/
def Net.init {σ₁ σ₂ I A B : Type} (P : Worker σ₁ I A) (Q : Worker σ₂ A B) (cancelled : Bool) :
    Net σ₁ σ₂ A B :=
  { done := cancelled, s1 := P.init, calls1 := 0, closed1 := P.out.closed, log1 := [],
    s2 := Q.init, calls2 := 0, c2 := Q.out, got := [], fin := false }

/-- A goroutine's own step in a linear pipeline, a callback invocation or the
close of its output: the next control point and which of the two it was. -/
def Op.act {σ I O : Type} : Op σ I O → Option (σ × Bool × Bool)
  | .call nx => some (nx, true, false)
  | .close nx => some (nx, false, true)
  | _ => none

/-- One scheduler move; `none` when the move is not enabled.  A rendezvous on
an unbuffered channel needs the sender at a send and the receiver at a
receive of that channel; a receive from a closed, drained channel yields
`ok == false`; a `<-ctx.Done()` case is enabled once the context is
cancelled; when several moves are enabled the scheduler (or the select) may
take any of them. -/
def Net.step {σ₁ σ₂ I A B : Type} (P : Worker σ₁ I A) (Q : Worker σ₂ A B) (m : Move)
    (st : Net σ₁ σ₂ A B) : Option (Net σ₁ σ₂ A B) :=
  match m with
  | .cancel => if st.done then none else some { st with done := true }
  | .act1 =>
    match (P.op st.s1).act with
    | some (nx, isCall, isClose) =>
      some { st with s1 := nx, calls1 := st.calls1 + (if isCall then 1 else 0),
                     closed1 := st.closed1 || isClose }
    | none => none
  | .done1 =>
    match (P.op st.s1).doneOffer with
    | some nx => if st.done then some { st with s1 := nx } else none
    | none => none
  | .pass =>
    match (P.op st.s1).sendOffer, (Q.op st.s2).recvOffer with
    | some (v, nx), some k =>
      if st.closed1 then none
      else some { st with s1 := nx, s2 := k (some v), log1 := st.log1 ++ [v] }
    | _, _ => none
  | .eof1 =>
    match (Q.op st.s2).recvOffer with
    | some k => if st.closed1 then some { st with s2 := k none } else none
    | none => none
  | .act2 =>
    match (Q.op st.s2).act with
    | some (nx, isCall, isClose) =>
      some { st with s2 := nx, calls2 := st.calls2 + (if isCall then 1 else 0),
                     c2 := { st.c2 with closed := st.c2.closed || isClose } }
    | none => none
  | .done2 =>
    match (Q.op st.s2).doneOffer with
    | some nx => if st.done then some { st with s2 := nx } else none
    | none => none
  | .emit =>
    match (Q.op st.s2).sendOffer with
    | some (v, nx) =>
      if st.c2.closed then none
      else if st.c2.cap = 0 then
        if st.fin then none else some { st with s2 := nx, got := st.got ++ [v] }
      else if st.c2.buf.length < st.c2.cap then
        some { st with s2 := nx, c2 := { st.c2 with buf := st.c2.buf ++ [v] } }
      else none
    | none => none
  | .pull =>
    match st.c2.buf with
    | v :: rest =>
      if st.fin then none
      else some { st with c2 := { st.c2 with buf := rest }, got := st.got ++ [v] }
    | [] => none
  | .eof2 =>
    match st.c2.buf with
    | [] => if st.c2.closed && !st.fin then some { st with fin := true } else none
    | _ :: _ => none

/-- Replay a schedule; `none` if some move of it is not enabled. -/
def Net.run {σ₁ σ₂ I A B : Type} (P : Worker σ₁ I A) (Q : Worker σ₂ A B) :
    List Move → Net σ₁ σ₂ A B → Option (Net σ₁ σ₂ A B)
  | [], st => some st
  | m :: ms, st => (Net.step P Q m st).bind (Net.run P Q ms)

/-! ## Invariants of linear pipelines while the context is not cancelled -/

/-- What a producer must maintain, as a predicate `inv s closed log calls` on
its control point, the closed flag of its output, the values sent so far and
the number of callback invocations, with a rank bounding its remaining steps:
its own steps lower the rank, a send changes it by at most `up` minus `down`. -/
structure ProducerOk {σ₁ I A : Type} (P : Worker σ₁ I A)
    (inv : σ₁ → Bool → List A → Nat → Prop) (rank : σ₁ → Nat) (up down : Nat) : Prop where
  act : ∀ s cl log c nx isCall isClose, inv s cl log c →
    (P.op s).act = some (nx, isCall, isClose) →
    inv nx (cl || isClose) log (c + if isCall then 1 else 0) ∧ rank nx < rank s
  send : ∀ s log c v nx, inv s false log c → (P.op s).sendOffer = some (v, nx) →
    inv nx false (log ++ [v]) c ∧ rank nx + down ≤ rank s + up
  live : ∀ s cl log c, inv s cl log c →
    (P.op s).act.isSome = true ∨ (cl = false ∧ (P.op s).sendOffer.isSome = true) ∨ cl = true

/-- What a stage must maintain, as a predicate
`inv s closedIn logIn calls closedOut sent` where `sent` is everything it has
sent on its output so far, with a rank that every step of the stage lowers,
except that a received value changes it by at most `up` minus `down`. -/
structure StageOk {σ₂ A B : Type} (Q : Worker σ₂ A B)
    (inv : σ₂ → Bool → List A → Nat → Bool → List B → Prop) (rank : σ₂ → Nat)
    (up down : Nat) : Prop where
  env : ∀ s log c cl2 sent, inv s false log c cl2 sent → inv s true log c cl2 sent
  act : ∀ s cl1 log c cl2 sent nx isCall isClose, inv s cl1 log c cl2 sent →
    (Q.op s).act = some (nx, isCall, isClose) →
    inv nx cl1 log (c + if isCall then 1 else 0) (cl2 || isClose) sent ∧ rank nx < rank s
  recv : ∀ s log c cl2 sent k v, inv s false log c cl2 sent → (Q.op s).recvOffer = some k →
    inv (k (some v)) false (log ++ [v]) c cl2 sent ∧ rank (k (some v)) + down ≤ rank s + up
  eof : ∀ s log c cl2 sent k, inv s true log c cl2 sent → (Q.op s).recvOffer = some k →
    inv (k none) true log c cl2 sent ∧ rank (k none) < rank s
  emit : ∀ s cl1 log c sent v nx, inv s cl1 log c false sent →
    (Q.op s).sendOffer = some (v, nx) →
    inv nx cl1 log c false (sent ++ [v]) ∧ rank nx < rank s
  live : ∀ s cl1 log c cl2 sent, inv s cl1 log c cl2 sent →
    (Q.op s).act.isSome = true ∨ (Q.op s).recvOffer.isSome = true ∨
      (cl2 = false ∧ (Q.op s).sendOffer.isSome = true) ∨ cl2 = true

/-- The invariant of a pipeline state assembled from the invariants of its two
goroutines: no cancellation, the buffer within capacity, and a finished
consumer has seen the output closed and drained. -/
def Net.Inv {σ₁ σ₂ A B : Type} (IP : σ₁ → Bool → List A → Nat → Prop)
    (IQ : σ₂ → Bool → List A → Nat → Bool → List B → Prop) (st : Net σ₁ σ₂ A B) : Prop :=
  st.done = false ∧ IP st.s1 st.closed1 st.log1 st.calls1 ∧
  IQ st.s2 st.closed1 st.log1 st.calls2 st.c2.closed (st.got ++ st.c2.buf) ∧
  st.c2.buf.length ≤ st.c2.cap ∧ (st.fin = true → st.c2.closed = true ∧ st.c2.buf = [])

/-- Termination measure of a pipeline state. -/
def Net.mu {σ₁ σ₂ A B : Type} (r1 : σ₁ → Nat) (r2 : σ₂ → Nat) (st : Net σ₁ σ₂ A B) : Nat :=
  r1 st.s1 + 2 * r2 st.s2 + st.c2.buf.length + (if st.fin then 0 else 1)

/-- A schedule in which the context is never cancelled. -/
def NoCancel (ms : List Move) : Prop := Move.cancel ∉ ms

instance (ms : List Move) : Decidable (NoCancel ms) := by
  unfold NoCancel; infer_instance

/-- Steps the goroutine of `From` still has to take. -/
def From.rank {T : Type} : FromPc T → Nat
  | .loop vs => vs.length + 1
  | .exit => 1
  | .halted => 0

/-- Invariant of `From(ctx, S...)` without cancellation: sent values followed
by the values still to send are `S`, and the output is closed exactly when the
goroutine has returned. -/
def From.inv {T : Type} (S : List T) (s : FromPc T) (cl : Bool) (log : List T) (_c : Nat) : Prop :=
  match s with
  | .loop vs => cl = false ∧ log ++ vs = S
  | .exit => False
  | .halted => cl = true ∧ log = S

/-- Steps the goroutine of `Take` still has to take. -/
def Take.rank {T : Type} : TakePc T → Nat
  | .first .sel => 3
  | .first (.sendv _) => 2
  | .first .exit => 1
  | .first .halted => 0
  | .loop k => 2 * k + 1
  | .sendv k _ => 2 * k + 2
  | .exit => 1
  | .halted => 0

/-- Invariant of `Take(ctx, stream, n)` without cancellation: what was sent is
what was received (less the value in hand), at most `n` values were received,
and the goroutine returns only after `n` values or after the input closed. -/
def Take.inv {T : Type} (n : Nat) (s : TakePc T) (cl1 : Bool) (log : List T) (_c : Nat)
    (cl2 : Bool) (sent : List T) : Prop :=
  match s with
  | .first .sel => n = 1 ∧ cl2 = false ∧ sent = [] ∧ log = []
  | .first (.sendv v) => n = 1 ∧ cl2 = false ∧ sent = [] ∧ log = [v]
  | .first .exit => n = 1 ∧ cl2 = false ∧ sent = log ∧ log.length ≤ 1 ∧
      (cl1 = true ∨ log.length = 1)
  | .first .halted => n = 1 ∧ cl2 = true ∧ sent = log ∧ log.length ≤ 1 ∧
      (cl1 = true ∨ log.length = 1)
  | .loop k => 2 ≤ n ∧ cl2 = false ∧ sent = log ∧ k + log.length = n
  | .sendv k v => 2 ≤ n ∧ cl2 = false ∧ sent ++ [v] = log ∧ k + log.length = n
  | .exit => 2 ≤ n ∧ cl2 = false ∧ sent = log ∧ log.length ≤ n ∧ cl1 = true
  | .halted => cl2 = true ∧ sent = log ∧ log.length ≤ n ∧ (cl1 = true ∨ log.length = n)


/-- Steps the goroutine of `Repeat` takes before its next send. -/
def Repeat.rank {T : Type} : RepeatPc T → Nat
  | .gen _ => 1
  | .sel _ _ => 0
  | .exit => 1
  | .halted => 0

/-- Invariant of `Repeat(ctx, fn)` without cancellation: the values sent are
the results of the first calls in order, the value in hand is the result of
the latest call, and the goroutine never returns. -/
def Repeat.inv {T : Type} (fn : Nat → T) (s : RepeatPc T) (cl : Bool) (log : List T)
    (c : Nat) : Prop :=
  match s with
  | .gen i => cl = false ∧ c = i ∧ log = (List.range i).map fn
  | .sel i v => cl = false ∧ c = i ∧ 0 < i ∧ v = fn (i - 1) ∧ log = (List.range (i - 1)).map fn
  | .exit => False
  | .halted => False

/-- Steps the goroutine of `Skip` takes before its next receive. -/
def Skip.rank {T : Type} : SkipPc T → Nat
  | .loop => 2
  | .test _ => 4
  | .sel _ => 3
  | .exit => 1
  | .halted => 0

/-- Invariant of `Skip(ctx, stream, eq)` without cancellation: what was sent,
plus the value in hand if it is to be forwarded, is the received values for
which `eq` is false; `eq` was called once per received value. -/
def Skip.inv {T : Type} (eq : T → Bool) (s : SkipPc T) (cl1 : Bool) (log : List T) (c : Nat)
    (cl2 : Bool) (sent : List T) : Prop :=
  match s with
  | .loop => cl2 = false ∧ sent = log.filter (fun v => !eq v) ∧ c = log.length
  | .test v => cl2 = false ∧
      sent ++ (if eq v then [] else [v]) = log.filter (fun v => !eq v) ∧ c + 1 = log.length
  | .sel v => cl2 = false ∧ sent ++ [v] = log.filter (fun v => !eq v) ∧ c = log.length
  | .exit => cl2 = false ∧ cl1 = true ∧ sent = log.filter (fun v => !eq v) ∧ c = log.length
  | .halted => cl2 = true ∧ cl1 = true ∧ sent = log.filter (fun v => !eq v) ∧ c = log.length

/-- Steps the goroutine of `SkipN` takes before its next receive. -/
def SkipN.rank {T : Type} : SkipNPc T → Nat
  | .drop _ => 2
  | .loop => 2
  | .sel _ => 3
  | .exit => 1
  | .halted => 0

/-- Invariant of `SkipN(ctx, stream, n)` without cancellation: what was sent,
plus the value in hand, is what was received after the first `n` values. -/
def SkipN.inv {T : Type} (n : Nat) (s : SkipNPc T) (cl1 : Bool) (log : List T) (_c : Nat)
    (cl2 : Bool) (sent : List T) : Prop :=
  match s with
  | .drop k => cl2 = false ∧ sent = [] ∧ k + log.length = n
  | .loop => cl2 = false ∧ sent = log.drop n ∧ n ≤ log.length
  | .sel v => cl2 = false ∧ sent ++ [v] = log.drop n ∧ n < log.length
  | .exit => cl2 = false ∧ cl1 = true ∧ sent = log.drop n
  | .halted => cl2 = true ∧ cl1 = true ∧ sent = log.drop n

/-- Steps the goroutine of `Map` takes before its next receive. -/
def Map.rank {T U : Type} : MapPc T U → Nat
  | .loop => 2
  | .apply _ => 4
  | .sel _ => 3
  | .exit => 1
  | .halted => 0

/-- Invariant of `Map(ctx, stream, fn)` without cancellation: what was sent,
plus the value in hand, is `fn` applied to the received values; `fn` was
called once per received value. -/
def Map.inv {T U : Type} (fn : T → U) (s : MapPc T U) (cl1 : Bool) (log : List T) (c : Nat)
    (cl2 : Bool) (sent : List U) : Prop :=
  match s with
  | .loop => cl2 = false ∧ sent = log.map fn ∧ c = log.length
  | .apply v => cl2 = false ∧ sent ++ [fn v] = log.map fn ∧ c + 1 = log.length
  | .sel u => cl2 = false ∧ sent ++ [u] = log.map fn ∧ c = log.length
  | .exit => cl2 = false ∧ cl1 = true ∧ sent = log.map fn ∧ c = log.length
  | .halted => cl2 = true ∧ cl1 = true ∧ sent = log.map fn ∧ c = log.length

/-! ## Concrete schedules (the examples of the test files) -/

/-- Every scheduler move except cancellation. -/
def Move.uncancelled : List Move :=
  [.act1, .done1, .pass, .eof1, .act2, .done2, .emit, .pull, .eof2]

/-- A schedule that reads `Take(ctx, From(ctx, 1, 2, 3, 4, 5), 3)` to closure. -/
def Demo.take3 : List Move :=
  [.pass, .emit, .pass, .emit, .pass, .emit, .act2, .eof2]

/-- The state `Demo.take3` ends in. -/
def Demo.take3End : Net (FromPc Nat) (TakePc Nat) Nat Nat :=
  { done := false, s1 := .loop [4, 5], calls1 := 0, closed1 := false, log1 := [1, 2, 3],
    s2 := .halted, calls2 := 0, c2 := ⟨0, [], true⟩, got := [1, 2, 3], fin := true }

/-- A schedule that reads a forwarding stage fed by `From(ctx, 1, 2, 3, 4, 5)`
to closure when the stage calls its callback on every value and forwards the
values at the positions marked `true`. -/
def Demo.forward : List Bool → List Move
  | [] => [.act1, .eof1, .act2, .eof2]
  | true :: bs => [.pass, .act2, .emit] ++ Demo.forward bs
  | false :: bs => [.pass, .act2] ++ Demo.forward bs

/-- The predicate of `ExampleSkip`: `v % 2 == 0`. -/
def Demo.isEven (v : Nat) : Bool := v % 2 == 0

/-- The state in which `Skip(ctx, From(ctx, 1, 2, 3, 4, 5), isEven)` ends. -/
def Demo.skipEnd : Net (FromPc Nat) (SkipPc Nat) Nat Nat :=
  { done := false, s1 := .halted, calls1 := 0, closed1 := true, log1 := [1, 2, 3, 4, 5],
    s2 := .halted, calls2 := 5, c2 := ⟨0, [], true⟩, got := [1, 3, 5], fin := true }

/-- A schedule that reads `SkipN(ctx, From(ctx, 1, 2, 3, 4, 5), 2)` to closure. -/
def Demo.skipN2 : List Move :=
  [.pass, .pass, .pass, .emit, .pass, .emit, .pass, .emit, .act1, .eof1, .act2, .eof2]

/-- The state `Demo.skipN2` ends in. -/
def Demo.skipN2End : Net (FromPc Nat) (SkipNPc Nat) Nat Nat :=
  { done := false, s1 := .halted, calls1 := 0, closed1 := true, log1 := [1, 2, 3, 4, 5],
    s2 := .halted, calls2 := 0, c2 := ⟨0, [], true⟩, got := [3, 4, 5], fin := true }

/-- The state in which `Map(ctx, From(ctx, 1, 2, 3), v * 10)` ends. -/
def Demo.mapEnd : Net (FromPc Nat) (MapPc Nat Nat) Nat Nat :=
  { done := false, s1 := .halted, calls1 := 0, closed1 := true, log1 := [1, 2, 3],
    s2 := .halted, calls2 := 3, c2 := ⟨0, [], true⟩, got := [10, 20, 30], fin := true }

/-- A schedule of `Take(ctx, Repeat(ctx, fn), 2)` run until nothing can move. -/
def Demo.repeat2 : List Move :=
  [.act1, .pass, .emit, .act1, .pass, .emit, .act2, .eof2, .act1]

/-- The state `Demo.repeat2` ends in: the output is closed and read, `fn` has
been called three times and the goroutine of `Repeat` sits in its select. -/
def Demo.repeat2End : Net (RepeatPc Nat) (TakePc Nat) Nat Nat :=
  { done := false, s1 := .sel 3 42, calls1 := 3, closed1 := false, log1 := [42, 42],
    s2 := .halted, calls2 := 0, c2 := ⟨0, [], true⟩, got := [42, 42], fin := true }

/-! ## Bridge over ChanChan -/

/-- Control points of the outer goroutine of `ChanChan`: at the head of
`for i := range n` (about to make `stream` and start the inner goroutine), at
the select that sends `stream` on `out`, returning, returned. -/
inductive ChanChanPc where
  | loop (i : Nat) : ChanChanPc
  | sel (i : Nat) : ChanChanPc
  | exit : ChanChanPc
  | halted : ChanChanPc
deriving DecidableEq, Repr

/-- Outer goroutine body of `ChanChan`:
`defer close(out); for i := range n { stream := make(chan T, 1); go func(index uint) {...}(i); select { case out <- stream: case <-ctx.Done(): return } }`.
The inner channel made at iteration `i` is named by `i`. -/
def ChanChan.op (n : Nat) : ChanChanPc → Op ChanChanPc Empty Nat
  | .loop i => if i < n then .go i (.sel i) else .close .halted
  | .sel i => .selSend .exit i (.loop (i + 1))
  | .exit => .close .halted
  | .halted => .halt

/-- `ChanChan(ctx, n, fn)`: `out := make(chan (<-chan T), n)` and the outer
goroutine. -/
def ChanChan (n : Nat) : Worker ChanChanPc Empty Nat :=
  { init := .loop 0, op := ChanChan.op n, out := Chan.make n }

/-- Control points of an inner goroutine of `ChanChan`: about to call
`fn(ctx, index)`, at the select holding `val`, returning, returned. -/
inductive InnerPc (T : Type) where
  | gen : InnerPc T
  | sel (val : T) : InnerPc T
  | exit : InnerPc T
  | halted : InnerPc T
deriving DecidableEq, Repr

/-- Inner goroutine body of `ChanChan`:
`defer close(stream); val := fn(ctx, index); select { case <-ctx.Done(): return; case stream <- val: }`. -/
def ChanChan.innerOp {T : Type} (fn : Nat → T) (index : Nat) : InnerPc T → Op (InnerPc T) Empty T
  | .gen => .call (.sel (fn index))
  | .sel val => .selSend .exit val .exit
  | .exit => .close .halted
  | .halted => .halt

/-- An inner goroutine started by `ChanChan` with its `stream`
(`make(chan T, 1)`): the index it was started with, its control point, the
channel. -/
structure Inner (T : Type) where
  index : Nat
  pc : InnerPc T
  stream : Chan T
deriving DecidableEq, Repr

/-- Control points of the goroutine of `Bridge`: at the outer select, holding
the received `innerCh` before `OrDone(ctx, innerCh)`, at
`range OrDone(ctx, innerCh)`, at the inner select holding `v`, returning,
returned. -/
inductive BridgePc (T : Type) where
  | outer : BridgePc T
  | start (ch : Nat) : BridgePc T
  | inner : BridgePc T
  | sel (v : T) : BridgePc T
  | exit : BridgePc T
  | halted : BridgePc T
deriving DecidableEq, Repr

/-- Operations of the goroutine of `Bridge`, which reads two channels: the
select on the stream of channels, the call of `OrDone`, the `range` receive on
the channel `OrDone` returned, the select that sends on `out`. -/
inductive BridgeOp (σ T : Type) where
  | halt : BridgeOp σ T
  | close (next : σ) : BridgeOp σ T
  | selRecvCh (onDone : σ) (k : Option Nat → σ) : BridgeOp σ T
  | orDone (ch : Nat) (next : σ) : BridgeOp σ T
  | recvVal (k : Option T → σ) : BridgeOp σ T
  | selSend (onDone : σ) (v : T) (next : σ) : BridgeOp σ T

/-- Goroutine body of `Bridge`:
`defer close(out); for { var innerCh <-chan T; select { case maybeInnerCh, ok := <-chStream: if !ok { return }; innerCh = maybeInnerCh; case <-ctx.Done(): return }; for v := range OrDone(ctx, innerCh) { select { case out <- v: case <-ctx.Done(): } } }`.
The `<-ctx.Done()` case of the inner select has an empty body: the `range`
loop goes on. -/
def Bridge.op {T : Type} : BridgePc T → BridgeOp (BridgePc T) T
  | .outer => .selRecvCh .exit (fun r => match r with
      | none => .exit
      | some ch => .start ch)
  | .start ch => .orDone ch .inner
  | .inner => .recvVal (fun r => match r with
      | none => .outer
      | some v => .sel v)
  | .sel v => .selSend .inner v .inner
  | .exit => .close .halted
  | .halted => .halt

/-- State of `consumer <- Bridge <- ChanChan`: the outer goroutine of
`ChanChan` and its buffered channel of channels, the inner goroutines started
so far with their streams, the goroutine of `Bridge`, the goroutine of the
`OrDone` that `Bridge` is ranging over (with the inner channel it reads and
the closed flag of its output), the output of `Bridge` and the consumer.
`taken` counts the channels `Bridge` has received, `cons` the values the
`OrDone` goroutines have received, `calls` the invocations of `fn`. -/
structure BNet (T : Type) where
  done : Bool
  cc : ChanChanPc
  chStream : Chan Nat
  inner : List (Inner T)
  calls : Nat
  bridge : BridgePc T
  taken : Nat
  od : OrDonePc T
  odIn : Nat
  odClosed : Bool
  cons : Nat
  outClosed : Bool
  got : List T
  fin : Bool
deriving DecidableEq, Repr

/-- Scheduler moves of `consumer <- Bridge <- ChanChan`. -/
inductive BMove where
  | cancel            -- the context is cancelled
  | ccAct             -- outer goroutine: make stream and start inner goroutine, or close(out)
  | ccDone            -- outer goroutine: its select takes `<-ctx.Done()`
  | ccSend            -- outer goroutine: `out <- stream` into the buffer
  | inAct (j : Nat)   -- inner goroutine j: call of fn, or close(stream)
  | inDone (j : Nat)  -- inner goroutine j: its select takes `<-ctx.Done()`
  | inSend (j : Nat)  -- inner goroutine j: `stream <- val` into the buffer
  | brRecv            -- Bridge: receives an inner channel, or sees the stream of channels closed
  | brDone            -- Bridge: a select takes `<-ctx.Done()`
  | brAct             -- Bridge: calls OrDone(ctx, innerCh), or close(out)
  | odRecv            -- OrDone: receives from the inner channel, or sees it closed
  | odDone            -- OrDone: a select takes `<-ctx.Done()`
  | odAct             -- OrDone: close(out)
  | odPass            -- rendezvous from OrDone to the range loop of Bridge
  | brEof             -- Bridge: its range sees the output of OrDone closed
  | emit              -- rendezvous from Bridge to the consumer
  | eof               -- consumer observes the output closed
deriving DecidableEq, Repr

/-- Initial state of `Bridge(ctx, ChanChan(ctx, n, fn))` read by a consumer;
no `OrDone` has been started yet. -/
def BNet.init {T : Type} (n : Nat) (cancelled : Bool) : BNet T :=
  { done := cancelled, cc := (ChanChan n).init, chStream := (ChanChan n).out, inner := [],
    calls := 0, bridge := .outer, taken := 0, od := .halted, odIn := 0, odClosed := true,
    cons := 0, outClosed := false, got := [], fin := false }

/-- One scheduler move of `consumer <- Bridge <- ChanChan`; `none` when the
move is not enabled. -/
def BNet.step {T : Type} (n : Nat) (fn : Nat → T) (m : BMove) (st : BNet T) : Option (BNet T) :=
  match m with
  | .cancel => if st.done then none else some { st with done := true }
  | .ccAct =>
    match ChanChan.op n st.cc with
    | .go i nx => some { st with cc := nx, inner := st.inner ++ [⟨i, .gen, Chan.make 1⟩] }
    | .close nx => some { st with cc := nx, chStream := { st.chStream with closed := true } }
    | _ => none
  | .ccDone =>
    match (ChanChan.op n st.cc).doneOffer with
    | some nx => if st.done then some { st with cc := nx } else none
    | none => none
  | .ccSend =>
    match (ChanChan.op n st.cc).sendOffer with
    | some (ch, nx) =>
      if st.chStream.closed then none
      else if st.chStream.buf.length < st.chStream.cap then
        some { st with cc := nx, chStream := { st.chStream with buf := st.chStream.buf ++ [ch] } }
      else none
    | none => none
  | .inAct j =>
    match st.inner[j]? with
    | some w =>
      match (ChanChan.innerOp fn w.index w.pc).act with
      | some (nx, isCall, isClose) =>
        let w1 : Inner T :=
          { w with pc := nx, stream := { w.stream with closed := w.stream.closed || isClose } }
        some { st with inner := st.inner.set j w1, calls := st.calls + (if isCall then 1 else 0) }
      | none => none
    | none => none
  | .inDone j =>
    match st.inner[j]? with
    | some w =>
      match (ChanChan.innerOp fn w.index w.pc).doneOffer with
      | some nx =>
        let w1 : Inner T := { w with pc := nx }
        if st.done then some { st with inner := st.inner.set j w1 } else none
      | none => none
    | none => none
  | .inSend j =>
    match st.inner[j]? with
    | some w =>
      match (ChanChan.innerOp fn w.index w.pc).sendOffer with
      | some (v, nx) =>
        if w.stream.closed then none
        else if w.stream.buf.length < w.stream.cap then
          let w1 : Inner T :=
            { w with pc := nx, stream := { w.stream with buf := w.stream.buf ++ [v] } }
          some { st with inner := st.inner.set j w1 }
        else none
      | none => none
    | none => none
  | .brRecv =>
    match Bridge.op st.bridge with
    | .selRecvCh _ k =>
      match st.chStream.buf with
      | ch :: rest =>
        some { st with bridge := k (some ch), chStream := { st.chStream with buf := rest },
                       taken := st.taken + 1 }
      | [] => if st.chStream.closed then some { st with bridge := k none } else none
    | _ => none
  | .brDone =>
    match Bridge.op st.bridge with
    | .selRecvCh d _ => if st.done then some { st with bridge := d } else none
    | .selSend d _ _ => if st.done then some { st with bridge := d } else none
    | _ => none
  | .brAct =>
    match Bridge.op st.bridge with
    | .orDone ch nx =>
      let w : Worker (OrDonePc T) T T := OrDone
      some { st with bridge := nx, od := w.init, odIn := ch, odClosed := w.out.closed }
    | .close nx => some { st with bridge := nx, outClosed := true }
    | _ => none
  | .odRecv =>
    match (OrDone.op st.od).recvOffer, st.inner[st.odIn]? with
    | some k, some w =>
      match w.stream.buf with
      | v :: rest =>
        let w1 : Inner T := { w with stream := { w.stream with buf := rest } }
        some { st with od := k (some v), inner := st.inner.set st.odIn w1, cons := st.cons + 1 }
      | [] => if w.stream.closed then some { st with od := k none } else none
    | _, _ => none
  | .odDone =>
    match (OrDone.op st.od).doneOffer with
    | some nx => if st.done then some { st with od := nx } else none
    | none => none
  | .odAct =>
    match (OrDone.op st.od).act with
    | some (nx, _, isClose) => some { st with od := nx, odClosed := st.odClosed || isClose }
    | none => none
  | .odPass =>
    match (OrDone.op st.od).sendOffer, Bridge.op st.bridge with
    | some (v, nx), .recvVal k =>
      if st.odClosed then none else some { st with od := nx, bridge := k (some v) }
    | _, _ => none
  | .brEof =>
    match Bridge.op st.bridge with
    | .recvVal k => if st.odClosed then some { st with bridge := k none } else none
    | _ => none
  | .emit =>
    match Bridge.op st.bridge with
    | .selSend _ v nx =>
      if st.outClosed || st.fin then none
      else some { st with bridge := nx, got := st.got ++ [v] }
    | _ => none
  | .eof => if st.outClosed && !st.fin then some { st with fin := true } else none

/-- Replay a schedule of `consumer <- Bridge <- ChanChan`. -/
def BNet.run {T : Type} (n : Nat) (fn : Nat → T) : List BMove → BNet T → Option (BNet T)
  | [], st => some st
  | m :: ms, st => (BNet.step n fn m st).bind (BNet.run n fn ms)

/-- The moves of `consumer <- Bridge <- ChanChan` that can be enabled in a
state with `k` inner goroutines, cancellation apart. -/
def BMove.uncancelled (k : Nat) : List BMove :=
  [.ccAct, .ccDone, .ccSend, .brRecv, .brDone, .brAct, .odRecv, .odDone, .odAct, .odPass,
    .brEof, .emit, .eof] ++
  (List.range k).flatMap (fun j => [.inAct j, .inDone j, .inSend j])

/-- A schedule of `Bridge(ctx, ChanChan(ctx, 3, fn))` that reads the output to
closure, every inner goroutine finishing before `Bridge` starts. -/
def Demo.bridge3 : List BMove :=
  [.ccAct, .ccSend, .ccAct, .ccSend, .ccAct, .ccSend, .ccAct,
   .inAct 2, .inSend 2, .inAct 2, .inAct 0, .inSend 0, .inAct 0, .inAct 1, .inSend 1, .inAct 1,
   .brRecv, .brAct, .odRecv, .odPass, .emit, .odRecv, .odAct, .brEof,
   .brRecv, .brAct, .odRecv, .odPass, .emit, .odRecv, .odAct, .brEof,
   .brRecv, .brAct, .odRecv, .odPass, .emit, .odRecv, .odAct, .brEof,
   .brRecv, .brAct, .eof]

/-- A schedule of `Bridge(ctx, ChanChan(ctx, 3, fn))` on a context that is
cancelled from the start in which every select whose send or receive is ready
takes it: the value of index 0 reaches the consumer; after that every select
takes `<-ctx.Done()` and the output closes. -/
def Demo.bridgeCancelled : List BMove :=
  [.ccAct, .ccSend, .inAct 0, .inSend 0, .brRecv, .brAct, .odRecv, .odPass, .emit,
   .odDone, .odAct, .brEof, .brDone, .brAct, .eof]

/-- The state `Demo.bridge3` ends in for `fn i = i * 10`. -/
def Demo.bridge3End : BNet Nat :=
  { done := false, cc := .halted, chStream := ⟨3, [], true⟩,
    inner := [⟨0, .halted, ⟨1, [], true⟩⟩, ⟨1, .halted, ⟨1, [], true⟩⟩,
      ⟨2, .halted, ⟨1, [], true⟩⟩],
    calls := 3, bridge := .halted, taken := 3, od := .halted, odIn := 2, odClosed := true,
    cons := 3, outClosed := true, got := [0, 10, 20], fin := true }

/-- The state `Demo.bridgeCancelled` ends in for `fn i = i * 10`: one value,
`fn 0 = 0`, has been delivered. -/
def Demo.bridgeCancelledEnd : BNet Nat :=
  { done := true, cc := .loop 1, chStream := ⟨3, [], false⟩,
    inner := [⟨0, .exit, ⟨1, [], false⟩⟩],
    calls := 1, bridge := .halted, taken := 1, od := .halted, odIn := 0, odClosed := true,
    cons := 1, outClosed := true, got := [0], fin := true }

/-! ## Invariant of Bridge over ChanChan while the context is not cancelled -/

/-- Steps an inner goroutine of `ChanChan` still has to take. -/
def Inner.rank {T : Type} : InnerPc T → Nat
  | .gen => 3
  | .sel _ => 2
  | .exit => 1
  | .halted => 0

/-- Invariant of the inner goroutine `j` of `ChanChan` without cancellation:
it was started with index `j`, its stream has capacity 1, it sends `fn j`
once, before closing; the stream holds that value from the send until an
`OrDone` has received it (`consumed`). -/
def Inner.inv {T : Type} (fn : Nat → T) (j : Nat) (consumed : Bool) (w : Inner T) : Prop :=
  w.index = j ∧ w.stream.cap = 1 ∧
  match w.pc with
  | .gen => w.stream.buf = [] ∧ w.stream.closed = false ∧ consumed = false
  | .sel v => v = fn j ∧ w.stream.buf = [] ∧ w.stream.closed = false ∧ consumed = false
  | .exit => w.stream.closed = false ∧ w.stream.buf = (if consumed then [] else [fn j])
  | .halted => w.stream.closed = true ∧ w.stream.buf = (if consumed then [] else [fn j])

/-- Steps the outer goroutine of `ChanChan` still has to take. -/
def ChanChan.rank (n : Nat) : ChanChanPc → Nat
  | .loop i => 2 * (n - i) + 1
  | .sel i => 2 * (n - i)
  | .exit => 1
  | .halted => 0

/-- Invariant of the outer goroutine of `ChanChan` without cancellation: at
iteration `i` it has started the inner goroutines of the indices below `i`
(and of `i` once past the `go` statement), and its channel holds, in order,
the indices already sent and not yet taken by `Bridge`. -/
def ChanChan.inv (n : Nat) (cc : ChanChanPc) (spawned : Nat) (ch : Chan Nat) (taken : Nat) : Prop :=
  ch.cap = n ∧
  match cc with
  | .loop i => spawned = i ∧ i ≤ n ∧ ch.closed = false ∧ taken ≤ i ∧
      ch.buf = List.range' taken (i - taken)
  | .sel i => spawned = i + 1 ∧ i < n ∧ ch.closed = false ∧ taken ≤ i ∧
      ch.buf = List.range' taken (i - taken)
  | .exit => False
  | .halted => spawned = n ∧ ch.closed = true ∧ taken ≤ n ∧
      ch.buf = List.range' taken (n - taken)

/-- Steps the current `OrDone` still has to take: its `loop` counts more while
the value of its inner channel has not been received. -/
def OrDone.rankIn {T : Type} (unread : Bool) : OrDonePc T → Nat
  | .loop => if unread then 6 else 3
  | .sel _ => 5
  | .exit => 2
  | .halted => 1

/-- Steps the goroutine of `Bridge` takes before it is back at its outer
select. -/
def Bridge.rank {T : Type} : BridgePc T → Nat
  | .outer => 2
  | .start _ => 9
  | .inner => 3
  | .sel _ => 4
  | .exit => 1
  | .halted => 0

/-- Invariant of `Bridge` and of the `OrDone` it ranges over, without
cancellation: what the consumer got, plus the value in hand, is `fn` of the
indices whose value an `OrDone` has received, in order; `Bridge` takes the
next inner channel only when the `OrDone` of the current one has closed,
which it does only after the one value of that channel. -/
def Bridge.inv {T : Type} (n : Nat) (fn : Nat → T) (st : BNet T) : Prop :=
  match st.bridge with
  | .outer => st.od = .halted ∧ st.odClosed = true ∧ st.cons = st.taken ∧
      st.got = (List.range st.taken).map fn ∧ st.outClosed = false
  | .start ch => ch + 1 = st.taken ∧ st.cons = ch ∧ st.od = .halted ∧ st.odClosed = true ∧
      st.got = (List.range ch).map fn ∧ st.outClosed = false
  | .inner => st.odIn + 1 = st.taken ∧ st.outClosed = false ∧
      (match st.od with
       | .loop => st.odClosed = false ∧ st.odIn ≤ st.cons ∧ st.cons ≤ st.odIn + 1 ∧
           st.got = (List.range st.cons).map fn
       | .sel v => st.odClosed = false ∧ v = fn st.odIn ∧ st.cons = st.odIn + 1 ∧
           st.got = (List.range st.odIn).map fn
       | .exit => st.odClosed = false ∧ st.cons = st.odIn + 1 ∧
           st.got = (List.range st.cons).map fn
       | .halted => st.odClosed = true ∧ st.cons = st.odIn + 1 ∧
           st.got = (List.range st.cons).map fn)
  | .sel v => st.odIn + 1 = st.taken ∧ st.outClosed = false ∧ v = fn st.odIn ∧
      st.cons = st.odIn + 1 ∧ st.got = (List.range st.odIn).map fn ∧
      (match st.od with
       | .loop => st.odClosed = false
       | .sel _ => False
       | .exit => st.odClosed = false
       | .halted => st.odClosed = true)
  | .exit => st.taken = n ∧ st.cons = n ∧ st.od = .halted ∧ st.odClosed = true ∧
      st.got = (List.range n).map fn ∧ st.outClosed = false
  | .halted => st.taken = n ∧ st.cons = n ∧ st.od = .halted ∧ st.odClosed = true ∧
      st.got = (List.range n).map fn ∧ st.outClosed = true

/-- The invariant of `consumer <- Bridge <- ChanChan` without cancellation. -/
def BNet.Inv {T : Type} (n : Nat) (fn : Nat → T) (st : BNet T) : Prop :=
  st.done = false ∧
  ChanChan.inv n st.cc st.inner.length st.chStream st.taken ∧
  (∀ j w, st.inner[j]? = some w → Inner.inv fn j (decide (j < st.cons)) w) ∧
  Bridge.inv n fn st ∧
  st.cons ≤ st.taken ∧
  (st.fin = true → st.outClosed = true)

/-- Termination measure of `consumer <- Bridge <- ChanChan`. -/
def BNet.mu {T : Type} (n : Nat) (st : BNet T) : Nat :=
  ChanChan.rank n st.cc +
  ((st.inner.map (fun w => Inner.rank w.pc)).sum + 3 * (n - st.inner.length)) +
  (9 * (n - st.taken) + Bridge.rank st.bridge +
    OrDone.rankIn (decide (st.cons ≤ st.odIn)) st.od) +
  (if st.fin then 0 else 1)

/-- A schedule of `consumer <- Bridge <- ChanChan` in which the context is
never cancelled. -/
def BNoCancel (ms : List BMove) : Prop := BMove.cancel ∉ ms

instance (ms : List BMove) : Decidable (BNoCancel ms) := by
  unfold BNoCancel; infer_instance

/-! ## FanIn over the streams of FanOut -/

/-- Control points of a forwarding goroutine of `FanIn`: at `range s`, at the
select holding `v`, returning (`wg.Done()` pending), returned. -/
inductive FanInPc (T : Type) where
  | loop : FanInPc T
  | sel (v : T) : FanInPc T
  | exit : FanInPc T
  | halted : FanInPc T
deriving DecidableEq, Repr

/-- Forwarding goroutine body of `FanIn`:
`defer wg.Done(); for v := range s { select { case <-ctx.Done(): return; case out <- v: } }`. -/
def FanIn.op {T : Type} : FanInPc T → Op (FanInPc T) T T
  | .loop => .recv (fun r => match r with
      | none => .exit
      | some v => .sel v)
  | .sel v => .selSend .exit v .loop
  | .exit => .wgDone .halted
  | .halted => .halt

/-- Control points of the closing goroutine of `FanIn`. -/
inductive CloserPc where
  | wait : CloserPc
  | closing : CloserPc
  | halted : CloserPc
deriving DecidableEq, Repr

/-- Closing goroutine body of `FanIn`: `wg.Wait(); close(out)`. -/
def FanIn.closerOp : CloserPc → Op CloserPc Empty Empty
  | .wait => .wgWait .closing
  | .closing => .close .halted
  | .halted => .halt

/-- One input of `FanIn`: the goroutine of the `From` that feeds the stream,
the closed flag of the stream, the values that crossed it, and the forwarding
goroutine that `FanIn` started for it. -/
structure Lane (T : Type) where
  src : FromPc T
  closed : Bool
  log : List T
  fwd : FanInPc T
deriving DecidableEq, Repr

/-- State of `consumer <- FanIn <- streams`: the lanes, the counter of the
wait group, the closing goroutine, the merged output and the consumer; each
value the consumer got is recorded with the lane it came from. -/
structure FNet (T : Type) where
  done : Bool
  lanes : List (Lane T)
  wg : Nat
  closer : CloserPc
  outClosed : Bool
  got : List (Nat × T)
  fin : Bool
deriving DecidableEq, Repr

/-- Scheduler moves of `consumer <- FanIn <- streams`. -/
inductive FMove where
  | cancel             -- the context is cancelled
  | srcAct (i : Nat)   -- feeding goroutine i: close of its stream
  | srcDone (i : Nat)  -- feeding goroutine i: its select takes `<-ctx.Done()`
  | pass (i : Nat)     -- rendezvous on stream i
  | eofIn (i : Nat)    -- forwarding goroutine i: its range sees stream i closed
  | fwdDone (i : Nat)  -- forwarding goroutine i: its select takes `<-ctx.Done()`
  | fwdAct (i : Nat)   -- forwarding goroutine i: `wg.Done()`
  | emit (i : Nat)     -- rendezvous from forwarding goroutine i to the consumer
  | closerAct          -- closing goroutine: `wg.Wait()` returns, or close(out)
  | eof                -- consumer observes the output closed
deriving DecidableEq, Repr

/-- Initial state of `FanIn(ctx, streams...)` read by a consumer, the streams
being those returned by calls of `From`: `wg.Add(len(streams))`, one
forwarding goroutine per stream, the closing goroutine. -/
def FNet.init {T : Type} (streams : List (Worker (FromPc T) Empty T)) (cancelled : Bool) :
    FNet T :=
  { done := cancelled,
    lanes := streams.map (fun w => ⟨w.init, w.out.closed, [], .loop⟩),
    wg := streams.length, closer := .wait, outClosed := false, got := [], fin := false }

/-- One scheduler move of `consumer <- FanIn <- streams`; `none` when the move
is not enabled. -/
def FNet.step {T : Type} (m : FMove) (st : FNet T) : Option (FNet T) :=
  match m with
  | .cancel => if st.done then none else some { st with done := true }
  | .srcAct i =>
    match st.lanes[i]? with
    | some l =>
      match (From.op l.src : Op (FromPc T) Empty T).act with
      | some (nx, _, isClose) =>
        let l1 : Lane T := { l with src := nx, closed := l.closed || isClose }
        some { st with lanes := st.lanes.set i l1 }
      | none => none
    | none => none
  | .srcDone i =>
    match st.lanes[i]? with
    | some l =>
      match (From.op l.src : Op (FromPc T) Empty T).doneOffer with
      | some nx =>
        let l1 : Lane T := { l with src := nx }
        if st.done then some { st with lanes := st.lanes.set i l1 } else none
      | none => none
    | none => none
  | .pass i =>
    match st.lanes[i]? with
    | some l =>
      match (From.op l.src : Op (FromPc T) Empty T).sendOffer, (FanIn.op l.fwd).recvOffer with
      | some (v, nx), some k =>
        let l1 : Lane T := { l with src := nx, fwd := k (some v), log := l.log ++ [v] }
        if l.closed then none else some { st with lanes := st.lanes.set i l1 }
      | _, _ => none
    | none => none
  | .eofIn i =>
    match st.lanes[i]? with
    | some l =>
      match (FanIn.op l.fwd).recvOffer with
      | some k =>
        let l1 : Lane T := { l with fwd := k none }
        if l.closed then some { st with lanes := st.lanes.set i l1 } else none
      | none => none
    | none => none
  | .fwdDone i =>
    match st.lanes[i]? with
    | some l =>
      match (FanIn.op l.fwd).doneOffer with
      | some nx =>
        let l1 : Lane T := { l with fwd := nx }
        if st.done then some { st with lanes := st.lanes.set i l1 } else none
      | none => none
    | none => none
  | .fwdAct i =>
    match st.lanes[i]? with
    | some l =>
      match FanIn.op l.fwd with
      | .wgDone nx =>
        let l1 : Lane T := { l with fwd := nx }
        some { st with lanes := st.lanes.set i l1, wg := st.wg - 1 }
      | _ => none
    | none => none
  | .emit i =>
    match st.lanes[i]? with
    | some l =>
      match (FanIn.op l.fwd).sendOffer with
      | some (v, nx) =>
        let l1 : Lane T := { l with fwd := nx }
        if st.outClosed || st.fin then none
        else some { st with lanes := st.lanes.set i l1, got := st.got ++ [(i, v)] }
      | none => none
    | none => none
  | .closerAct =>
    match FanIn.closerOp st.closer with
    | .wgWait nx => if st.wg = 0 then some { st with closer := nx } else none
    | .close nx => some { st with closer := nx, outClosed := true }
    | _ => none
  | .eof => if st.outClosed && !st.fin then some { st with fin := true } else none

/-- Replay a schedule of `consumer <- FanIn <- streams`. -/
def FNet.run {T : Type} : List FMove → FNet T → Option (FNet T)
  | [], st => some st
  | m :: ms, st => (FNet.step m st).bind (FNet.run ms)

/-- The values of lane `i` in a record of received values, in the order they
were received. -/
def FanIn.gotFrom {T : Type} (got : List (Nat × T)) (i : Nat) : List T :=
  (got.filter (fun p => p.1 == i)).map (fun p => p.2)

/-- The values the consumer got, in the order it got them. -/
def FNet.values {T : Type} (st : FNet T) : List T :=
  st.got.map (fun p => p.2)

/-- A schedule of `consumer <- FanIn <- streams` in which the context is never
cancelled. -/
def FNoCancel (ms : List FMove) : Prop := FMove.cancel ∉ ms

instance (ms : List FMove) : Decidable (FNoCancel ms) := by
  unfold FNoCancel; infer_instance

/-- Steps a forwarding goroutine of `FanIn` takes before its next receive. -/
def FanIn.rank {T : Type} : FanInPc T → Nat
  | .loop => 2
  | .sel _ => 3
  | .exit => 1
  | .halted => 0

/-- Steps the closing goroutine of `FanIn` still has to take. -/
def FanIn.closerRank : CloserPc → Nat
  | .wait => 2
  | .closing => 1
  | .halted => 0

/-- Whether a forwarding goroutine still holds its unit of the wait group. -/
def FanIn.live {T : Type} : FanInPc T → Nat
  | .halted => 0
  | _ => 1

/-- Invariant of one lane without cancellation: the feeding `From` sends `S`;
what the consumer got from the lane, plus the value in hand, is what crossed
the stream; the forwarding goroutine returns only after the stream closed. -/
def Lane.inv {T : Type} (S : List T) (sent : List T) (l : Lane T) : Prop :=
  From.inv S l.src l.closed l.log 0 ∧
  match l.fwd with
  | .loop => sent = l.log
  | .sel v => sent ++ [v] = l.log
  | .exit => sent = l.log ∧ l.closed = true
  | .halted => sent = l.log ∧ l.closed = true

/-- Termination measure of one lane. -/
def Lane.mu {T : Type} (l : Lane T) : Nat :=
  3 * From.rank l.src + FanIn.rank l.fwd

/-- The invariant of `consumer <- FanIn <- streams` without cancellation, the
stream `i` being `From(ctx, S i...)`. -/
def FNet.Inv {T : Type} (n : Nat) (S : Nat → List T) (st : FNet T) : Prop :=
  st.done = false ∧ st.lanes.length = n ∧
  (∀ i l, st.lanes[i]? = some l → Lane.inv (S i) (FanIn.gotFrom st.got i) l) ∧
  (∀ p, p ∈ st.got → p.1 < n) ∧
  st.wg = (st.lanes.map (fun l => FanIn.live l.fwd)).sum ∧
  (match st.closer with
   | .wait => st.outClosed = false
   | .closing => st.outClosed = false ∧ st.wg = 0
   | .halted => st.outClosed = true ∧ st.wg = 0) ∧
  (st.fin = true → st.outClosed = true)

/-- Termination measure of `consumer <- FanIn <- streams`. -/
def FNet.mu {T : Type} (st : FNet T) : Nat :=
  (st.lanes.map Lane.mu).sum + FanIn.closerRank st.closer + (if st.fin then 0 else 1)

/-- A schedule that reads `FanIn` over `FanOut(ctx, 2, From(ctx, 1, 2, 3))` to
closure, the two streams being forwarded alternately. -/
def Demo.fanIn2 : List FMove :=
  [.pass 0, .pass 1, .emit 0, .emit 1, .pass 1, .emit 1, .pass 0, .emit 0,
   .pass 0, .emit 0, .pass 1, .emit 1,
   .srcAct 0, .eofIn 0, .fwdAct 0, .srcAct 1, .eofIn 1, .fwdAct 1, .closerAct, .closerAct, .eof]

/-- The state `Demo.fanIn2` ends in. -/
def Demo.fanIn2End : FNet Nat :=
  { done := false,
    lanes := [⟨.halted, true, [1, 2, 3], .halted⟩, ⟨.halted, true, [1, 2, 3], .halted⟩],
    wg := 0, closer := .halted, outClosed := true,
    got := [(0, 1), (1, 1), (1, 2), (0, 2), (0, 3), (1, 3)], fin := true }

/-! ## Tee -/

/-- Control points of the goroutine of `Tee`: at `range OrDone(ctx, stream)`,
in the `for range 2` loop with `k` iterations left holding `v` and the local
copies of `out1`, `out2` (`true` while not yet set to nil), returning (the
deferred `close(out2)` pending), after it (the deferred `close(out1)`
pending), returned. -/
inductive TeePc (T : Type) where
  | loop : TeePc T
  | sel (k : Nat) (v : T) (o1 o2 : Bool) : TeePc T
  | exit : TeePc T
  | exit1 : TeePc T
  | halted : TeePc T
deriving DecidableEq, Repr

/-- Operations of the goroutine of `Tee`, which writes two channels: the
`range` receive, the three-case select (a send on a nil channel is never
ready: `none`), the two deferred closes. -/
inductive TeeOp (σ T : Type) where
  | halt : TeeOp σ T
  | recv (k : Option T → σ) : TeeOp σ T
  | select (onDone : σ) (v : T) (send1 send2 : Option σ) : TeeOp σ T
  | close2 (next : σ) : TeeOp σ T
  | close1 (next : σ) : TeeOp σ T

/-- Goroutine body of `Tee`:
`defer close(out1); defer close(out2); for v := range OrDone(ctx, stream) { var out1, out2 = out1, out2; for range 2 { select { case <-ctx.Done(): return; case out1 <- v: out1 = nil; case out2 <- v: out2 = nil } } }`.
Deferred calls run last-in first-out: `out2` is closed first. -/
def Tee.op {T : Type} : TeePc T → TeeOp (TeePc T) T
  | .loop => .recv (fun r => match r with
      | none => .exit
      | some v => .sel 2 v true true)
  | .sel 0 _ _ _ => .recv (fun r => match r with
      | none => .exit
      | some v => .sel 2 v true true)
  | .sel (k + 1) v o1 o2 =>
      .select .exit v (if o1 then some (.sel k v false o2) else none)
        (if o2 then some (.sel k v o1 false) else none)
  | .exit => .close2 .exit1
  | .exit1 => .close1 .halted
  | .halted => .halt

/-- State of `Tee(ctx, From(ctx, S...))` read by two consumers: the goroutine
of `From` and its stream, the goroutine of the `OrDone` that `Tee` ranges over
and its output (with the log of what crossed each), the goroutine of `Tee`,
its two outputs and the two consumers. -/
structure TNet (T : Type) where
  done : Bool
  src : FromPc T
  closed0 : Bool
  log0 : List T
  od : OrDonePc T
  odClosed : Bool
  log1 : List T
  tee : TeePc T
  out1Closed : Bool
  out2Closed : Bool
  got1 : List T
  got2 : List T
  fin1 : Bool
  fin2 : Bool
deriving DecidableEq, Repr

/-- Scheduler moves of `Tee(ctx, From(ctx, S...))` with its two consumers. -/
inductive TMove where
  | cancel   -- the context is cancelled
  | srcAct   -- From: close of its stream
  | srcDone  -- From: its select takes `<-ctx.Done()`
  | pass0    -- rendezvous from From to OrDone
  | eof0     -- OrDone: sees the stream closed
  | odDone   -- OrDone: a select takes `<-ctx.Done()`
  | odAct    -- OrDone: close(out)
  | pass1    -- rendezvous from OrDone to the range loop of Tee
  | eof1     -- Tee: its range sees the output of OrDone closed
  | teeDone  -- Tee: its select takes `<-ctx.Done()`
  | teeAct   -- Tee: a deferred close
  | emit1    -- rendezvous from Tee to the first consumer
  | emit2    -- rendezvous from Tee to the second consumer
  | eofC1    -- first consumer observes out1 closed
  | eofC2    -- second consumer observes out2 closed
deriving DecidableEq, Repr

/-- Initial state of `Tee(ctx, From(ctx, S...))` read by two consumers. -/
def TNet.init {T : Type} (S : List T) (cancelled : Bool) : TNet T :=
  let p : Worker (FromPc T) Empty T := From S
  let q : Worker (OrDonePc T) T T := OrDone
  { done := cancelled, src := p.init, closed0 := p.out.closed, log0 := [],
    od := q.init, odClosed := q.out.closed, log1 := [], tee := .loop,
    out1Closed := false, out2Closed := false, got1 := [], got2 := [],
    fin1 := false, fin2 := false }

/-- One scheduler move of `Tee(ctx, From(ctx, S...))`; `none` when the move is
not enabled. -/
def TNet.step {T : Type} (m : TMove) (st : TNet T) : Option (TNet T) :=
  match m with
  | .cancel => if st.done then none else some { st with done := true }
  | .srcAct =>
    match (From.op st.src : Op (FromPc T) Empty T).act with
    | some (nx, _, isClose) => some { st with src := nx, closed0 := st.closed0 || isClose }
    | none => none
  | .srcDone =>
    match (From.op st.src : Op (FromPc T) Empty T).doneOffer with
    | some nx => if st.done then some { st with src := nx } else none
    | none => none
  | .pass0 =>
    match (From.op st.src : Op (FromPc T) Empty T).sendOffer, (OrDone.op st.od).recvOffer with
    | some (v, nx), some k =>
      if st.closed0 then none
      else some { st with src := nx, od := k (some v), log0 := st.log0 ++ [v] }
    | _, _ => none
  | .eof0 =>
    match (OrDone.op st.od).recvOffer with
    | some k => if st.closed0 then some { st with od := k none } else none
    | none => none
  | .odDone =>
    match (OrDone.op st.od).doneOffer with
    | some nx => if st.done then some { st with od := nx } else none
    | none => none
  | .odAct =>
    match (OrDone.op st.od).act with
    | some (nx, _, isClose) => some { st with od := nx, odClosed := st.odClosed || isClose }
    | none => none
  | .pass1 =>
    match (OrDone.op st.od).sendOffer, Tee.op st.tee with
    | some (v, nx), .recv k =>
      if st.odClosed then none
      else some { st with od := nx, tee := k (some v), log1 := st.log1 ++ [v] }
    | _, _ => none
  | .eof1 =>
    match Tee.op st.tee with
    | .recv k => if st.odClosed then some { st with tee := k none } else none
    | _ => none
  | .teeDone =>
    match Tee.op st.tee with
    | .select d _ _ _ => if st.done then some { st with tee := d } else none
    | _ => none
  | .teeAct =>
    match Tee.op st.tee with
    | .close2 nx => some { st with tee := nx, out2Closed := true }
    | .close1 nx => some { st with tee := nx, out1Closed := true }
    | _ => none
  | .emit1 =>
    match Tee.op st.tee with
    | .select _ v (some nx) _ =>
      if st.out1Closed || st.fin1 then none
      else some { st with tee := nx, got1 := st.got1 ++ [v] }
    | _ => none
  | .emit2 =>
    match Tee.op st.tee with
    | .select _ v _ (some nx) =>
      if st.out2Closed || st.fin2 then none
      else some { st with tee := nx, got2 := st.got2 ++ [v] }
    | _ => none
  | .eofC1 => if st.out1Closed && !st.fin1 then some { st with fin1 := true } else none
  | .eofC2 => if st.out2Closed && !st.fin2 then some { st with fin2 := true } else none

/-- Replay a schedule of `Tee(ctx, From(ctx, S...))`. -/
def TNet.run {T : Type} : List TMove → TNet T → Option (TNet T)
  | [], st => some st
  | m :: ms, st => (TNet.step m st).bind (TNet.run ms)

/-- A schedule of `Tee(ctx, From(ctx, S...))` in which the context is never
cancelled. -/
def TNoCancel (ms : List TMove) : Prop := TMove.cancel ∉ ms

instance (ms : List TMove) : Decidable (TNoCancel ms) := by
  unfold TNoCancel; infer_instance

/-- Steps the goroutine of `OrDone` takes before its next receive. -/
def OrDone.rank {T : Type} : OrDonePc T → Nat
  | .loop => 2
  | .sel _ => 3
  | .exit => 1
  | .halted => 0

/-- Invariant of `OrDone(ctx, stream)` without cancellation: what was sent,
plus the value in hand, is what was received, and the goroutine returns only
after the stream closed. -/
def OrDone.inv {T : Type} (s : OrDonePc T) (cl1 : Bool) (log : List T) (_c : Nat)
    (cl2 : Bool) (sent : List T) : Prop :=
  match s with
  | .loop => cl2 = false ∧ sent = log
  | .sel v => cl2 = false ∧ sent ++ [v] = log
  | .exit => cl2 = false ∧ cl1 = true ∧ sent = log
  | .halted => cl2 = true ∧ cl1 = true ∧ sent = log

/-- Steps the goroutine of `Tee` takes before its next receive. -/
def Tee.rank {T : Type} : TeePc T → Nat
  | .loop => 3
  | .sel k _ _ _ => 3 + k
  | .exit => 2
  | .exit1 => 1
  | .halted => 0

/-- Invariant of `Tee` without cancellation: each output has been sent what
`Tee` received, less the value in hand while the local copy of that output is
not yet nil; the iterations left are the local copies not yet nil; `out2` is
closed before `out1`, both only after the output of `OrDone` closed. -/
def Tee.inv {T : Type} (st : TNet T) : Prop :=
  match st.tee with
  | .loop => st.got1 = st.log1 ∧ st.got2 = st.log1 ∧ st.out1Closed = false ∧
      st.out2Closed = false
  | .sel k v o1 o2 =>
      st.got1 ++ (if o1 then [v] else []) = st.log1 ∧
      st.got2 ++ (if o2 then [v] else []) = st.log1 ∧
      k = (if o1 then 1 else 0) + (if o2 then 1 else 0) ∧
      st.out1Closed = false ∧ st.out2Closed = false
  | .exit => st.got1 = st.log1 ∧ st.got2 = st.log1 ∧ st.odClosed = true ∧
      st.out1Closed = false ∧ st.out2Closed = false
  | .exit1 => st.got1 = st.log1 ∧ st.got2 = st.log1 ∧ st.odClosed = true ∧
      st.out1Closed = false ∧ st.out2Closed = true
  | .halted => st.got1 = st.log1 ∧ st.got2 = st.log1 ∧ st.odClosed = true ∧
      st.out1Closed = true ∧ st.out2Closed = true

/-- The invariant of `Tee(ctx, From(ctx, S...))` without cancellation. -/
def TNet.Inv {T : Type} (S : List T) (st : TNet T) : Prop :=
  st.done = false ∧
  From.inv S st.src st.closed0 st.log0 0 ∧
  OrDone.inv st.od st.closed0 st.log0 0 st.odClosed st.log1 ∧
  Tee.inv st ∧
  (st.fin1 = true → st.out1Closed = true) ∧ (st.fin2 = true → st.out2Closed = true)

/-- Termination measure of `Tee(ctx, From(ctx, S...))`. -/
def TNet.mu {T : Type} (st : TNet T) : Nat :=
  4 * From.rank st.src + 3 * OrDone.rank st.od + Tee.rank st.tee +
  (if st.fin1 then 0 else 1) + (if st.fin2 then 0 else 1)

/-- A schedule that reads both outputs of `Tee(ctx, From(ctx, 1, 2, 3))` to
closure; the first value goes to `out2` first, the others to `out1` first. -/
def Demo.tee3 : List TMove :=
  [.pass0, .pass1, .emit2, .emit1, .pass0, .pass1, .emit1, .emit2, .pass0, .pass1, .emit1,
   .emit2, .srcAct, .eof0, .odAct, .eof1, .teeAct, .eofC2, .teeAct, .eofC1]

/-- The state `Demo.tee3` ends in. -/
def Demo.tee3End : TNet Nat :=
  { done := false, src := .halted, closed0 := true, log0 := [1, 2, 3], od := .halted,
    odClosed := true, log1 := [1, 2, 3], tee := .halted, out1Closed := true,
    out2Closed := true, got1 := [1, 2, 3], got2 := [1, 2, 3], fin1 := true, fin2 := true }

/-! ## Linear pipelines of three goroutines -/

/-- State of `consumer <- stage2 <- stage1 <- producer`, every channel
unbuffered: the cancellation flag, the three goroutines with the closed flags
of their outputs, and the consumer. -/
structure Net3 (σ₁ σ₂ σ₃ C : Type) where
  done : Bool
  s1 : σ₁
  closed1 : Bool
  s2 : σ₂
  closed2 : Bool
  s3 : σ₃
  closed3 : Bool
  got : List C
  fin : Bool
deriving DecidableEq, Repr

/-- Scheduler moves of a pipeline of three goroutines. -/
inductive Move3 where
  | cancel                      -- the context is cancelled
  | act1 | act2 | act3          -- a goroutine calls its callback or closes its output
  | done1 | done2 | done3       -- a select of a goroutine takes `<-ctx.Done()`
  | pass1 | pass2               -- rendezvous on the first, the second channel
  | eof1 | eof2                 -- a receive observes the first, the second channel closed
  | emit                        -- rendezvous from the last goroutine to the consumer
  | eof3                        -- consumer observes the output closed
deriving DecidableEq, Repr

/-- Initial state of `R(ctx, Q(ctx, P(ctx, ...)))` read by a consumer. -/
def Net3.init {σ₁ σ₂ σ₃ I A B C : Type} (P : Worker σ₁ I A) (Q : Worker σ₂ A B)
    (R : Worker σ₃ B C) (cancelled : Bool) : Net3 σ₁ σ₂ σ₃ C :=
  { done := cancelled, s1 := P.init, closed1 := P.out.closed, s2 := Q.init,
    closed2 := Q.out.closed, s3 := R.init, closed3 := R.out.closed, got := [], fin := false }

/-- One scheduler move of a pipeline of three goroutines; `none` when the move
is not enabled. -/
def Net3.step {σ₁ σ₂ σ₃ I A B C : Type} (P : Worker σ₁ I A) (Q : Worker σ₂ A B)
    (R : Worker σ₃ B C) (m : Move3) (st : Net3 σ₁ σ₂ σ₃ C) : Option (Net3 σ₁ σ₂ σ₃ C) :=
  match m with
  | .cancel => if st.done then none else some { st with done := true }
  | .act1 =>
    match (P.op st.s1).act with
    | some (nx, _, isClose) => some { st with s1 := nx, closed1 := st.closed1 || isClose }
    | none => none
  | .act2 =>
    match (Q.op st.s2).act with
    | some (nx, _, isClose) => some { st with s2 := nx, closed2 := st.closed2 || isClose }
    | none => none
  | .act3 =>
    match (R.op st.s3).act with
    | some (nx, _, isClose) => some { st with s3 := nx, closed3 := st.closed3 || isClose }
    | none => none
  | .done1 =>
    match (P.op st.s1).doneOffer with
    | some nx => if st.done then some { st with s1 := nx } else none
    | none => none
  | .done2 =>
    match (Q.op st.s2).doneOffer with
    | some nx => if st.done then some { st with s2 := nx } else none
    | none => none
  | .done3 =>
    match (R.op st.s3).doneOffer with
    | some nx => if st.done then some { st with s3 := nx } else none
    | none => none
  | .pass1 =>
    match (P.op st.s1).sendOffer, (Q.op st.s2).recvOffer with
    | some (v, nx), some k =>
      if st.closed1 then none else some { st with s1 := nx, s2 := k (some v) }
    | _, _ => none
  | .pass2 =>
    match (Q.op st.s2).sendOffer, (R.op st.s3).recvOffer with
    | some (v, nx), some k =>
      if st.closed2 then none else some { st with s2 := nx, s3 := k (some v) }
    | _, _ => none
  | .eof1 =>
    match (Q.op st.s2).recvOffer with
    | some k => if st.closed1 then some { st with s2 := k none } else none
    | none => none
  | .eof2 =>
    match (R.op st.s3).recvOffer with
    | some k => if st.closed2 then some { st with s3 := k none } else none
    | none => none
  | .emit =>
    match (R.op st.s3).sendOffer with
    | some (v, nx) =>
      if st.closed3 || st.fin then none else some { st with s3 := nx, got := st.got ++ [v] }
    | none => none
  | .eof3 => if st.closed3 && !st.fin then some { st with fin := true } else none

/-- Replay a schedule of a pipeline of three goroutines. -/
def Net3.run {σ₁ σ₂ σ₃ I A B C : Type} (P : Worker σ₁ I A) (Q : Worker σ₂ A B)
    (R : Worker σ₃ B C) : List Move3 → Net3 σ₁ σ₂ σ₃ C → Option (Net3 σ₁ σ₂ σ₃ C)
  | [], st => some st
  | m :: ms, st => (Net3.step P Q R m st).bind (Net3.run P Q R ms)

/-- A schedule of `OrDone(ctx, Take(ctx, From(ctx, 1, 2, 3), 3))` in which the
context is cancelled while `OrDone` holds the value 1 and `Take` is blocked in
its plain `out <- v` with the value 2: the inner select of `OrDone` takes
`<-ctx.Done()` (1 is dropped), its outer select receives 2 from the blocked
`Take`, its inner select sends 2 to the consumer; then every select takes
`<-ctx.Done()`. -/
def Demo.orDoneTake : List Move3 :=
  [.pass1, .pass2, .pass1, .cancel, .done3, .pass2, .emit,
   .done1, .act1, .done2, .act2, .done3, .act3, .eof3]

/-- The state `Demo.orDoneTake` ends in. -/
def Demo.orDoneTakeEnd : Net3 (FromPc Nat) (TakePc Nat) (OrDonePc Nat) Nat :=
  { done := true, s1 := .halted, closed1 := true, s2 := .halted, closed2 := true,
    s3 := .halted, closed3 := true, got := [2], fin := true }

/-- A schedule of `Bridge(ctx, ChanChan(ctx, 3, fn))` in which the context is
cancelled in the middle of the stream: the three inner goroutines have sent
and closed, `Bridge` delivers `fn 0`, receives `fn 1` from its `OrDone`, the
context is cancelled, the inner select of `Bridge` takes `<-ctx.Done()`
(`fn 1` is dropped), and the selects that follow take their ready channel
operation: `fn 2` is delivered. -/
def Demo.bridgeMid : List BMove :=
  [.ccAct, .ccSend, .ccAct, .ccSend, .ccAct, .ccSend, .ccAct,
   .inAct 0, .inSend 0, .inAct 0, .inAct 1, .inSend 1, .inAct 1, .inAct 2, .inSend 2, .inAct 2,
   .brRecv, .brAct, .odRecv, .odPass, .emit, .odRecv, .odAct, .brEof,
   .brRecv, .brAct, .odRecv, .odPass, .cancel, .brDone, .odRecv, .odAct, .brEof,
   .brRecv, .brAct, .odRecv, .odPass, .emit, .odRecv, .odAct, .brEof,
   .brRecv, .brAct, .eof]

/-- The state `Demo.bridgeMid` ends in for `fn i = i * 10`. -/
def Demo.bridgeMidEnd : BNet Nat :=
  { done := true, cc := .halted, chStream := ⟨3, [], true⟩,
    inner := [⟨0, .halted, ⟨1, [], true⟩⟩, ⟨1, .halted, ⟨1, [], true⟩⟩,
      ⟨2, .halted, ⟨1, [], true⟩⟩],
    calls := 3, bridge := .halted, taken := 3, od := .halted, odIn := 2, odClosed := true,
    cons := 3, outClosed := true, got := [0, 20], fin := true }

/-! ## Goroutines that cancellation does not release -/

/-- A schedule of `Take(ctx, From(ctx, 1, 2, 3), 2)` whose consumer is not
receiving: one value passes from `From` to `Take`, which goes on to its plain
`out <- v`; the context is cancelled; `From` takes `<-ctx.Done()` and closes
its stream. -/
def Demo.takeParked : List Move :=
  [.pass, .cancel, .done1, .act1]

/-- The state `Demo.takeParked` ends in: the goroutine of `Take` holds `1` at
its plain send. -/
def Demo.takeParkedEnd : Net (FromPc Nat) (TakePc Nat) Nat Nat :=
  { done := true, s1 := .halted, calls1 := 0, closed1 := true, log1 := [1],
    s2 := .sendv 1 1, calls2 := 0, c2 := ⟨0, [], false⟩, got := [], fin := false }

/-- A stream handed in by the caller, `stream := make(chan T)`, fed by a
goroutine that sends `vs` with plain sends and then does nothing more: after
the last value nobody sends on the stream and nobody closes it. -/
def Demo.feed {T : Type} (vs : List T) : Worker (List T) Empty T :=
  { init := vs
    op := fun s => match s with
      | [] => .halt
      | v :: rest => .send v rest
    out := Chan.make 0 }

/-- The state of a stage over `Demo.feed` once the values have crossed and the
context has been cancelled, the stage being at `s2` with nothing delivered. -/
def Demo.starved {σ T U : Type} (log : List T) (s2 : σ) (calls2 : Nat) : Net (List T) σ T U :=
  { done := true, s1 := [], calls1 := 0, closed1 := false, log1 := log,
    s2 := s2, calls2 := calls2, c2 := ⟨0, [], false⟩, got := [], fin := false }

/-- As an input of `FanIn`: a stream made by the caller on which nobody sends
and which nobody closes (no goroutine feeds it, the channel stays open). -/
def Demo.silentLane {T : Type} : Worker (FromPc T) Empty T :=
  { init := .halted, op := From.op, out := Chan.make 0 }

/-- The state of `FanIn(ctx, stream)` over `Demo.silentLane` after the context
has been cancelled: the forwarding goroutine is at its `range`, the closing
goroutine in `wg.Wait()`. -/
def Demo.fanInStarved : FNet Nat :=
  { done := true, lanes := [⟨.halted, false, [], .loop⟩], wg := 1, closer := .wait,
    outClosed := false, got := [], fin := false }

/-! ## Combinator calls on channel references -/

/-- A goroutine started by a combinator call together with the channels it was
handed: the stream it receives from and the channel it sends on and closes.
A Go channel value is a reference; here it is the index of the channel among
the channels made so far, and two streams are the same stream exactly when
the indices are equal. -/
structure Goroutine (T : Type) where
  σ : Type
  worker : Worker σ T T
  stream : Nat
  out : Nat

/-- What a program has built so far: the cancellation flag of the context, the
channels made and the goroutines started. -/
structure Runtime (T : Type) where
  done : Bool
  chans : List (Chan T)
  gos : List (Goroutine T)

/-- The tail of a combinator that wraps its input,
`out := make(chan T, cap); go func() { ... }(); return out`: one more channel,
one more goroutine reading `stream`, and the new channel is returned. -/
def Runtime.spawn {T σ : Type} (rt : Runtime T) (w : Worker σ T T) (stream : Nat) :
    Nat × Runtime T :=
  (rt.chans.length,
    { rt with chans := rt.chans ++ [w.out],
              gos := rt.gos ++ [⟨σ, w, stream, rt.chans.length⟩] })

/-- The call `Skip(ctx, stream, eq)` as a function of the program state:
`if eq == nil { return stream }`, otherwise the wrapping goroutine. -/
def Skip.call {T : Type} (rt : Runtime T) (stream : Nat) (eq : Option (T → Bool)) :
    Nat × Runtime T :=
  match Skip eq with
  | none => (stream, rt)
  | some w => rt.spawn w stream

/-- The call `SkipN(ctx, stream, n)` as a function of the program state:
`if n == 0 { return stream }`, otherwise the wrapping goroutine. -/
def SkipN.call {T : Type} (rt : Runtime T) (stream : Nat) (n : Nat) : Nat × Runtime T :=
  match (SkipN n : Option (Worker (SkipNPc T) T T)) with
  | none => (stream, rt)
  | some w => rt.spawn w stream

/-! ## Tee under cancellation -/

/-- What relates the two outputs of `Tee` at each control point of its
goroutine, cancellation or not: at the `range` they have been sent the same
values; in a round, an output whose local copy is already nil has been sent
the value in hand and the other has not, and the iterations left are the
local copies not yet nil; after the return they are equal, or the context is
cancelled and one has a single value more.  `out2` is closed before `out1`,
both by the goroutine's return only. -/
def Tee.lock {T : Type} (done : Bool) (tee : TeePc T) (c1 c2 : Bool) (g1 g2 : List T) : Prop :=
  match tee with
  | .loop => g1 = g2 ∧ c1 = false ∧ c2 = false
  | .sel k v o1 o2 =>
      k = (if o1 then 1 else 0) + (if o2 then 1 else 0) ∧
      g1 ++ (if o1 then [v] else []) = g2 ++ (if o2 then [v] else []) ∧
      c1 = false ∧ c2 = false
  | .exit =>
      (g1 = g2 ∨ (done = true ∧ ∃ v, g1 = g2 ++ [v] ∨ g2 = g1 ++ [v])) ∧
      c1 = false ∧ c2 = false
  | .exit1 =>
      (g1 = g2 ∨ (done = true ∧ ∃ v, g1 = g2 ++ [v] ∨ g2 = g1 ++ [v])) ∧
      c1 = false ∧ c2 = true
  | .halted =>
      (g1 = g2 ∨ (done = true ∧ ∃ v, g1 = g2 ++ [v] ∨ g2 = g1 ++ [v])) ∧
      c1 = true ∧ c2 = true

/-- The invariant of `Tee(ctx, From(ctx, S...))` under every schedule. -/
def TNet.Lock {T : Type} (st : TNet T) : Prop :=
  (st.fin1 = true → st.out1Closed = true) ∧ (st.fin2 = true → st.out2Closed = true) ∧
  Tee.lock st.done st.tee st.out1Closed st.out2Closed st.got1 st.got2

/-- The goroutine of `Tee` has returned (its deferred closes may be pending). -/
def TeePc.returned {T : Type} : TeePc T → Bool
  | .exit => true
  | .exit1 => true
  | .halted => true
  | _ => false

/-- A schedule of `Tee(ctx, From(ctx, 1, 2, 3))` in which the context is
cancelled between the two sends of the first round: `1` goes to `out1`, the
context is cancelled, the select of `Tee` takes `<-ctx.Done()`, both outputs
are closed and read to closure. -/
def Demo.teeSplit : List TMove :=
  [.pass0, .pass1, .emit1, .cancel, .teeDone, .teeAct, .teeAct, .eofC1, .eofC2]

/-- The state `Demo.teeSplit` ends in: `[1]` on the first output, nothing on
the second. -/
def Demo.teeSplitEnd : TNet Nat :=
  { done := true, src := .loop [2, 3], closed0 := false, log0 := [1], od := .loop,
    odClosed := false, log1 := [1], tee := .halted, out1Closed := true,
    out2Closed := true, got1 := [1], got2 := [], fin1 := true, fin2 := true }

/-! # Theorems -/

/-! ## Linear pipelines: the invariant is kept and every step lowers the measure -/

theorem net_step_ok {σ₁ σ₂ I A B : Type} {P : Worker σ₁ I A} {Q : Worker σ₂ A B}
    {IP : σ₁ → Bool → List A → Nat → Prop} {r1 : σ₁ → Nat}
    {IQ : σ₂ → Bool → List A → Nat → Bool → List B → Prop} {r2 : σ₂ → Nat}
    {uP dP uQ dQ : Nat}
    (hP : ProducerOk P IP r1 uP dP) (hQ : StageOk Q IQ r2 uQ dQ) (hw : uP + 2 * uQ < dP + 2 * dQ)
    (st : Net σ₁ σ₂ A B) (m : Move) (st' : Net σ₁ σ₂ A B)
    (hI : Net.Inv IP IQ st) (hm : m ≠ Move.cancel) (h : Net.step P Q m st = some st') :
    Net.Inv IP IQ st' ∧ Net.mu r1 r2 st' < Net.mu r1 r2 st := by
  obtain ⟨done, s1, calls1, closed1, log1, s2, calls2, ⟨cap, buf, cl2⟩, got, fin⟩ := st
  obtain ⟨hd, h1, h2, hcap, hfin⟩ := hI
  simp only at hd h1 h2 hcap hfin
  subst hd
  cases m
  case cancel => exact absurd rfl hm
  case act1 =>
    simp only [Net.step] at h
    cases ha : (P.op s1).act with
    | none => simp [ha] at h
    | some r =>
      obtain ⟨nx, isCall, isClose⟩ := r
      simp only [ha, Option.some.injEq] at h
      subst h
      obtain ⟨hi, hr⟩ := hP.act _ _ _ _ _ _ _ h1 ha
      refine ⟨⟨rfl, hi, ?_, hcap, hfin⟩, ?_⟩
      · cases isClose
        · simpa using h2
        · cases closed1
          · simpa using hQ.env _ _ _ _ _ h2
          · simpa using h2
      · simp only [Net.mu]; omega
  case done1 =>
    simp only [Net.step] at h
    cases hd : (P.op s1).doneOffer <;> simp [hd] at h
  case pass =>
    simp only [Net.step] at h
    cases hs : (P.op s1).sendOffer with
    | none => simp [hs] at h
    | some r =>
      obtain ⟨v, nx⟩ := r
      cases hr : (Q.op s2).recvOffer with
      | none => simp [hs, hr] at h
      | some k =>
        cases closed1
        · simp only [hs, hr, Bool.false_eq_true, if_false, Option.some.injEq] at h
          subst h
          obtain ⟨hi1, hr1⟩ := hP.send _ _ _ _ _ h1 hs
          obtain ⟨hi2, hr2⟩ := hQ.recv _ _ _ _ _ _ v h2 hr
          refine ⟨⟨rfl, hi1, hi2, hcap, hfin⟩, ?_⟩
          simp only [Net.mu]; omega
        · simp [hs, hr] at h
  case eof1 =>
    simp only [Net.step] at h
    cases hr : (Q.op s2).recvOffer with
    | none => simp [hr] at h
    | some k =>
      cases closed1
      · simp [hr] at h
      · simp only [hr, if_true, Option.some.injEq] at h
        subst h
        obtain ⟨hi2, hr2⟩ := hQ.eof _ _ _ _ _ _ h2 hr
        refine ⟨⟨rfl, h1, hi2, hcap, hfin⟩, ?_⟩
        simp only [Net.mu]; omega
  case act2 =>
    simp only [Net.step] at h
    cases ha : (Q.op s2).act with
    | none => simp [ha] at h
    | some r =>
      obtain ⟨nx, isCall, isClose⟩ := r
      simp only [ha, Option.some.injEq] at h
      subst h
      obtain ⟨hi, hr⟩ := hQ.act _ _ _ _ _ _ _ _ _ h2 ha
      refine ⟨⟨rfl, h1, hi, hcap, ?_⟩, ?_⟩
      · intro hf
        obtain ⟨hc, hb⟩ := hfin hf
        simp [hc, hb]
      · simp only [Net.mu]; omega
  case done2 =>
    simp only [Net.step] at h
    cases hd : (Q.op s2).doneOffer <;> simp [hd] at h
  case emit =>
    simp only [Net.step] at h
    cases hs : (Q.op s2).sendOffer with
    | none => simp [hs] at h
    | some r =>
      obtain ⟨v, nx⟩ := r
      cases cl2
      · obtain ⟨hi, hr⟩ := hQ.emit _ _ _ _ _ _ _ h2 hs
        have hfin' : fin = false := by
          cases fin
          · rfl
          · simpa using (hfin rfl).1
        subst hfin'
        simp only [hs, Bool.false_eq_true, if_false] at h
        by_cases hc : cap = 0
        · subst hc
          have hb : buf = [] := by simpa using hcap
          subst hb
          simp only [if_true, Option.some.injEq] at h
          subst h
          refine ⟨⟨rfl, h1, by simpa using hi, by simp, by simp⟩, ?_⟩
          simp only [Net.mu]; simp; omega
        · simp only [hc, if_false] at h
          by_cases hl : buf.length < cap
          · simp only [hl, if_true, Option.some.injEq] at h
            subst h
            refine ⟨⟨rfl, h1, by simpa [List.append_assoc] using hi, ?_, by simp⟩, ?_⟩
            · simp; omega
            · simp only [Net.mu]; simp; omega
          · simp [hl] at h
      · simp [hs] at h
  case pull =>
    simp only [Net.step] at h
    cases buf with
    | nil => simp at h
    | cons v rest =>
      cases fin
      · simp only [Bool.false_eq_true, if_false, Option.some.injEq] at h
        subst h
        refine ⟨⟨rfl, h1, by simpa [List.append_assoc] using h2, ?_, by simp⟩, ?_⟩
        · simp at hcap ⊢; omega
        · simp only [Net.mu]; simp
      · simp at h
  case eof2 =>
    simp only [Net.step] at h
    cases buf with
    | nil =>
      cases cl2 <;> cases fin <;> simp at h
      subst h
      refine ⟨⟨rfl, h1, h2, hcap, by simp⟩, ?_⟩
      simp only [Net.mu]; simp
    | cons v rest => simp at h

theorem net_run_ok {σ₁ σ₂ I A B : Type} {P : Worker σ₁ I A} {Q : Worker σ₂ A B}
    {IP : σ₁ → Bool → List A → Nat → Prop} {r1 : σ₁ → Nat}
    {IQ : σ₂ → Bool → List A → Nat → Bool → List B → Prop} {r2 : σ₂ → Nat}
    {uP dP uQ dQ : Nat}
    (hP : ProducerOk P IP r1 uP dP) (hQ : StageOk Q IQ r2 uQ dQ) (hw : uP + 2 * uQ < dP + 2 * dQ) :
    ∀ (ms : List Move) (st st' : Net σ₁ σ₂ A B), Net.Inv IP IQ st → NoCancel ms →
      Net.run P Q ms st = some st' →
      Net.Inv IP IQ st' ∧ Net.mu r1 r2 st' + ms.length ≤ Net.mu r1 r2 st := by
  intro ms
  induction ms with
  | nil =>
    intro st st' hI _ h
    simp only [Net.run, Option.some.injEq] at h
    subst h
    exact ⟨hI, by simp⟩
  | cons m ms ih =>
    intro st st' hI hnc h
    simp only [Net.run] at h
    cases hs : Net.step P Q m st with
    | none => simp [hs] at h
    | some mid =>
      simp only [hs, Option.some_bind] at h
      have hm : m ≠ Move.cancel := fun e => hnc (by simp [e])
      have hms : NoCancel ms := fun e => hnc (by simp [e])
      obtain ⟨hI1, hμ1⟩ := net_step_ok hP hQ hw st m mid hI hm hs
      obtain ⟨hI2, hμ2⟩ := ih mid st' hI1 hms h
      refine ⟨hI2, ?_⟩
      simp only [List.length_cons]
      omega

theorem net_progress {σ₁ σ₂ I A B : Type} {P : Worker σ₁ I A} {Q : Worker σ₂ A B}
    {IP : σ₁ → Bool → List A → Nat → Prop} {r1 : σ₁ → Nat}
    {IQ : σ₂ → Bool → List A → Nat → Bool → List B → Prop} {r2 : σ₂ → Nat}
    {uP dP uQ dQ : Nat}
    (hP : ProducerOk P IP r1 uP dP) (hQ : StageOk Q IQ r2 uQ dQ)
    (st : Net σ₁ σ₂ A B) (hI : Net.Inv IP IQ st) (hf : st.fin = false) :
    ∃ m, m ≠ Move.cancel ∧ (Net.step P Q m st).isSome = true := by
  obtain ⟨done, s1, calls1, closed1, log1, s2, calls2, ⟨cap, buf, cl2⟩, got, fin⟩ := st
  obtain ⟨hd, h1, h2, hcap, hfin⟩ := hI
  simp only at hd h1 h2 hcap hfin hf
  subst hd hf
  cases buf with
  | cons v rest => exact ⟨.pull, by decide, by simp [Net.step]⟩
  | nil =>
    rcases hQ.live _ _ _ _ _ _ h2 with ha | hr | ⟨hc, hs⟩ | hc
    · refine ⟨.act2, by decide, ?_⟩
      cases hx : (Q.op s2).act with
      | none => simp [hx] at ha
      | some r => obtain ⟨nx, a, b⟩ := r; simp [Net.step, hx]
    · cases hk : (Q.op s2).recvOffer with
      | none => simp [hk] at hr
      | some k =>
        rcases hP.live _ _ _ _ h1 with ha | ⟨hc, hs⟩ | hc
        · refine ⟨.act1, by decide, ?_⟩
          cases hx : (P.op s1).act with
          | none => simp [hx] at ha
          | some r => obtain ⟨nx, a, b⟩ := r; simp [Net.step, hx]
        · refine ⟨.pass, by decide, ?_⟩
          cases hx : (P.op s1).sendOffer with
          | none => simp [hx] at hs
          | some r => obtain ⟨v, nx⟩ := r; simp [Net.step, hx, hk, hc]
        · exact ⟨.eof1, by decide, by simp [Net.step, hk, hc]⟩
    · refine ⟨.emit, by decide, ?_⟩
      cases hx : (Q.op s2).sendOffer with
      | none => simp [hx] at hs
      | some r =>
        obtain ⟨v, nx⟩ := r
        by_cases h0 : cap = 0
        · simp [Net.step, hx, hc, h0]
        · have : 0 < cap := Nat.pos_of_ne_zero h0
          simp [Net.step, hx, hc, h0, this]
    · exact ⟨.eof2, by decide, by simp [Net.step, hc]⟩

theorem from_ok {T : Type} (S : List T) : ProducerOk (From S) (From.inv S) From.rank 0 1 where
  act := by
    intro s cl log c nx isCall isClose hi h
    rcases s with (_ | ⟨v, vs⟩) | _ | _ <;>
      simp [From, From.op, Op.act, From.inv] at h hi
    obtain ⟨rfl, rfl, rfl⟩ := h
    simpa [From.inv, From.rank] using hi.2
  send := by
    intro s log c v nx hi h
    rcases s with (_ | ⟨w, vs⟩) | _ | _ <;>
      simp [From, From.op, Op.sendOffer, From.inv] at h hi
    obtain ⟨rfl, rfl⟩ := h
    simpa [From.inv, From.rank] using hi
  live := by
    intro s cl log c hi
    rcases s with (_ | ⟨w, vs⟩) | _ | _ <;>
      simp [From, From.op, Op.act, Op.sendOffer, From.inv] at hi ⊢
    exact hi.1

theorem take_op_eq {T : Type} (n : Nat) : (Take n : Worker (TakePc T) T T).op = Take.op := by
  unfold Take; split <;> rfl

theorem take_ok {T : Type} (n : Nat) : StageOk (Take n : Worker (TakePc T) T T) (Take.inv n) Take.rank 0 1 where
  env := by
    intro s log c cl2 sent hi
    rcases s with (_ | _ | _ | _) | _ | _ | _ | _ <;> simp_all [Take.inv]
  act := by
    intro s cl1 log c cl2 sent nx isCall isClose hi h
    rw [take_op_eq] at h
    rcases s with (_ | _ | _ | _) | (_ | k) | _ | _ | _ <;>
      simp [Take.op, First.op, Op.lift, Op.act] at h <;>
      obtain ⟨rfl, rfl, rfl⟩ := h <;>
      simp_all [Take.inv, Take.rank]
  recv := by
    intro s log c cl2 sent k v hi h
    rw [take_op_eq] at h
    rcases s with (_ | _ | _ | _) | (_ | k) | _ | _ | _ <;>
      simp [Take.op, First.op, Op.lift, Op.recvOffer] at h <;>
      subst h <;>
      simp_all [Take.inv, Take.rank]
    omega
  eof := by
    intro s log c cl2 sent k hi h
    rw [take_op_eq] at h
    rcases s with (_ | _ | _ | _) | (_ | k) | _ | _ | _ <;>
      simp [Take.op, First.op, Op.lift, Op.recvOffer] at h <;>
      subst h <;>
      simp_all [Take.inv, Take.rank]
    omega
  emit := by
    intro s cl1 log c sent v nx hi h
    rw [take_op_eq] at h
    rcases s with (_ | _ | _ | _) | (_ | k) | _ | _ | _ <;>
      simp [Take.op, First.op, Op.lift, Op.sendOffer] at h <;>
      obtain ⟨rfl, rfl⟩ := h <;>
      simp_all [Take.inv, Take.rank]
  live := by
    intro s cl1 log c cl2 sent hi
    rw [take_op_eq]
    rcases s with (_ | _ | _ | _) | (_ | k) | _ | _ | _ <;>
      simp_all [Take.op, First.op, Op.lift, Op.act, Op.sendOffer, Op.recvOffer, Take.inv]

theorem producer_ok_scale {σ₁ I A : Type} {P : Worker σ₁ I A}
    {inv : σ₁ → Bool → List A → Nat → Prop} {rank : σ₁ → Nat} {up down : Nat}
    (h : ProducerOk P inv rank up down) (w : Nat) (hw : 0 < w) :
    ProducerOk P inv (fun s => w * rank s) (w * up) (w * down) where
  act := by
    intro s cl log c nx isCall isClose hi ha
    obtain ⟨h1, h2⟩ := h.act s cl log c nx isCall isClose hi ha
    exact ⟨h1, Nat.mul_lt_mul_of_pos_left h2 hw⟩
  send := by
    intro s log c v nx hi hs
    obtain ⟨h1, h2⟩ := h.send s log c v nx hi hs
    refine ⟨h1, ?_⟩
    have := Nat.mul_le_mul_left w h2
    simp only [Nat.mul_add] at this
    exact this
  live := h.live

theorem skip_ok {T : Type} (eq : T → Bool) :
    StageOk ({ init := .loop, op := Skip.op eq, out := Chan.make 0 } : Worker (SkipPc T) T T)
      (Skip.inv eq) Skip.rank 2 0 where
  env := by
    intro s log c cl2 sent hi
    rcases s with _ | _ | _ | _ | _ <;> simp_all [Skip.inv]
  act := by
    intro s cl1 log c cl2 sent nx isCall isClose hi h
    rcases s with _ | v | _ | _ | _ <;> simp [Skip.op, Op.act] at h
    · obtain ⟨rfl, rfl, rfl⟩ := h
      cases he : eq v <;> simp_all [Skip.inv, Skip.rank]
    · obtain ⟨rfl, rfl, rfl⟩ := h
      simp_all [Skip.inv, Skip.rank]
  recv := by
    intro s log c cl2 sent k v hi h
    rcases s with _ | _ | _ | _ | _ <;> simp [Skip.op, Op.recvOffer] at h
    subst h
    cases he : eq v <;> simp_all [Skip.inv, Skip.rank, List.filter_append]
  eof := by
    intro s log c cl2 sent k hi h
    rcases s with _ | _ | _ | _ | _ <;> simp [Skip.op, Op.recvOffer] at h
    subst h
    simp_all [Skip.inv, Skip.rank]
  emit := by
    intro s cl1 log c sent v nx hi h
    rcases s with _ | _ | _ | _ | _ <;> simp [Skip.op, Op.sendOffer] at h
    obtain ⟨rfl, rfl⟩ := h
    simp_all [Skip.inv, Skip.rank]
  live := by
    intro s cl1 log c cl2 sent hi
    rcases s with _ | _ | _ | _ | _ <;>
      simp_all [Skip.op, Op.act, Op.sendOffer, Op.recvOffer, Skip.inv]

theorem map_ok {T U : Type} (fn : T → U) : StageOk (Map fn) (Map.inv fn) Map.rank 2 0 where
  env := by
    intro s log c cl2 sent hi
    rcases s with _ | _ | _ | _ | _ <;> simp_all [Map.inv]
  act := by
    intro s cl1 log c cl2 sent nx isCall isClose hi h
    rcases s with _ | v | _ | _ | _ <;> simp [Map, Map.op, Op.act] at h <;>
      obtain ⟨rfl, rfl, rfl⟩ := h <;> simp_all [Map.inv, Map.rank]
  recv := by
    intro s log c cl2 sent k v hi h
    rcases s with _ | _ | _ | _ | _ <;> simp [Map, Map.op, Op.recvOffer] at h
    subst h
    simp_all [Map.inv, Map.rank]
  eof := by
    intro s log c cl2 sent k hi h
    rcases s with _ | _ | _ | _ | _ <;> simp [Map, Map.op, Op.recvOffer] at h
    subst h
    simp_all [Map.inv, Map.rank]
  emit := by
    intro s cl1 log c sent v nx hi h
    rcases s with _ | _ | _ | _ | _ <;> simp [Map, Map.op, Op.sendOffer] at h
    obtain ⟨rfl, rfl⟩ := h
    simp_all [Map.inv, Map.rank]
  live := by
    intro s cl1 log c cl2 sent hi
    rcases s with _ | _ | _ | _ | _ <;>
      simp_all [Map, Map.op, Op.act, Op.sendOffer, Op.recvOffer, Map.inv]

theorem skipn_ok {T : Type} (n : Nat) :
    StageOk ({ init := .drop n, op := SkipN.op, out := Chan.make 0 } : Worker (SkipNPc T) T T)
      (SkipN.inv n) SkipN.rank 2 0 where
  env := by
    intro s log c cl2 sent hi
    rcases s with _ | _ | _ | _ | _ <;> simp_all [SkipN.inv]
  act := by
    intro s cl1 log c cl2 sent nx isCall isClose hi h
    rcases s with (_ | k) | _ | _ | _ | _ <;> simp [SkipN.op, Op.act] at h
    obtain ⟨rfl, rfl, rfl⟩ := h
    simp_all [SkipN.inv, SkipN.rank]
  recv := by
    intro s log c cl2 sent k v hi h
    rcases s with (_ | k) | _ | _ | _ | _ <;> simp [SkipN.op, Op.recvOffer] at h <;>
      subst h <;> simp [SkipN.inv, SkipN.rank] at hi ⊢
    · obtain ⟨h1, h2, h3⟩ := hi
      subst h1 h2 h3
      simp
    · exact ⟨hi.1, hi.2.1, by omega⟩
    · obtain ⟨h1, h2, h3⟩ := hi
      refine ⟨h1, ?_, by omega⟩
      rw [List.drop_append_of_le_length h3, h2]
  eof := by
    intro s log c cl2 sent k hi h
    rcases s with (_ | k) | _ | _ | _ | _ <;> simp [SkipN.op, Op.recvOffer] at h <;>
      subst h <;> simp [SkipN.inv, SkipN.rank] at hi ⊢
    · obtain ⟨h1, h2, h3⟩ := hi
      subst h1 h2 h3
      simp
    · obtain ⟨h1, h2, h3⟩ := hi
      subst h1 h2
      refine ⟨rfl, ?_⟩
      rw [List.drop_of_length_le (by omega)]
    · simp [hi]
  emit := by
    intro s cl1 log c sent v nx hi h
    rcases s with (_ | k) | _ | _ | _ | _ <;> simp [SkipN.op, Op.sendOffer] at h
    obtain ⟨rfl, rfl⟩ := h
    simp [SkipN.inv, SkipN.rank] at hi ⊢
    exact ⟨hi.1, by omega⟩
  live := by
    intro s cl1 log c cl2 sent hi
    rcases s with (_ | k) | _ | _ | _ | _ <;>
      simp_all [SkipN.op, Op.act, Op.sendOffer, Op.recvOffer, SkipN.inv]

theorem repeat_ok {T : Type} (fn : Nat → T) :
    ProducerOk (Repeat fn) (Repeat.inv fn) Repeat.rank 1 0 where
  act := by
    intro s cl log c nx isCall isClose hi h
    rcases s with i | ⟨i, v⟩ | _ | _ <;> simp [Repeat, Repeat.op, Op.act, Repeat.inv] at h hi
    obtain ⟨rfl, rfl, rfl⟩ := h
    obtain ⟨rfl, rfl, rfl⟩ := hi
    simp [Repeat.inv, Repeat.rank]
  send := by
    intro s log c v nx hi h
    rcases s with i | ⟨i, w⟩ | _ | _ <;>
      simp [Repeat, Repeat.op, Op.sendOffer, Repeat.inv] at h hi
    obtain ⟨rfl, rfl⟩ := h
    obtain ⟨rfl, hpos, rfl, rfl⟩ := hi
    obtain ⟨j, rfl⟩ : ∃ j, c = j + 1 := ⟨c - 1, by omega⟩
    simp [Repeat.inv, Repeat.rank, List.range_succ]
  live := by
    intro s cl log c hi
    rcases s with i | ⟨i, w⟩ | _ | _ <;>
      simp_all [Repeat, Repeat.op, Op.act, Op.sendOffer, Repeat.inv]

/-! ## Shared facts about the producers -/

theorem from_inv_log {T : Type} {S : List T} {s : FromPc T} {cl : Bool} {log : List T} {c : Nat}
    (h : From.inv S s cl log c) : log <+: S ∧ (cl = true → log = S) := by
  rcases s with vs | _ | _ <;> simp [From.inv] at h
  · exact ⟨⟨vs, h.2⟩, by simp [h.1]⟩
  · exact ⟨by simp [h.2], fun _ => h.2⟩

theorem from_init_inv {T : Type} (S : List T) : From.inv S (From S).init (From S).out.closed [] 0 := by
  simp [From, From.inv, Chan.make]

theorem from_rank_init {T : Type} (S : List T) : From.rank (From S).init = S.length + 1 := rfl

/-! ## C1: Take after From -/

theorem take_from_init_inv {T : Type} (S : List T) (n : Nat) :
    Net.Inv (From.inv S) (Take.inv n) (Net.init (From S) (Take n) false) := by
  refine ⟨rfl, from_init_inv S, ?_, ?_, ?_⟩
  · rcases n with _ | _ | n <;>
      simp [Net.init, From, Take, First, Take.inv, Chan.make]
  · rcases n with _ | _ | n <;> simp [Net.init, Take, First, Chan.make]
  · simp [Net.init]

theorem take_inv_sent {T : Type} {n : Nat} {s : TakePc T} {cl1 : Bool} {log : List T} {c : Nat}
    {cl2 : Bool} {sent : List T} (h : Take.inv n s cl1 log c cl2 sent) :
    sent <+: log ∧ log.length ≤ n ∧
      (cl2 = true → sent = log ∧ (cl1 = true ∨ log.length = n)) := by
  rcases s with (_ | v | _ | _) | k | ⟨k, v⟩ | _ | _ <;> simp [Take.inv] at h
  · simp [h]
  · simp [h]
  · obtain ⟨rfl, rfl, h3, h4, h5⟩ := h; simp [h3, h4]
  · obtain ⟨rfl, rfl, h3, h4, h5⟩ := h; simp [h3, h4, h5]
  · obtain ⟨-, rfl, h3, h4⟩ := h; simp [h3]; omega
  · obtain ⟨-, rfl, h3, h4⟩ := h; exact ⟨⟨[v], h3⟩, by omega, by simp⟩
  · obtain ⟨-, rfl, h3, h4, h5⟩ := h; simp [h3, h4]
  · obtain ⟨rfl, h3, h4, h5⟩ := h; simp [h3, h4, h5]

theorem take_from_final {T : Type} (S : List T) (n : Nat) (st : Net (FromPc T) (TakePc T) T T)
    (hI : Net.Inv (From.inv S) (Take.inv n) st) :
    st.got <+: S.take n ∧ (st.fin = true → st.got = S.take n) := by
  obtain ⟨-, h1, h2, -, hfin⟩ := hI
  have hlog := from_inv_log h1
  have hsent := take_inv_sent h2
  have hpre : st.got ++ st.c2.buf <+: S.take n := by
    rw [List.prefix_take_iff]
    refine ⟨hsent.1.trans hlog.1, ?_⟩
    have := hsent.1.length_le
    omega
  refine ⟨(List.prefix_append _ _).trans hpre, fun hf => ?_⟩
  obtain ⟨hc, hb⟩ := hfin hf
  obtain ⟨h4, h5⟩ := hsent.2.2 hc
  rw [hb, List.append_nil] at h4 hpre
  rcases h5 with h5 | h5
  · rw [h4, hlog.2 h5, List.take_of_length_le]
    have := hsent.2.1
    rwa [hlog.2 h5] at this
  · exact hpre.eq_of_length (by
      rw [List.length_take, h4, h5]
      have := hlog.1.length_le
      omega)

/-- C1: in every schedule of `Take(ctx, From(ctx, S...), n)` in which the
context is not cancelled, a consumer that has read the output to closure holds
exactly the first `min n |S|` elements of `S` in order (the first `n` when
`n <= |S|`, all of `S` when `n > |S|`); for `n = 0` the returned channel is
closed from the start and nothing is ever delivered; and the output is read
to closure: while the consumer has not seen the close some move is enabled,
and no schedule is longer than `|S| + 4 n + 8` moves. -/
theorem take_from_first_n {T : Type} (S : List T) (n : Nat) (ms : List Move)
    (st : Net (FromPc T) (TakePc T) T T) (hnc : NoCancel ms)
    (hrun : Net.run (From S) (Take n) ms (Net.init (From S) (Take n) false) = some st) :
    (st.fin = true → st.got = S.take (min n S.length)) ∧
    (st.fin = true → n ≤ S.length → st.got = S.take n ∧ st.got.length = n) ∧
    (st.fin = true → S.length < n → st.got = S) ∧
    (n = 0 → (Net.init (From S) (Take n) false).c2.closed = true ∧ st.got = []) ∧
    (st.fin = false →
      ∃ m, m ≠ Move.cancel ∧ (Net.step (From S) (Take n) m st).isSome = true) ∧
    ms.length ≤ S.length + 4 * n + 8 := by
  obtain ⟨hI, hμ⟩ :=
    net_run_ok (from_ok S) (take_ok n) (by decide) ms _ st (take_from_init_inv S n) hnc hrun
  obtain ⟨hpre, hfin⟩ := take_from_final S n st hI
  refine ⟨?_, ?_, ?_, ?_, ?_, ?_⟩
  · intro hf
    rw [hfin hf]
    rcases Nat.le_total n S.length with h | h
    · rw [Nat.min_eq_left h]
    · rw [Nat.min_eq_right h, List.take_of_length_le h, List.take_length]
  · intro hf hle
    rw [hfin hf]
    exact ⟨rfl, by simp [hle]⟩
  · intro hf hlt
    rw [hfin hf, List.take_of_length_le (by omega)]
  · rintro rfl
    exact ⟨rfl, by simpa using hpre⟩
  · exact net_progress (from_ok S) (take_ok n) st hI
  · have h0 : Net.mu From.rank Take.rank (Net.init (From S) (Take n) false) ≤
        S.length + 4 * n + 8 := by
      rcases n with _ | _ | n
      · simp [Net.mu, Net.init, From, Take, From.rank, Take.rank, Chan.make]
      · simp [Net.mu, Net.init, From, Take, First, From.rank, Take.rank, Chan.make]
      · simp [Net.mu, Net.init, From, Take, From.rank, Take.rank, Chan.make]
        omega
    omega

/-- The example of the tests: `Take(ctx, From(ctx, 1, 2, 3, 4, 5), 3)` read to
closure gives `[1, 2, 3]`. -/
theorem take_from_first_n_witness :
    Net.run (From [1, 2, 3, 4, 5]) (Take 3) Demo.take3
        (Net.init (From [1, 2, 3, 4, 5]) (Take 3) false) = some Demo.take3End ∧
      Demo.take3End.fin = true ∧ Demo.take3End.got = [1, 2, 3] :=
  ⟨by decide, rfl,
    ((take_from_first_n [1, 2, 3, 4, 5] 3 Demo.take3 Demo.take3End (by decide)
      (by decide)).2.1 rfl (by decide)).1⟩

/-! ## A forwarding stage fed by From -/

theorem from_pipeline {σ₂ T B : Type} (S : List T) (Q : Worker σ₂ T B)
    {IQ : σ₂ → Bool → List T → Nat → Bool → List B → Prop} {rank : σ₂ → Nat}
    (hQ : StageOk Q IQ rank 2 0) (h0 : IQ Q.init false [] 0 Q.out.closed Q.out.buf)
    (hcap : Q.out.buf.length ≤ Q.out.cap) (ms : List Move) (st : Net (FromPc T) σ₂ T B)
    (hnc : NoCancel ms) (hrun : Net.run (From S) Q ms (Net.init (From S) Q false) = some st) :
    Net.Inv (From.inv S) IQ st ∧
    (st.fin = false → ∃ m, m ≠ Move.cancel ∧ (Net.step (From S) Q m st).isSome = true) ∧
    ms.length ≤ 5 * S.length + 2 * rank Q.init + Q.out.buf.length + 6 := by
  have hP := producer_ok_scale (from_ok S) 5 (by decide)
  have hinit : Net.Inv (From.inv S) IQ (Net.init (From S) Q false) :=
    ⟨rfl, from_init_inv S, by simpa [Net.init] using h0, hcap, by simp [Net.init]⟩
  obtain ⟨hI, hμ⟩ := net_run_ok hP hQ (by decide) ms _ st hinit hnc hrun
  refine ⟨hI, net_progress hP hQ st hI, ?_⟩
  have h1 : Net.mu (fun s => 5 * From.rank s) rank (Net.init (From S) Q false) =
      5 * S.length + 2 * rank Q.init + Q.out.buf.length + 6 := by
    simp [Net.mu, Net.init, from_rank_init]
    omega
  omega

/-! ## C5: Skip after From -/

theorem skip_worker_eq {T : Type} {pred : T → Bool} {w : Worker (SkipPc T) T T}
    (hw : Skip (some pred) = some w) :
    w = { init := .loop, op := Skip.op pred, out := Chan.make 0 } := by
  simp only [Skip, Option.some.injEq] at hw
  exact hw.symm

theorem skip_inv_calls {T : Type} {pred : T → Bool} {s : SkipPc T} {cl1 : Bool} {log : List T}
    {c : Nat} {cl2 : Bool} {sent : List T} (h : Skip.inv pred s cl1 log c cl2 sent) :
    c ≤ log.length ∧
      (cl2 = true → cl1 = true ∧ sent = log.filter (fun v => !pred v) ∧ c = log.length) := by
  rcases s with _ | _ | _ | _ | _ <;> simp [Skip.inv] at h <;> simp [h]
  omega

/-- C5: in every schedule of `Skip(ctx, From(ctx, S...), pred)` with a non-nil
`pred` in which the context is not cancelled, a consumer that has read the
output to closure holds exactly the elements of `S` for which `pred` is false,
in their original order, and `pred` has been called exactly `|S|` times (at
any moment at most once per value received); the output is read to closure:
while the consumer has not seen the close some move is enabled, and no
schedule is longer than `5 |S| + 10` moves. -/
theorem skip_from_filters {T : Type} (S : List T) (pred : T → Bool) (w : Worker (SkipPc T) T T)
    (hw : Skip (some pred) = some w) (ms : List Move) (st : Net (FromPc T) (SkipPc T) T T)
    (hnc : NoCancel ms)
    (hrun : Net.run (From S) w ms (Net.init (From S) w false) = some st) :
    (st.fin = true → st.got = S.filter (fun v => !pred v) ∧ st.calls2 = S.length) ∧
    st.calls2 ≤ st.log1.length ∧ st.log1 <+: S ∧
    (st.fin = false → ∃ m, m ≠ Move.cancel ∧ (Net.step (From S) w m st).isSome = true) ∧
    ms.length ≤ 5 * S.length + 10 := by
  have hw' := skip_worker_eq hw
  subst hw'
  obtain ⟨hI, hprog, hlen⟩ := from_pipeline S _ (skip_ok pred)
    (by simp [Skip.inv, Chan.make]) (by simp [Chan.make]) ms st hnc hrun
  obtain ⟨-, h1, h2, -, hfin⟩ := hI
  have hlog := from_inv_log h1
  have hc := skip_inv_calls h2
  refine ⟨fun hf => ?_, hc.1, hlog.1, hprog, ?_⟩
  · obtain ⟨hcl, hb⟩ := hfin hf
    obtain ⟨h3, h4, h5⟩ := hc.2 hcl
    rw [hb, List.append_nil, hlog.2 h3] at h4
    rw [hlog.2 h3] at h5
    exact ⟨h4, h5⟩
  · simpa [Skip.rank, Chan.make] using hlen

/-- The example of the documentation: `Skip` of the even numbers of
`From(ctx, 1, 2, 3, 4, 5)` read to closure gives `[1, 3, 5]` after five calls
of the predicate. -/
theorem skip_from_filters_witness :
    Net.run (From [1, 2, 3, 4, 5]) ⟨.loop, Skip.op Demo.isEven, Chan.make 0⟩
        (Demo.forward [true, false, true, false, true])
        (Net.init (From [1, 2, 3, 4, 5]) ⟨.loop, Skip.op Demo.isEven, Chan.make 0⟩ false)
        = some Demo.skipEnd ∧
      Demo.skipEnd.got = [1, 3, 5] ∧
      (Demo.skipEnd.got = [1, 2, 3, 4, 5].filter (fun v => !Demo.isEven v) ∧
        Demo.skipEnd.calls2 = [1, 2, 3, 4, 5].length) :=
  ⟨by decide, rfl,
    (skip_from_filters [1, 2, 3, 4, 5] Demo.isEven ⟨.loop, Skip.op Demo.isEven, Chan.make 0⟩ rfl
      (Demo.forward [true, false, true, false, true]) Demo.skipEnd (by decide)
      (by decide)).1 rfl⟩

/-! ## C6: SkipN after From -/

theorem skipn_worker_eq {T : Type} {n : Nat} {w : Worker (SkipNPc T) T T}
    (hw : SkipN n = some w) :
    0 < n ∧ w = { init := .drop n, op := SkipN.op, out := Chan.make 0 } := by
  unfold SkipN at hw
  split at hw
  · simp at hw
  · simp only [Option.some.injEq] at hw
    exact ⟨by omega, hw.symm⟩

theorem skipn_inv_closed {T : Type} {n : Nat} {s : SkipNPc T} {cl1 : Bool} {log : List T}
    {c : Nat} {cl2 : Bool} {sent : List T} (h : SkipN.inv n s cl1 log c cl2 sent) :
    cl2 = true → cl1 = true ∧ sent = log.drop n := by
  rcases s with _ | _ | _ | _ | _ <;> simp [SkipN.inv] at h <;> simp [h]

/-- C6: in every schedule of `SkipN(ctx, From(ctx, S...), n)` with `n >= 1` in
which the context is not cancelled, a consumer that has read the output to
closure holds exactly `S` without its first `n` elements, in order (nothing
when `n >= |S|`); the output is read to closure: while the consumer has not
seen the close some move is enabled, and no schedule is longer than
`5 |S| + 10` moves. -/
theorem skipn_from_drops {T : Type} (S : List T) (n : Nat) (w : Worker (SkipNPc T) T T)
    (hw : SkipN n = some w) (ms : List Move) (st : Net (FromPc T) (SkipNPc T) T T)
    (hnc : NoCancel ms)
    (hrun : Net.run (From S) w ms (Net.init (From S) w false) = some st) :
    1 ≤ n ∧
    (st.fin = true → st.got = S.drop n) ∧
    (st.fin = true → S.length ≤ n → st.got = []) ∧
    (st.fin = false → ∃ m, m ≠ Move.cancel ∧ (Net.step (From S) w m st).isSome = true) ∧
    ms.length ≤ 5 * S.length + 10 := by
  obtain ⟨hn, hw'⟩ := skipn_worker_eq hw
  subst hw'
  obtain ⟨hI, hprog, hlen⟩ := from_pipeline S _ (skipn_ok n)
    (by simp [SkipN.inv, Chan.make]) (by simp [Chan.make]) ms st hnc hrun
  obtain ⟨-, h1, h2, -, hfin⟩ := hI
  have hlog := from_inv_log h1
  have hgot : st.fin = true → st.got = S.drop n := by
    intro hf
    obtain ⟨hcl, hb⟩ := hfin hf
    obtain ⟨h3, h4⟩ := skipn_inv_closed h2 hcl
    rw [hb, List.append_nil, hlog.2 h3] at h4
    exact h4
  refine ⟨hn, hgot, fun hf hle => ?_, hprog, ?_⟩
  · rw [hgot hf, List.drop_of_length_le hle]
  · simpa [SkipN.rank, Chan.make] using hlen

/-- The example of the tests: `SkipN(ctx, From(ctx, 1, 2, 3, 4, 5), 2)` read to
closure gives `[3, 4, 5]`. -/
theorem skipn_from_drops_witness :
    Net.run (From [1, 2, 3, 4, 5]) ⟨.drop 2, SkipN.op, Chan.make 0⟩ Demo.skipN2
        (Net.init (From [1, 2, 3, 4, 5]) ⟨.drop 2, SkipN.op, Chan.make 0⟩ false)
        = some Demo.skipN2End ∧
      Demo.skipN2End.got = [3, 4, 5] :=
  ⟨by decide,
    (skipn_from_drops [1, 2, 3, 4, 5] 2 ⟨.drop 2, SkipN.op, Chan.make 0⟩ rfl Demo.skipN2
      Demo.skipN2End (by decide) (by decide)).2.1 rfl⟩

/-! ## C7: Map after From -/

theorem map_inv_calls {T U : Type} {fn : T → U} {s : MapPc T U} {cl1 : Bool} {log : List T}
    {c : Nat} {cl2 : Bool} {sent : List U} (h : Map.inv fn s cl1 log c cl2 sent) :
    c ≤ log.length ∧ (cl2 = true → cl1 = true ∧ sent = log.map fn ∧ c = log.length) := by
  rcases s with _ | _ | _ | _ | _ <;> simp [Map.inv] at h <;> simp [h]
  omega

/-- C7: in every schedule of `Map(ctx, From(ctx, S...), fn)` in which the
context is not cancelled, a consumer that has read the output to closure holds
exactly `fn` applied to each element of `S`, in order (so as many values as
`S` has, the `i`-th being `fn` of the `i`-th input), and `fn` has been called
exactly `|S|` times (at any moment at most once per value received); the
output is read to closure: while the consumer has not seen the close some
move is enabled, and no schedule is longer than `5 |S| + 10` moves. -/
theorem map_from_maps {T U : Type} (S : List T) (fn : T → U) (ms : List Move)
    (st : Net (FromPc T) (MapPc T U) T U) (hnc : NoCancel ms)
    (hrun : Net.run (From S) (Map fn) ms (Net.init (From S) (Map fn) false) = some st) :
    (st.fin = true → st.got = S.map fn ∧ st.got.length = S.length ∧ st.calls2 = S.length) ∧
    (st.fin = true → ∀ i (hi : i < S.length), st.got[i]? = some (fn (S.get ⟨i, hi⟩))) ∧
    st.calls2 ≤ st.log1.length ∧ st.log1 <+: S ∧
    (st.fin = false → ∃ m, m ≠ Move.cancel ∧ (Net.step (From S) (Map fn) m st).isSome = true) ∧
    ms.length ≤ 5 * S.length + 10 := by
  obtain ⟨hI, hprog, hlen⟩ := from_pipeline S (Map fn) (map_ok fn)
    (by simp [Map, Map.inv, Chan.make]) (by simp [Map, Chan.make]) ms st hnc hrun
  obtain ⟨-, h1, h2, -, hfin⟩ := hI
  have hlog := from_inv_log h1
  have hc := map_inv_calls h2
  have hgot : st.fin = true → st.got = S.map fn ∧ st.calls2 = S.length := by
    intro hf
    obtain ⟨hcl, hb⟩ := hfin hf
    obtain ⟨h3, h4, h5⟩ := hc.2 hcl
    rw [hb, List.append_nil, hlog.2 h3] at h4
    rw [hlog.2 h3] at h5
    exact ⟨h4, h5⟩
  refine ⟨fun hf => ⟨(hgot hf).1, ?_, (hgot hf).2⟩, fun hf i hi => ?_, hc.1, hlog.1, hprog, ?_⟩
  · rw [(hgot hf).1, List.length_map]
  · rw [(hgot hf).1]
    simp [List.getElem?_map, List.getElem?_eq_getElem hi]
  · simpa [Map, Map.rank, Chan.make] using hlen

/-- The example of the tests: `Map` with `v * 10` over `From(ctx, 1, 2, 3)`
read to closure gives `[10, 20, 30]` after three calls of the function. -/
theorem map_from_maps_witness :
    Net.run (From [1, 2, 3]) (Map (fun v => v * 10)) (Demo.forward [true, true, true])
        (Net.init (From [1, 2, 3]) (Map (fun v => v * 10)) false) = some Demo.mapEnd ∧
      Demo.mapEnd.got = [10, 20, 30] ∧ Demo.mapEnd.calls2 = 3 ∧
      Demo.mapEnd.got = [1, 2, 3].map (fun v => v * 10) :=
  ⟨by decide, rfl, rfl,
    ((map_from_maps [1, 2, 3] (fun v => v * 10) (Demo.forward [true, true, true]) Demo.mapEnd
      (by decide) (by decide)).1 rfl).1⟩

/-! ## C8: Take after Repeat -/

theorem repeat_inv_calls {T : Type} {fn : Nat → T} {s : RepeatPc T} {cl : Bool} {log : List T}
    {c : Nat} (h : Repeat.inv fn s cl log c) :
    cl = false ∧ log.length ≤ c ∧ c ≤ log.length + 1 ∧
      (log = (List.range log.length).map fn) ∧
      (s = .gen c ∧ c = log.length ∨ s = .sel c (fn log.length) ∧ c = log.length + 1) := by
  rcases s with i | ⟨i, v⟩ | _ | _ <;> simp [Repeat.inv] at h
  · obtain ⟨h1, h2, h3⟩ := h
    subst h1 h2 h3
    simp
  · obtain ⟨h1, h2, h3, h4, h5⟩ := h
    subst h1 h2 h4 h5
    obtain ⟨j, rfl⟩ : ∃ j, c = j + 1 := ⟨c - 1, by omega⟩
    simp

theorem take_repeat_init_inv {T : Type} (fn : Nat → T) (n : Nat) :
    Net.Inv (Repeat.inv fn) (Take.inv n) (Net.init (Repeat fn) (Take n) false) := by
  refine ⟨rfl, by simp [Net.init, Repeat, Repeat.inv, Chan.make], ?_, ?_, by simp [Net.init]⟩
  · rcases n with _ | _ | n <;>
      simp [Net.init, Repeat, Take, First, Take.inv, Chan.make]
  · rcases n with _ | _ | n <;> simp [Net.init, Take, First, Chan.make]

/-- C8 (as amended): in every schedule of `Take(ctx, Repeat(ctx, fn), n)` in
which the context is not cancelled, a consumer that has read the output to
closure holds exactly `n` values, the results of the first `n` calls of `fn`
in order, and by then `fn` has been called `n` or `n + 1` times; `fn` is never
called more than `n + 1` times, the goroutine of `Repeat` never returns and
never closes its channel, and once no move is enabled the output has been read
to closure, `fn` has been called exactly `n + 1` times and the goroutine of
`Repeat` sits in its select holding the result of call `n + 1`; the output is
read to closure: while the consumer has not seen the close some move is
enabled, and no schedule is longer than `4 n + 8` moves. -/
theorem take_repeat_calls {T : Type} (fn : Nat → T) (n : Nat) (ms : List Move)
    (st : Net (RepeatPc T) (TakePc T) T T) (hnc : NoCancel ms)
    (hrun : Net.run (Repeat fn) (Take n) ms (Net.init (Repeat fn) (Take n) false) = some st) :
    (st.fin = true → st.got = (List.range n).map fn ∧ st.got.length = n ∧ n ≤ st.calls1) ∧
    st.calls1 ≤ n + 1 ∧
    st.closed1 = false ∧ st.s1 ≠ .halted ∧ st.s1 ≠ .exit ∧
    ((Move.uncancelled.all fun m => (Net.step (Repeat fn) (Take n) m st).isNone) = true →
      st.fin = true ∧ st.calls1 = n + 1 ∧ st.s1 = .sel (n + 1) (fn n)) ∧
    (st.fin = false →
      ∃ m, m ≠ Move.cancel ∧ (Net.step (Repeat fn) (Take n) m st).isSome = true) ∧
    ms.length ≤ 4 * n + 8 := by
  obtain ⟨hI, hμ⟩ :=
    net_run_ok (repeat_ok fn) (take_ok n) (by decide) ms _ st (take_repeat_init_inv fn n) hnc hrun
  have hprog := net_progress (repeat_ok fn) (take_ok n) st hI
  obtain ⟨-, h1, h2, -, hfin⟩ := hI
  obtain ⟨hcl, hc1, hc2, hlog, hs⟩ := repeat_inv_calls h1
  obtain ⟨hsent, hlen, hclosed⟩ := take_inv_sent h2
  have hfull : st.fin = true → st.got = st.log1 ∧ st.log1.length = n := by
    intro hf
    obtain ⟨hcl2, hb⟩ := hfin hf
    obtain ⟨h3, h4⟩ := hclosed hcl2
    rw [hb, List.append_nil] at h3
    rcases h4 with h4 | h4
    · rw [hcl] at h4; cases h4
    · exact ⟨h3, h4⟩
  refine ⟨fun hf => ?_, by omega, hcl, ?_, ?_, fun hq => ?_, hprog, ?_⟩
  · obtain ⟨h3, h4⟩ := hfull hf
    rw [h3]
    refine ⟨?_, h4, by omega⟩
    rw [← h4]
    exact hlog
  · rcases hs with ⟨h, -⟩ | ⟨h, -⟩ <;> simp [h]
  · rcases hs with ⟨h, -⟩ | ⟨h, -⟩ <;> simp [h]
  · simp only [Move.uncancelled, List.all_cons, List.all_nil, Bool.and_true,
      Bool.and_eq_true, Option.isNone_iff_eq_none] at hq
    have hf : st.fin = true := by
      cases hfv : st.fin
      · obtain ⟨m, hm, he⟩ := hprog hfv
        obtain ⟨q1, q2, q3, q4, q5, q6, q7, q8, q9⟩ := hq
        cases m
        · exact absurd rfl hm
        · rw [q1] at he; cases he
        · rw [q2] at he; cases he
        · rw [q3] at he; cases he
        · rw [q4] at he; cases he
        · rw [q5] at he; cases he
        · rw [q6] at he; cases he
        · rw [q7] at he; cases he
        · rw [q8] at he; cases he
        · rw [q9] at he; cases he
      · rfl
    obtain ⟨-, h4⟩ := hfull hf
    rcases hs with ⟨h, -⟩ | ⟨h, h5⟩
    · have := hq.1
      simp [Net.step, Repeat, h, Repeat.op, Op.act] at this
    · refine ⟨hf, by omega, ?_⟩
      rw [h, h5, h4]
  · have h0 : Net.mu Repeat.rank Take.rank (Net.init (Repeat fn) (Take n) false) ≤
        4 * n + 8 := by
      rcases n with _ | _ | n
      · simp [Net.mu, Net.init, Repeat, Take, Repeat.rank, Take.rank, Chan.make]
      · simp [Net.mu, Net.init, Repeat, Take, First, Repeat.rank, Take.rank, Chan.make]
      · simp [Net.mu, Net.init, Repeat, Take, Repeat.rank, Take.rank, Chan.make]
        omega
    omega

/-- The example of the tests: `Take(ctx, Repeat(ctx, func() int { return 42 }), 2)`
run until nothing can move has delivered `[42, 42]`, called the generator
three times and left the goroutine of `Repeat` in its select. -/
theorem take_repeat_calls_witness :
    Demo.repeat2End.fin = true ∧ Demo.repeat2End.calls1 = 2 + 1 ∧
      Demo.repeat2End.s1 = .sel (2 + 1) 42 :=
  (take_repeat_calls (fun _ => 42) 2 Demo.repeat2 Demo.repeat2End (by decide)
    (by decide)).2.2.2.2.2.1 (by decide)

/-- C8 fails as stated: in the schedule `Demo.repeat2` of
`Take(ctx, Repeat(ctx, func() int { return 42 }), 2)` without cancellation the output
is closed and read (`[42, 42]`), no move is enabled any more, and yet the
generator has been called three times, not two, and the goroutine of `Repeat`
has not returned: it sits in its select with the third value. -/
theorem take_repeat_exactly_n_calls_counterexample :
    NoCancel Demo.repeat2 ∧
    Net.run (Repeat (fun _ => 42)) (Take 2) Demo.repeat2
        (Net.init (Repeat (fun _ => 42)) (Take 2) false) = some Demo.repeat2End ∧
      Demo.repeat2End.fin = true ∧ Demo.repeat2End.got = [42, 42] ∧
      (Move.uncancelled.all fun m =>
        (Net.step (Repeat (fun _ => 42)) (Take 2) m Demo.repeat2End).isNone) = true ∧
      Demo.repeat2End.calls1 = 3 ∧ Demo.repeat2End.calls1 ≠ 2 ∧
      Demo.repeat2End.s1 = .sel 3 42 ∧ Demo.repeat2End.s1 ≠ .halted := by
  decide

/-! ## C2: Bridge over ChanChan -/

theorem sum_map_set {α : Type} (f : α → Nat) (l : List α) (j : Nat) (w w1 : α)
    (h : l[j]? = some w) : ((l.set j w1).map f).sum + f w = (l.map f).sum + f w1 := by
  induction l generalizing j with
  | nil => simp at h
  | cons a l ih =>
    cases j with
    | zero =>
      simp only [List.getElem?_cons_zero, Option.some.injEq] at h
      subst h
      simp only [List.set_cons_zero, List.map_cons, List.sum_cons]
      omega
    | succ j =>
      simp only [List.getElem?_cons_succ] at h
      have := ih j h
      simp only [List.set_cons_succ, List.map_cons, List.sum_cons]
      omega

theorem inner_inv_set {T : Type} {fn : Nat → T} {l : List (Inner T)} {c : Nat} {i : Nat}
    {w1 : Inner T}
    (hall : ∀ j w, l[j]? = some w → Inner.inv fn j (decide (j < c)) w)
    (hw : Inner.inv fn i (decide (i < c)) w1) :
    ∀ j w, (l.set i w1)[j]? = some w → Inner.inv fn j (decide (j < c)) w := by
  intro j w h
  rw [List.getElem?_set] at h
  split at h
  · split at h
    · simp only [Option.some.injEq] at h
      subst h
      subst_vars
      exact hw
    · cases h
  · exact hall j w h

theorem bnet_step_inner {T : Type} (n : Nat) (fn : Nat → T) (st : BNet T) (m : BMove)
    (st' : BNet T) (hI : BNet.Inv n fn st)
    (hm : (∃ j, m = .inAct j) ∨ (∃ j, m = .inDone j) ∨ (∃ j, m = .inSend j))
    (h : BNet.step n fn m st = some st') :
    BNet.Inv n fn st' ∧ BNet.mu n st' < BNet.mu n st := by
  obtain ⟨done, cc, ch, inner, calls, bridge, taken, od, odIn, odClosed, cons,
    outClosed, got, fin⟩ := st
  obtain ⟨hd, hcc, hin, hbr, hct, hfin⟩ := hI
  simp only at hd hcc hin hbr hct hfin
  subst hd
  rcases hm with ⟨j, rfl⟩ | ⟨j, rfl⟩ | ⟨j, rfl⟩
  · simp only [BNet.step] at h
    cases hw : inner[j]? with
    | none => simp [hw] at h
    | some w =>
      simp only [hw] at h
      have hiw := hin j w hw
      obtain ⟨idx, pc, ⟨cap, buf, cl⟩⟩ := w
      obtain ⟨hidx, hcap, hpc⟩ := hiw
      simp only at hidx hcap hpc
      rcases pc with _ | v | _ | _ <;> simp [ChanChan.innerOp, Op.act] at h
      · subst h
        refine ⟨⟨rfl, by simpa using hcc, ?_, hbr, hct, hfin⟩, ?_⟩
        · refine inner_inv_set hin ?_
          simp only [Inner.inv] at hpc ⊢
          exact ⟨hidx, hcap, by rw [hidx], hpc⟩
        · have : ((inner.set j ⟨idx, InnerPc.sel (fn idx), ⟨cap, buf, cl⟩⟩).map
              (fun w => Inner.rank w.pc)).sum + 3 = (inner.map (fun w => Inner.rank w.pc)).sum + 2 :=
            sum_map_set (fun w => Inner.rank w.pc) inner j _ _ hw
          simp only [BNet.mu, List.length_set]
          omega
      · subst h
        refine ⟨⟨rfl, by simpa using hcc, ?_, hbr, hct, hfin⟩, ?_⟩
        · refine inner_inv_set hin ?_
          simp only [Inner.inv] at hpc ⊢
          exact ⟨hidx, hcap, by simp, hpc.2⟩
        · have : ((inner.set j ⟨idx, InnerPc.halted, ⟨cap, buf, cl || true⟩⟩).map
              (fun w => Inner.rank w.pc)).sum + 1 = (inner.map (fun w => Inner.rank w.pc)).sum + 0 :=
            sum_map_set (fun w => Inner.rank w.pc) inner j _ _ hw
          simp only [BNet.mu, List.length_set]
          simp only [Bool.or_true] at this
          omega
  · simp only [BNet.step] at h
    cases hw : inner[j]? with
    | none => simp [hw] at h
    | some w =>
      simp only [hw] at h
      cases hd : (ChanChan.innerOp fn w.index w.pc).doneOffer <;> simp [hd] at h
  · simp only [BNet.step] at h
    cases hw : inner[j]? with
    | none => simp [hw] at h
    | some w =>
      simp only [hw] at h
      have hiw := hin j w hw
      obtain ⟨idx, pc, ⟨cap, buf, cl⟩⟩ := w
      obtain ⟨hidx, hcap, hpc⟩ := hiw
      simp only at hidx hcap hpc
      rcases pc with _ | v | _ | _ <;> simp [ChanChan.innerOp, Op.sendOffer] at h
      obtain ⟨h1, h2, h3⟩ := h
      subst h3
      simp only [Inner.inv] at hpc
      obtain ⟨hv, hb, hc, hcons⟩ := hpc
      refine ⟨⟨rfl, by simpa using hcc, ?_, hbr, hct, hfin⟩, ?_⟩
      · refine inner_inv_set hin ?_
        simp only [Inner.inv]
        rw [hcons] at *
        simp [hidx, hcap, hb, hv, h1]
      · have : ((inner.set j ⟨idx, InnerPc.exit, ⟨cap, buf ++ [v], cl⟩⟩).map
            (fun w => Inner.rank w.pc)).sum + 2 = (inner.map (fun w => Inner.rank w.pc)).sum + 1 :=
          sum_map_set (fun w => Inner.rank w.pc) inner j _ _ hw
        simp only [BNet.mu, List.length_set]
        omega

theorem bnet_step_cc {T : Type} (n : Nat) (fn : Nat → T) (st : BNet T) (m : BMove)
    (st' : BNet T) (hI : BNet.Inv n fn st)
    (hm : m = .ccAct ∨ m = .ccDone ∨ m = .ccSend)
    (h : BNet.step n fn m st = some st') :
    BNet.Inv n fn st' ∧ BNet.mu n st' < BNet.mu n st := by
  obtain ⟨done, cc, ⟨cap, buf, chClosed⟩, inner, calls, bridge, taken, od, odIn, odClosed, cons,
    outClosed, got, fin⟩ := st
  obtain ⟨hd, hcc, hin, hbr, hct, hfin⟩ := hI
  simp only at hd hcc hin hbr hct hfin
  subst hd
  rcases hm with rfl | rfl | rfl
  · rcases cc with i | i | _ | _ <;> simp [BNet.step, ChanChan.op] at h
    · simp only [ChanChan.inv] at hcc
      obtain ⟨h1, h2, h3, h4, h5, h6⟩ := hcc
      subst h2
      by_cases hlt : inner.length < n
      · simp only [hlt, if_true, Option.some.injEq] at h
        subst h
        refine ⟨⟨rfl, ?_, ?_, hbr, hct, hfin⟩, ?_⟩
        · simp only [ChanChan.inv, List.length_append, List.length_singleton]
          exact ⟨h1, trivial, hlt, h4, h5, h6⟩
        · intro j w hj
          simp only at hj
          rw [List.getElem?_append] at hj
          split at hj
          · exact hin j w hj
          · rename_i hge
            have hj0 : j = inner.length := by
              by_contra hne
              have : j - inner.length ≠ 0 := by omega
              obtain ⟨k, hk⟩ := Nat.exists_eq_succ_of_ne_zero this
              simp [hk] at hj
            subst hj0
            simp only [Nat.sub_self, List.getElem?_cons_zero, Option.some.injEq] at hj
            subst hj
            have : ¬ inner.length < cons := by omega
            simp [Inner.inv, Chan.make, this]
        · simp only [BNet.mu, ChanChan.rank, List.map_append, List.sum_append, List.map_cons,
            List.map_nil, List.sum_cons, List.sum_nil, Inner.rank, List.length_append,
            List.length_singleton]
          omega
      · simp only [hlt, if_false, Option.some.injEq] at h
        subst h
        have hn : inner.length = n := by omega
        refine ⟨⟨rfl, ?_, hin, hbr, hct, hfin⟩, ?_⟩
        · simp only [ChanChan.inv]
          exact ⟨h1, hn, trivial, by omega, by rw [← hn]; exact h6⟩
        · simp only [BNet.mu, ChanChan.rank]
          omega
    · simp [ChanChan.inv] at hcc
  · simp only [BNet.step] at h
    cases hd : (ChanChan.op n cc).doneOffer <;> simp [hd] at h
  · rcases cc with i | i | _ | _
    · have hno : (ChanChan.op n (.loop i)).sendOffer = none := by
        simp only [ChanChan.op]
        split <;> rfl
      simp [BNet.step, hno] at h
    rotate_left
    · simp [BNet.step, ChanChan.op, Op.sendOffer] at h
    · simp [BNet.step, ChanChan.op, Op.sendOffer] at h
    · simp [BNet.step, ChanChan.op, Op.sendOffer] at h
      simp only [ChanChan.inv] at hcc
      obtain ⟨h1, h2, h3, h4, h5, h6⟩ := hcc
      obtain ⟨-, -, h⟩ := h
      subst h
      refine ⟨⟨rfl, ?_, hin, hbr, hct, hfin⟩, ?_⟩
      · simp only [ChanChan.inv]
        refine ⟨h1, h2, by omega, h4, by omega, ?_⟩
        have : i + 1 - taken = (i - taken) + 1 := by omega
        rw [this, List.range'_concat, h6]
        simp
        omega
      · simp only [BNet.mu, ChanChan.rank]
        omega

theorem cc_inv_buf {n : Nat} {cc : ChanChanPc} {k cap taken : Nat} {buf : List Nat} {cl : Bool}
    (h : ChanChan.inv n cc k ⟨cap, buf, cl⟩ taken) :
    ∃ q, taken ≤ q ∧ q ≤ n ∧ buf = List.range' taken (q - taken) ∧ (cl = true → q = n) ∧
      ∀ buf1 taken1, taken1 ≤ q → buf1 = List.range' taken1 (q - taken1) →
        ChanChan.inv n cc k ⟨cap, buf1, cl⟩ taken1 := by
  obtain ⟨h0, h⟩ := h
  rcases cc with i | i | _ | _ <;> simp only [ChanChan.inv] at h ⊢
  · obtain ⟨h1, h2, h3, h4, h5⟩ := h
    exact ⟨i, h4, h2, h5, by simp [h3], fun b t ht hb => ⟨h0, h1, h2, h3, ht, hb⟩⟩
  · obtain ⟨h1, h2, h3, h4, h5⟩ := h
    exact ⟨i, h4, by omega, h5, by simp [h3], fun b t ht hb => ⟨h0, h1, h2, h3, ht, hb⟩⟩
  · obtain ⟨h1, h3, h4, h5⟩ := h
    exact ⟨n, h4, le_refl n, h5, fun _ => rfl, fun b t ht hb => ⟨h0, h1, h3, ht, hb⟩⟩

theorem bnet_step_bridge {T : Type} (n : Nat) (fn : Nat → T) (st : BNet T) (m : BMove)
    (st' : BNet T) (hI : BNet.Inv n fn st)
    (hm : m = .brRecv ∨ m = .brDone ∨ m = .brAct ∨ m = .brEof ∨ m = .emit ∨ m = .eof)
    (h : BNet.step n fn m st = some st') :
    BNet.Inv n fn st' ∧ BNet.mu n st' < BNet.mu n st := by
  obtain ⟨done, cc, ⟨cap, buf, chClosed⟩, inner, calls, bridge, taken, od, odIn, odClosed, cons,
    outClosed, got, fin⟩ := st
  obtain ⟨hd, hcc, hin, hbr, hct, hfin⟩ := hI
  simp only at hd hcc hin hbr hct hfin
  subst hd
  rcases hm with rfl | rfl | rfl | rfl | rfl | rfl
  · -- brRecv
    rcases bridge with _ | ch | _ | v | _ | _ <;> simp [BNet.step, Bridge.op] at h
    obtain ⟨b1, b2, b3, b4, b5⟩ : od = .halted ∧ odClosed = true ∧ cons = taken ∧
      got = (List.range taken).map fn ∧ outClosed = false := hbr
    obtain ⟨q, q1, q2, q3, q4, q5⟩ := cc_inv_buf hcc
    cases buf with
    | nil =>
      simp only at h
      cases chClosed <;> simp at h
      subst h
      have hq : q = n := q4 rfl
      have ht : taken = n := by
        have := q3.symm
        rw [List.range'_eq_nil] at this
        omega
      refine ⟨⟨rfl, hcc, hin, ?_, hct, hfin⟩, ?_⟩
      · show taken = n ∧ cons = n ∧ od = .halted ∧ odClosed = true ∧
          got = (List.range n).map fn ∧ outClosed = false
        exact ⟨ht, by omega, b1, b2, by rw [b4, ht], b5⟩
      · simp only [BNet.mu, Bridge.rank]
        omega
    | cons c rest =>
      simp only [Option.some.injEq] at h
      subst h
      have q3' := q3.symm
      rw [List.range'_eq_cons_iff] at q3'
      obtain ⟨e1, e2, e3⟩ := q3'
      subst e1
      refine ⟨⟨rfl, ?_, hin, ?_, ?_, hfin⟩, ?_⟩
      · exact q5 rest (taken + 1) (by omega) (by rw [e3, Nat.sub_sub])
      · show taken + 1 = taken + 1 ∧ cons = taken ∧ od = .halted ∧ odClosed = true ∧
          got = (List.range taken).map fn ∧ outClosed = false
        exact ⟨rfl, b3, b1, b2, b4, b5⟩
      · show cons ≤ taken + 1
        omega
      · simp only [BNet.mu, Bridge.rank]
        omega
  · -- brDone
    rcases bridge with _ | ch | _ | v | _ | _ <;> simp [BNet.step, Bridge.op] at h
  · -- brAct
    rcases bridge with _ | ch | _ | v | _ | _ <;> simp [BNet.step, Bridge.op] at h
    · subst h
      obtain ⟨b1, b2, b3, b4, b5, b6⟩ : ch + 1 = taken ∧ cons = ch ∧ od = .halted ∧
        odClosed = true ∧ got = (List.range ch).map fn ∧ outClosed = false := hbr
      refine ⟨⟨rfl, hcc, hin, ?_, hct, hfin⟩, ?_⟩
      · show ch + 1 = taken ∧ outClosed = false ∧ (false = false ∧ ch ≤ cons ∧ cons ≤ ch + 1 ∧
          got = (List.range cons).map fn)
        exact ⟨b1, b6, rfl, by omega, by omega, by rw [b2]; exact b5⟩
      · subst b3 b2
        simp [BNet.mu, Bridge.rank, OrDone.rankIn, OrDone]
    · subst h
      obtain ⟨b1, b2, b3, b4, b5, b6⟩ : taken = n ∧ cons = n ∧ od = .halted ∧ odClosed = true ∧
        got = (List.range n).map fn ∧ outClosed = false := hbr
      refine ⟨⟨rfl, hcc, hin, ?_, hct, fun _ => rfl⟩, ?_⟩
      · show taken = n ∧ cons = n ∧ od = .halted ∧ odClosed = true ∧
          got = (List.range n).map fn ∧ true = true
        exact ⟨b1, b2, b3, b4, b5, rfl⟩
      · simp only [BNet.mu, Bridge.rank]
        omega
  · -- brEof
    rcases bridge with _ | ch | _ | v | _ | _ <;> simp [BNet.step, Bridge.op] at h
    obtain ⟨hc, h⟩ := h
    subst h hc
    simp only [Bridge.inv] at hbr
    obtain ⟨b1, b2, b3⟩ := hbr
    rcases od with _ | v | _ | _ <;> simp at b3
    obtain ⟨b4, b5⟩ := b3
    refine ⟨⟨rfl, hcc, hin, ?_, hct, hfin⟩, ?_⟩
    · show OrDonePc.halted = OrDonePc.halted ∧ true = true ∧ cons = taken ∧
        got = (List.range taken).map fn ∧ outClosed = false
      exact ⟨rfl, rfl, by omega, by rw [b5, b4, b1], b2⟩
    · simp only [BNet.mu, Bridge.rank]
      omega
  · -- emit
    rcases bridge with _ | ch | _ | v | _ | _ <;> simp [BNet.step, Bridge.op] at h
    obtain ⟨⟨hc, hf⟩, h⟩ := h
    simp only [Bridge.inv] at hbr
    obtain ⟨b1, -, b3, b4, b5, b6⟩ := hbr
    subst h hc hf
    have hg : got ++ [v] = List.map fn (List.range cons) := by
      rw [b4, List.range_succ, List.map_append, b5, b3]
      rfl
    refine ⟨⟨rfl, hcc, hin, ?_, hct, by simp⟩, ?_⟩
    · rcases od with _ | w | _ | _
      · show odIn + 1 = taken ∧ false = false ∧ (odClosed = false ∧ odIn ≤ cons ∧
          cons ≤ odIn + 1 ∧ got ++ [v] = (List.range cons).map fn)
        exact ⟨b1, rfl, b6, by omega, by omega, hg⟩
      · exact b6.elim
      · show odIn + 1 = taken ∧ false = false ∧ (odClosed = false ∧ cons = odIn + 1 ∧
          got ++ [v] = (List.range cons).map fn)
        exact ⟨b1, rfl, b6, b4, hg⟩
      · show odIn + 1 = taken ∧ false = false ∧ (odClosed = true ∧ cons = odIn + 1 ∧
          got ++ [v] = (List.range cons).map fn)
        exact ⟨b1, rfl, b6, b4, hg⟩
    · simp only [BNet.mu, Bridge.rank]
      omega
  · -- eof
    simp only [BNet.step] at h
    cases outClosed <;> cases fin <;> simp at h
    subst h
    refine ⟨⟨rfl, hcc, hin, hbr, hct, fun _ => rfl⟩, ?_⟩
    simp [BNet.mu]

theorem inner_inv_consume {T : Type} {fn : Nat → T} {l : List (Inner T)} {c : Nat}
    {w1 : Inner T}
    (hall : ∀ j w, l[j]? = some w → Inner.inv fn j (decide (j < c)) w)
    (hw : Inner.inv fn c true w1) :
    ∀ j w, (l.set c w1)[j]? = some w → Inner.inv fn j (decide (j < c + 1)) w := by
  intro j w h
  rw [List.getElem?_set] at h
  split at h
  · split at h
    · simp only [Option.some.injEq] at h
      subst h
      subst_vars
      simpa using hw
    · cases h
  · rename_i hne
    have := hall j w h
    have e : decide (j < c + 1) = decide (j < c) := by
      have : j < c + 1 ↔ j < c := by omega
      simp [this]
    rw [e]
    exact this

theorem bnet_step_od {T : Type} (n : Nat) (fn : Nat → T) (st : BNet T) (m : BMove)
    (st' : BNet T) (hI : BNet.Inv n fn st)
    (hm : m = .odRecv ∨ m = .odDone ∨ m = .odAct ∨ m = .odPass)
    (h : BNet.step n fn m st = some st') :
    BNet.Inv n fn st' ∧ BNet.mu n st' < BNet.mu n st := by
  obtain ⟨done, cc, ch, inner, calls, bridge, taken, od, odIn, odClosed, cons,
    outClosed, got, fin⟩ := st
  obtain ⟨hd, hcc, hin, hbr, hct, hfin⟩ := hI
  simp only at hd hcc hin hbr hct hfin
  subst hd
  rcases hm with rfl | rfl | rfl | rfl
  · -- odRecv
    rcases od with _ | v | _ | _ <;> simp [BNet.step, OrDone.op, Op.recvOffer] at h
    cases hw : inner[odIn]? with
    | none => simp [hw] at h
    | some w =>
      simp only [hw] at h
      have hiw := hin odIn w hw
      obtain ⟨idx, pc, ⟨cap, buf, cl⟩⟩ := w
      obtain ⟨hidx, hcap, hpc⟩ := hiw
      simp only at hidx hcap hpc
      rcases bridge with _ | c0 | _ | v | _ | _ <;> simp only [Bridge.inv] at hbr
      · exact absurd hbr.1 (by simp)
      · exact absurd hbr.2.2.1 (by simp)
      · -- bridge at its range, OrDone at its outer select
        obtain ⟨b1, b2, b3, b4, b5, b6⟩ := hbr
        cases buf with
        | nil =>
          cases cl <;> simp at h
          subst h
          have hc : cons = odIn + 1 := by
            rcases pc with _ | v | _ | _ <;> simp at hpc
            by_contra hne
            have : ¬ odIn < cons := by omega
            simp [this] at hpc
          refine ⟨⟨rfl, hcc, hin, ?_, hct, hfin⟩, ?_⟩
          · show odIn + 1 = taken ∧ outClosed = false ∧ (odClosed = false ∧ cons = odIn + 1 ∧
              got = (List.range cons).map fn)
            exact ⟨b1, b2, b3, hc, b6⟩
          · have : ¬ cons ≤ odIn := by omega
            simp [BNet.mu, OrDone.rankIn, this]
        | cons v rest =>
          simp only [Option.some.injEq] at h
          subst h
          have hc : cons = odIn ∧ v = fn odIn ∧ rest = [] ∧ (pc = .exit ∨ pc = .halted) := by
            rcases pc with _ | v | _ | _ <;> simp at hpc
            · by_cases hlt : odIn < cons
              · simp [hlt] at hpc
              · simp [hlt] at hpc
                exact ⟨by omega, hpc.2.1, hpc.2.2, Or.inl rfl⟩
            · by_cases hlt : odIn < cons
              · simp [hlt] at hpc
              · simp [hlt] at hpc
                exact ⟨by omega, hpc.2.1, hpc.2.2, Or.inr rfl⟩
          obtain ⟨hc1, hc2, hc3, hc4⟩ := hc
          subst hc1 hc3
          refine ⟨⟨rfl, by simpa using hcc, ?_, ?_, ?_, hfin⟩, ?_⟩
          · refine inner_inv_consume hin ?_
            rcases hc4 with rfl | rfl <;> simp [Inner.inv] at hpc ⊢ <;> simp [hidx, hcap, hpc]
          · show cons + 1 = taken ∧ outClosed = false ∧ (odClosed = false ∧ v = fn cons ∧
              cons + 1 = cons + 1 ∧ got = (List.range cons).map fn)
            exact ⟨b1, b2, b3, hc2, rfl, b6⟩
          · show cons + 1 ≤ taken
            omega
          · have hs : ((inner.set cons ⟨idx, pc, ⟨cap, [], cl⟩⟩).map
                (fun w => Inner.rank w.pc)).sum + Inner.rank pc =
                (inner.map (fun w => Inner.rank w.pc)).sum + Inner.rank pc :=
              sum_map_set (fun w => Inner.rank w.pc) inner cons _ _ hw
            simp only [BNet.mu, List.length_set, OrDone.rankIn, le_refl, decide_True, if_true]
            omega
      · -- bridge holds a value: the inner channel has been read already
        obtain ⟨b1, b2, b3, b4, b5, b6⟩ := hbr
        cases buf with
        | nil =>
          cases cl <;> simp at h
          subst h
          refine ⟨⟨rfl, hcc, hin, ?_, hct, hfin⟩, ?_⟩
          · show odIn + 1 = taken ∧ outClosed = false ∧ v = fn odIn ∧ cons = odIn + 1 ∧
              got = (List.range odIn).map fn ∧ odClosed = false
            exact ⟨b1, b2, b3, b4, b5, b6⟩
          · have : ¬ cons ≤ odIn := by omega
            simp [BNet.mu, OrDone.rankIn, this]
        | cons v1 rest =>
          have hlt : odIn < cons := by omega
          rcases pc with _ | v | _ | _ <;> simp [hlt] at hpc
      · exact absurd hbr.2.2.1 (by simp)
      · exact absurd hbr.2.2.1 (by simp)
  · -- odDone
    simp only [BNet.step] at h
    cases hd : (OrDone.op od).doneOffer <;> simp [hd] at h
  · -- odAct
    rcases od with _ | v | _ | _ <;> simp [BNet.step, OrDone.op, Op.act] at h
    subst h
    rcases bridge with _ | c0 | _ | v | _ | _ <;> simp only [Bridge.inv] at hbr
    · exact absurd hbr.1 (by simp)
    · exact absurd hbr.2.2.1 (by simp)
    · obtain ⟨b1, b2, b3, b4, b5⟩ := hbr
      refine ⟨⟨rfl, hcc, hin, ?_, hct, hfin⟩, ?_⟩
      · show odIn + 1 = taken ∧ outClosed = false ∧ (true = true ∧ cons = odIn + 1 ∧
          got = (List.range cons).map fn)
        exact ⟨b1, b2, rfl, b4, b5⟩
      · simp [BNet.mu, OrDone.rankIn]
    · obtain ⟨b1, b2, b3, b4, b5, b6⟩ := hbr
      refine ⟨⟨rfl, hcc, hin, ?_, hct, hfin⟩, ?_⟩
      · show odIn + 1 = taken ∧ outClosed = false ∧ v = fn odIn ∧ cons = odIn + 1 ∧
          got = (List.range odIn).map fn ∧ true = true
        exact ⟨b1, b2, b3, b4, b5, rfl⟩
      · simp [BNet.mu, OrDone.rankIn]
    · exact absurd hbr.2.2.1 (by simp)
    · exact absurd hbr.2.2.1 (by simp)
  · -- odPass
    rcases od with _ | v | _ | _ <;> simp [BNet.step, OrDone.op, Op.sendOffer] at h
    rcases bridge with _ | c0 | _ | v0 | _ | _ <;> simp [Bridge.op] at h
    obtain ⟨hc, h⟩ := h
    subst h
    simp only [Bridge.inv] at hbr
    obtain ⟨b1, b2, b3, b4, b5, b6⟩ := hbr
    refine ⟨⟨rfl, hcc, hin, ?_, hct, hfin⟩, ?_⟩
    · show odIn + 1 = taken ∧ outClosed = false ∧ v = fn odIn ∧ cons = odIn + 1 ∧
        got = (List.range odIn).map fn ∧ odClosed = false
      exact ⟨b1, b2, b4, b5, b6, b3⟩
    · have : ¬ cons ≤ odIn := by omega
      simp [BNet.mu, OrDone.rankIn, Bridge.rank, this]

theorem bnet_step_ok {T : Type} (n : Nat) (fn : Nat → T) (st : BNet T) (m : BMove)
    (st' : BNet T) (hI : BNet.Inv n fn st) (hm : m ≠ BMove.cancel)
    (h : BNet.step n fn m st = some st') :
    BNet.Inv n fn st' ∧ BNet.mu n st' < BNet.mu n st := by
  cases m
  case cancel => exact absurd rfl hm
  case ccAct => exact bnet_step_cc n fn st _ st' hI (by simp) h
  case ccDone => exact bnet_step_cc n fn st _ st' hI (by simp) h
  case ccSend => exact bnet_step_cc n fn st _ st' hI (by simp) h
  case inAct j => exact bnet_step_inner n fn st _ st' hI (Or.inl ⟨j, rfl⟩) h
  case inDone j => exact bnet_step_inner n fn st _ st' hI (Or.inr (Or.inl ⟨j, rfl⟩)) h
  case inSend j => exact bnet_step_inner n fn st _ st' hI (Or.inr (Or.inr ⟨j, rfl⟩)) h
  case brRecv => exact bnet_step_bridge n fn st _ st' hI (by simp) h
  case brDone => exact bnet_step_bridge n fn st _ st' hI (by simp) h
  case brAct => exact bnet_step_bridge n fn st _ st' hI (by simp) h
  case brEof => exact bnet_step_bridge n fn st _ st' hI (by simp) h
  case emit => exact bnet_step_bridge n fn st _ st' hI (by simp) h
  case eof => exact bnet_step_bridge n fn st _ st' hI (by simp) h
  case odRecv => exact bnet_step_od n fn st _ st' hI (by simp) h
  case odDone => exact bnet_step_od n fn st _ st' hI (by simp) h
  case odAct => exact bnet_step_od n fn st _ st' hI (by simp) h
  case odPass => exact bnet_step_od n fn st _ st' hI (by simp) h

theorem bnet_run_ok {T : Type} (n : Nat) (fn : Nat → T) :
    ∀ (ms : List BMove) (st st' : BNet T), BNet.Inv n fn st → BNoCancel ms →
      BNet.run n fn ms st = some st' →
      BNet.Inv n fn st' ∧ BNet.mu n st' + ms.length ≤ BNet.mu n st := by
  intro ms
  induction ms with
  | nil =>
    intro st st' hI _ h
    simp only [BNet.run, Option.some.injEq] at h
    subst h
    exact ⟨hI, by simp⟩
  | cons m ms ih =>
    intro st st' hI hnc h
    simp only [BNet.run] at h
    cases hs : BNet.step n fn m st with
    | none => simp [hs] at h
    | some mid =>
      simp only [hs, Option.some_bind] at h
      have hm : m ≠ BMove.cancel := fun e => hnc (by simp [e])
      have hms : BNoCancel ms := fun e => hnc (by simp [e])
      obtain ⟨hI1, hμ1⟩ := bnet_step_ok n fn st m mid hI hm hs
      obtain ⟨hI2, hμ2⟩ := ih mid st' hI1 hms h
      refine ⟨hI2, ?_⟩
      simp only [List.length_cons]
      omega

theorem bnet_init_inv {T : Type} (n : Nat) (fn : Nat → T) : BNet.Inv n fn (BNet.init n false) := by
  refine ⟨rfl, ?_, ?_, ?_, le_refl _, by simp [BNet.init]⟩
  · simp [BNet.init, ChanChan, ChanChan.inv, Chan.make]
  · intro j w h
    simp [BNet.init] at h
  · simp [BNet.init, Bridge.inv]

theorem bnet_progress {T : Type} (n : Nat) (fn : Nat → T) (st : BNet T)
    (hI : BNet.Inv n fn st) (hf : st.fin = false) :
    ∃ m, m ≠ BMove.cancel ∧ (BNet.step n fn m st).isSome = true := by
  obtain ⟨done, cc, ⟨cap, buf, chClosed⟩, inner, calls, bridge, taken, od, odIn, odClosed, cons,
    outClosed, got, fin⟩ := st
  obtain ⟨hd, hcc, hin, hbr, hct, hfin⟩ := hI
  simp only at hd hcc hin hbr hct hfin hf
  subst hd hf
  rcases bridge with _ | c0 | _ | v | _ | _ <;> simp only [Bridge.inv] at hbr
  · -- outer select of Bridge
    cases buf with
    | cons c rest => exact ⟨.brRecv, by simp, by simp [BNet.step, Bridge.op]⟩
    | nil =>
      cases chClosed with
      | true => exact ⟨.brRecv, by simp, by simp [BNet.step, Bridge.op]⟩
      | false =>
        obtain ⟨h0, hcc⟩ := hcc
        simp only at h0
        rcases cc with i | i | _ | _ <;> simp only [ChanChan.inv] at hcc
        · refine ⟨.ccAct, by simp, ?_⟩
          by_cases hlt : i < n <;> simp [BNet.step, ChanChan.op, hlt]
        · refine ⟨.ccSend, by simp, ?_⟩
          have : 0 < cap := by omega
          simp [BNet.step, ChanChan.op, Op.sendOffer, this]
        · exact absurd hcc.2.1 (by simp)
  · exact ⟨.brAct, by simp, by simp [BNet.step, Bridge.op]⟩
  · -- Bridge ranges over OrDone
    obtain ⟨b1, b2, b3⟩ := hbr
    rcases od with _ | v | _ | _ <;> simp only at b3
    · have hlen : odIn < inner.length := by
        obtain ⟨h0, hcc⟩ := hcc
        rcases cc with i | i | _ | _ <;> simp only [ChanChan.inv] at hcc
        · omega
        · omega
        · omega
      have hw : inner[odIn]? = some inner[odIn] := List.getElem?_eq_getElem hlen
      have hiw := hin odIn _ hw
      generalize inner[odIn] = w at hw hiw
      obtain ⟨idx, pc, ⟨cap1, buf1, cl1⟩⟩ := w
      obtain ⟨hidx, hcap, hpc⟩ := hiw
      simp only at hidx hcap hpc
      cases buf1 with
      | cons v rest =>
        exact ⟨.odRecv, by simp, by simp [BNet.step, OrDone.op, Op.recvOffer, hw]⟩
      | nil =>
        rcases pc with _ | v | _ | _
        · exact ⟨.inAct odIn, by simp, by simp [BNet.step, hw, ChanChan.innerOp, Op.act]⟩
        · refine ⟨.inSend odIn, by simp, ?_⟩
          simp only at hpc
          simp [BNet.step, hw, ChanChan.innerOp, Op.sendOffer, hpc.2.2.1, hcap]
        · exact ⟨.inAct odIn, by simp, by simp [BNet.step, hw, ChanChan.innerOp, Op.act]⟩
        · refine ⟨.odRecv, by simp, ?_⟩
          simp only at hpc
          simp [BNet.step, OrDone.op, Op.recvOffer, hw, hpc.1]
    · exact ⟨.odPass, by simp, by simp [BNet.step, OrDone.op, Op.sendOffer, Bridge.op, b3.1]⟩
    · exact ⟨.odAct, by simp, by simp [BNet.step, OrDone.op, Op.act]⟩
    · exact ⟨.brEof, by simp, by simp [BNet.step, Bridge.op, b3.1]⟩
  · exact ⟨.emit, by simp, by simp [BNet.step, Bridge.op, hbr.2.1]⟩
  · exact ⟨.brAct, by simp, by simp [BNet.step, Bridge.op]⟩
  · exact ⟨.eof, by simp, by simp [BNet.step, hbr.2.2.2.2.2]⟩

/-- C2: in every schedule of `Bridge(ctx, ChanChan(ctx, n, fn))` in which the
context is not cancelled, whatever the order in which the goroutines run, a
consumer that has read the output to closure holds exactly `n` values, the
`i`-th being `fn i`: `[fn 0, ..., fn (n-1)]`; the output is read to closure:
while the consumer has not seen the close some move is enabled, and no
schedule is longer than `14 n + 5` moves. -/
theorem bridge_chanchan_in_order {T : Type} (n : Nat) (fn : Nat → T) (ms : List BMove)
    (st : BNet T) (hnc : BNoCancel ms)
    (hrun : BNet.run n fn ms (BNet.init n false) = some st) :
    (st.fin = true → st.got = (List.range n).map fn ∧ st.got.length = n) ∧
    (st.fin = true → ∀ i, i < n → st.got[i]? = some (fn i)) ∧
    (st.fin = false → ∃ m, m ≠ BMove.cancel ∧ (BNet.step n fn m st).isSome = true) ∧
    ms.length ≤ 14 * n + 5 := by
  obtain ⟨hI, hμ⟩ := bnet_run_ok n fn ms _ st (bnet_init_inv n fn) hnc hrun
  have hgot : st.fin = true → st.got = (List.range n).map fn := by
    intro hf
    obtain ⟨-, -, -, hbr, -, hfin⟩ := hI
    have hc := hfin hf
    unfold Bridge.inv at hbr
    split at hbr
    · rw [hbr.2.2.2.2] at hc; cases hc
    · rw [hbr.2.2.2.2.2] at hc; cases hc
    · rw [hbr.2.1] at hc; cases hc
    · rw [hbr.2.1] at hc; cases hc
    · rw [hbr.2.2.2.2.2] at hc; cases hc
    · exact hbr.2.2.2.2.1
  refine ⟨fun hf => ⟨hgot hf, by rw [hgot hf]; simp⟩, fun hf i hi => ?_,
    bnet_progress n fn st hI, ?_⟩
  · rw [hgot hf]
    simp [List.getElem?_map, List.getElem?_range hi]
  · have h0 : BNet.mu n (BNet.init n false : BNet T) = 14 * n + 5 := by
      simp [BNet.mu, BNet.init, ChanChan, ChanChan.rank, Bridge.rank, OrDone.rankIn]
      omega
    omega

/-- The example of the tests: `Bridge(ctx, ChanChan(ctx, 3, i * 10))` read to
closure gives `[0, 10, 20]`, here with the inner goroutines finishing in the
order 2, 0, 1. -/
theorem bridge_chanchan_in_order_witness :
    BNet.run 3 (fun i => i * 10) Demo.bridge3 (BNet.init 3 false) = some Demo.bridge3End ∧
      Demo.bridge3End.got = [0, 10, 20] ∧
      Demo.bridge3End.got = (List.range 3).map (fun i => i * 10) :=
  ⟨by decide, rfl,
    ((bridge_chanchan_in_order 3 (fun i => i * 10) Demo.bridge3 Demo.bridge3End (by decide)
      (by decide)).1 rfl).1⟩

/-! ## C3: FanIn over FanOut -/

theorem forall_getElem_set {α : Type} {P : Nat → α → Prop} {l : List α} {i : Nat} {a : α}
    (hall : ∀ j x, l[j]? = some x → P j x) (ha : P i a) :
    ∀ j x, (l.set i a)[j]? = some x → P j x := by
  intro j x h
  rw [List.getElem?_set] at h
  split at h
  · split at h
    · simp only [Option.some.injEq] at h
      subst h
      subst_vars
      exact ha
    · cases h
  · exact hall j x h

theorem got_from_append {T : Type} (got : List (Nat × T)) (i j : Nat) (v : T) :
    FanIn.gotFrom (got ++ [(i, v)]) j = FanIn.gotFrom got j ++ (if i = j then [v] else []) := by
  simp only [FanIn.gotFrom, List.filter_append, List.map_append]
  by_cases h : i = j
  · subst h
    simp [List.filter]
  · have hb : (i == j) = false := by simpa using h
    simp [List.filter, h, hb]

theorem fnet_step_lane {T : Type} (n : Nat) (S : Nat → List T) (st : FNet T) (m : FMove)
    (st' : FNet T) (hI : FNet.Inv n S st)
    (hm : (∃ i, m = .srcAct i) ∨ (∃ i, m = .srcDone i) ∨ (∃ i, m = .pass i) ∨
      (∃ i, m = .eofIn i) ∨ (∃ i, m = .fwdDone i) ∨ (∃ i, m = .fwdAct i))
    (h : FNet.step m st = some st') :
    FNet.Inv n S st' ∧ FNet.mu st' < FNet.mu st := by
  obtain ⟨done, lanes, wg, closer, outClosed, got, fin⟩ := st
  obtain ⟨hd, hlen, hl, htag, hwg, hcl, hfin⟩ := hI
  simp only at hd hlen hl htag hwg hcl hfin
  subst hd
  rcases hm with ⟨i, rfl⟩ | ⟨i, rfl⟩ | ⟨i, rfl⟩ | ⟨i, rfl⟩ | ⟨i, rfl⟩ | ⟨i, rfl⟩
  · -- srcAct
    simp only [FNet.step] at h
    cases hw : lanes[i]? with
    | none => simp [hw] at h
    | some l =>
      simp only [hw] at h
      obtain ⟨h1, h2⟩ := hl i l hw
      obtain ⟨src, closed, log, fwd⟩ := l
      cases ha : (From.op src : Op (FromPc T) Empty T).act with
      | none => simp [ha] at h
      | some r =>
        obtain ⟨nx, isCall, isClose⟩ := r
        simp only [ha, Option.some.injEq] at h
        subst h
        obtain ⟨hi, hr⟩ := (from_ok (S i)).act src closed log 0 nx isCall isClose h1 ha
        have hmu : ((lanes.set i ⟨nx, closed || isClose, log, fwd⟩).map Lane.mu).sum +
            (3 * From.rank src + FanIn.rank fwd) =
            (lanes.map Lane.mu).sum + (3 * From.rank nx + FanIn.rank fwd) :=
          sum_map_set Lane.mu lanes i _ _ hw
        have hlv : ((lanes.set i ⟨nx, closed || isClose, log, fwd⟩).map
            (fun l => FanIn.live l.fwd)).sum + FanIn.live fwd =
            (lanes.map (fun l => FanIn.live l.fwd)).sum + FanIn.live fwd :=
          sum_map_set (fun l => FanIn.live l.fwd) lanes i _ _ hw
        refine ⟨⟨rfl, by simpa using hlen, ?_, htag, ?_, hcl, hfin⟩, ?_⟩
        · refine forall_getElem_set hl ?_
          refine ⟨hi, ?_⟩
          rcases fwd with _ | v | _ | _ <;> simp only at h2 ⊢
          · exact h2
          · exact h2
          · exact ⟨h2.1, by simp [h2.2]⟩
          · exact ⟨h2.1, by simp [h2.2]⟩
        · simp only
          omega
        · simp only [FNet.mu]
          omega
  · -- srcDone
    simp only [FNet.step] at h
    cases hw : lanes[i]? with
    | none => simp [hw] at h
    | some l =>
      simp only [hw] at h
      cases hd : (From.op l.src : Op (FromPc T) Empty T).doneOffer <;> simp [hd] at h
  · -- pass
    simp only [FNet.step] at h
    cases hw : lanes[i]? with
    | none => simp [hw] at h
    | some l =>
      simp only [hw] at h
      obtain ⟨h1, h2⟩ := hl i l hw
      obtain ⟨src, closed, log, fwd⟩ := l
      cases hs : (From.op src : Op (FromPc T) Empty T).sendOffer with
      | none => simp [hs] at h
      | some r =>
        obtain ⟨v, nx⟩ := r
        rcases fwd with _ | w | _ | _ <;> simp [hs, FanIn.op, Op.recvOffer] at h
        obtain ⟨hc, h⟩ := h
        subst h hc
        obtain ⟨hi, hr⟩ := (from_ok (S i)).send src log 0 v nx h1 hs
        have hmu : ((lanes.set i ⟨nx, false, log ++ [v], .sel v⟩).map Lane.mu).sum +
            (3 * From.rank src + 2) = (lanes.map Lane.mu).sum + (3 * From.rank nx + 3) :=
          sum_map_set Lane.mu lanes i _ _ hw
        have hlv : ((lanes.set i ⟨nx, false, log ++ [v], .sel v⟩).map
            (fun l => FanIn.live l.fwd)).sum + 1 =
            (lanes.map (fun l => FanIn.live l.fwd)).sum + 1 :=
          sum_map_set (fun l => FanIn.live l.fwd) lanes i _ _ hw
        refine ⟨⟨rfl, by simpa using hlen, ?_, htag, ?_, hcl, hfin⟩, ?_⟩
        · refine forall_getElem_set hl ?_
          refine ⟨hi, ?_⟩
          simp only at h2 ⊢
          rw [h2]
        · simp only
          omega
        · simp only [FNet.mu]
          omega
  · -- eofIn
    simp only [FNet.step] at h
    cases hw : lanes[i]? with
    | none => simp [hw] at h
    | some l =>
      simp only [hw] at h
      obtain ⟨h1, h2⟩ := hl i l hw
      obtain ⟨src, closed, log, fwd⟩ := l
      rcases fwd with _ | w | _ | _ <;> simp [FanIn.op, Op.recvOffer] at h
      obtain ⟨hc, h⟩ := h
      subst h hc
      have hmu : ((lanes.set i ⟨src, true, log, .exit⟩).map Lane.mu).sum +
          (3 * From.rank src + 2) = (lanes.map Lane.mu).sum + (3 * From.rank src + 1) :=
        sum_map_set Lane.mu lanes i _ _ hw
      have hlv : ((lanes.set i ⟨src, true, log, .exit⟩).map
          (fun l => FanIn.live l.fwd)).sum + 1 =
          (lanes.map (fun l => FanIn.live l.fwd)).sum + 1 :=
        sum_map_set (fun l => FanIn.live l.fwd) lanes i _ _ hw
      refine ⟨⟨rfl, by simpa using hlen, ?_, htag, ?_, hcl, hfin⟩, ?_⟩
      · refine forall_getElem_set hl ?_
        exact ⟨h1, h2, rfl⟩
      · simp only
        omega
      · simp only [FNet.mu]
        omega
  · -- fwdDone
    simp only [FNet.step] at h
    cases hw : lanes[i]? with
    | none => simp [hw] at h
    | some l =>
      simp only [hw] at h
      cases hd : (FanIn.op l.fwd).doneOffer <;> simp [hd] at h
  · -- fwdAct
    simp only [FNet.step] at h
    cases hw : lanes[i]? with
    | none => simp [hw] at h
    | some l =>
      simp only [hw] at h
      obtain ⟨h1, h2⟩ := hl i l hw
      obtain ⟨src, closed, log, fwd⟩ := l
      rcases fwd with _ | w | _ | _ <;> simp [FanIn.op] at h
      subst h
      have hmu : ((lanes.set i ⟨src, closed, log, .halted⟩).map Lane.mu).sum +
          (3 * From.rank src + 1) = (lanes.map Lane.mu).sum + (3 * From.rank src + 0) :=
        sum_map_set Lane.mu lanes i _ _ hw
      have hlv : ((lanes.set i ⟨src, closed, log, .halted⟩).map
          (fun l => FanIn.live l.fwd)).sum + 1 =
          (lanes.map (fun l => FanIn.live l.fwd)).sum + 0 :=
        sum_map_set (fun l => FanIn.live l.fwd) lanes i _ _ hw
      refine ⟨⟨rfl, by simpa using hlen, ?_, htag, ?_, ?_, hfin⟩, ?_⟩
      · refine forall_getElem_set hl ?_
        exact ⟨h1, h2⟩
      · simp only
        omega
      · rcases closer with _ | _ | _ <;> simp only at hcl ⊢
        · exact hcl
        · omega
        · omega
      · simp only [FNet.mu]
        omega

theorem fnet_step_out {T : Type} (n : Nat) (S : Nat → List T) (st : FNet T) (m : FMove)
    (st' : FNet T) (hI : FNet.Inv n S st)
    (hm : (∃ i, m = .emit i) ∨ m = .closerAct ∨ m = .eof)
    (h : FNet.step m st = some st') :
    FNet.Inv n S st' ∧ FNet.mu st' < FNet.mu st := by
  obtain ⟨done, lanes, wg, closer, outClosed, got, fin⟩ := st
  obtain ⟨hd, hlen, hl, htag, hwg, hcl, hfin⟩ := hI
  simp only at hd hlen hl htag hwg hcl hfin
  rcases hm with ⟨i, rfl⟩ | rfl | rfl
  · -- emit
    simp only [FNet.step] at h
    cases hw : lanes[i]? with
    | none => simp [hw] at h
    | some l =>
      simp only [hw] at h
      obtain ⟨h1, h2⟩ := hl i l hw
      obtain ⟨src, closed, log, fwd⟩ := l
      rcases fwd with _ | v | _ | _ <;> simp [FanIn.op, Op.sendOffer] at h
      obtain ⟨⟨hc, hf⟩, h⟩ := h
      subst h
      have hmu : ((lanes.set i ⟨src, closed, log, .loop⟩).map Lane.mu).sum +
          (3 * From.rank src + 3) = (lanes.map Lane.mu).sum + (3 * From.rank src + 2) :=
        sum_map_set Lane.mu lanes i _ _ hw
      have hlv : ((lanes.set i ⟨src, closed, log, .loop⟩).map
          (fun l => FanIn.live l.fwd)).sum + 1 =
          (lanes.map (fun l => FanIn.live l.fwd)).sum + 1 :=
        sum_map_set (fun l => FanIn.live l.fwd) lanes i _ _ hw
      have hi : i < n := by
        rw [← hlen]
        exact (List.getElem?_eq_some_iff.mp hw).1
      refine ⟨⟨hd, by simpa using hlen, ?_, ?_, ?_, hcl, ?_⟩, ?_⟩
      · intro j x hj
        have e := got_from_append got i j v
        simp only at hj ⊢
        rw [List.getElem?_set] at hj
        split at hj
        · rename_i hij
          subst hij
          split at hj
          · simp only [Option.some.injEq] at hj
            subst hj
            refine ⟨h1, ?_⟩
            simp only at h2 ⊢
            rw [e]
            simpa using h2
          · cases hj
        · rename_i hij
          have := hl j x hj
          rw [e]
          simpa [hij] using this
      · intro p hp
        simp only [List.mem_append, List.mem_singleton] at hp
        rcases hp with hp | rfl
        · exact htag p hp
        · exact hi
      · simp only
        omega
      · intro hf'
        simp only at hf'
        rw [hf] at hf'
        cases hf'
      · simp only [FNet.mu]
        omega
  · -- closerAct
    rcases closer with _ | _ | _ <;> simp [FNet.step, FanIn.closerOp] at h
    · obtain ⟨h0, h⟩ := h
      subst h
      exact ⟨⟨hd, hlen, hl, htag, hwg, ⟨hcl, h0⟩, hfin⟩, by simp [FNet.mu, FanIn.closerRank]⟩
    · subst h
      exact ⟨⟨hd, hlen, hl, htag, hwg, ⟨rfl, hcl.2⟩, fun _ => rfl⟩,
        by simp [FNet.mu, FanIn.closerRank]⟩
  · -- eof
    simp only [FNet.step] at h
    cases outClosed <;> cases fin <;> simp at h
    subst h
    exact ⟨⟨hd, hlen, hl, htag, hwg, hcl, fun _ => rfl⟩, by simp [FNet.mu]⟩

theorem fnet_step_ok {T : Type} (n : Nat) (S : Nat → List T) (st : FNet T) (m : FMove)
    (st' : FNet T) (hI : FNet.Inv n S st) (hm : m ≠ FMove.cancel)
    (h : FNet.step m st = some st') :
    FNet.Inv n S st' ∧ FNet.mu st' < FNet.mu st := by
  cases m
  case cancel => exact absurd rfl hm
  case srcAct i => exact fnet_step_lane n S st _ st' hI (Or.inl ⟨i, rfl⟩) h
  case srcDone i => exact fnet_step_lane n S st _ st' hI (Or.inr (Or.inl ⟨i, rfl⟩)) h
  case pass i => exact fnet_step_lane n S st _ st' hI (Or.inr (Or.inr (Or.inl ⟨i, rfl⟩))) h
  case eofIn i =>
    exact fnet_step_lane n S st _ st' hI (Or.inr (Or.inr (Or.inr (Or.inl ⟨i, rfl⟩)))) h
  case fwdDone i =>
    exact fnet_step_lane n S st _ st' hI (Or.inr (Or.inr (Or.inr (Or.inr (Or.inl ⟨i, rfl⟩))))) h
  case fwdAct i =>
    exact fnet_step_lane n S st _ st' hI (Or.inr (Or.inr (Or.inr (Or.inr (Or.inr ⟨i, rfl⟩))))) h
  case emit i => exact fnet_step_out n S st _ st' hI (Or.inl ⟨i, rfl⟩) h
  case closerAct => exact fnet_step_out n S st _ st' hI (Or.inr (Or.inl rfl)) h
  case eof => exact fnet_step_out n S st _ st' hI (Or.inr (Or.inr rfl)) h

theorem fnet_run_ok {T : Type} (n : Nat) (S : Nat → List T) :
    ∀ (ms : List FMove) (st st' : FNet T), FNet.Inv n S st → FNoCancel ms →
      FNet.run ms st = some st' → FNet.Inv n S st' ∧ FNet.mu st' + ms.length ≤ FNet.mu st := by
  intro ms
  induction ms with
  | nil =>
    intro st st' hI _ h
    simp only [FNet.run, Option.some.injEq] at h
    subst h
    exact ⟨hI, by simp⟩
  | cons m ms ih =>
    intro st st' hI hnc h
    simp only [FNet.run] at h
    cases hs : FNet.step m st with
    | none => simp [hs] at h
    | some mid =>
      simp only [hs, Option.some_bind] at h
      have hm : m ≠ FMove.cancel := fun e => hnc (by simp [e])
      have hms : FNoCancel ms := fun e => hnc (by simp [e])
      obtain ⟨hI1, hμ1⟩ := fnet_step_ok n S st m mid hI hm hs
      obtain ⟨hI2, hμ2⟩ := ih mid st' hI1 hms h
      refine ⟨hI2, ?_⟩
      simp only [List.length_cons]
      omega

theorem fnet_init_lanes {T : Type} (n : Nat) (S : Nat → List T) (i : Nat) (l : Lane T)
    (h : (FNet.init (FanOut n (fun i => From (S i))) false).lanes[i]? = some l) :
    i < n ∧ l = ⟨.loop (S i), false, [], .loop⟩ := by
  simp only [FNet.init, FanOut, List.map_map, List.getElem?_map] at h
  by_cases hi : i < n
  · rw [List.getElem?_range hi] at h
    simp only [Option.map_some', Function.comp, Option.some.injEq] at h
    exact ⟨hi, h.symm⟩
  · rw [List.getElem?_eq_none (by simpa using hi)] at h
    cases h

theorem sum_map_const_one {α : Type} (l : List α) (f : α → Nat) (h : ∀ x ∈ l, f x = 1) :
    (l.map f).sum = l.length := by
  induction l with
  | nil => rfl
  | cons a l ih =>
    simp only [List.map_cons, List.sum_cons, List.length_cons]
    rw [h a (by simp), ih (fun x hx => h x (by simp [hx]))]
    omega

theorem fnet_init_inv {T : Type} (n : Nat) (S : Nat → List T) :
    FNet.Inv n S (FNet.init (FanOut n (fun i => From (S i))) false) := by
  refine ⟨rfl, by simp [FNet.init, FanOut], ?_, by simp [FNet.init], ?_, rfl, by simp [FNet.init]⟩
  · intro i l h
    obtain ⟨-, rfl⟩ := fnet_init_lanes n S i l h
    simp [Lane.inv, From.inv, FNet.init, FanIn.gotFrom]
  · simp only [FNet.init, List.map_map]
    exact (sum_map_const_one _ _ (fun x _ => rfl)).symm

theorem exists_pos_of_sum_pos {α : Type} (l : List α) (f : α → Nat) (h : (l.map f).sum ≠ 0) :
    ∃ (i : Nat) (x : α), l[i]? = some x ∧ f x ≠ 0 := by
  induction l with
  | nil => simp at h
  | cons a l ih =>
    by_cases ha : f a = 0
    · simp only [List.map_cons, List.sum_cons, ha, Nat.zero_add] at h
      obtain ⟨i, x, h1, h2⟩ := ih h
      exact ⟨i + 1, x, by simpa using h1, h2⟩
    · exact ⟨0, a, by simp, ha⟩

theorem forall_zero_of_sum_zero {α : Type} (l : List α) (f : α → Nat) (h : (l.map f).sum = 0) :
    ∀ (i : Nat) (x : α), l[i]? = some x → f x = 0 := by
  intro i x hx
  by_contra hne
  induction l generalizing i with
  | nil => simp at hx
  | cons a l ih =>
    simp only [List.map_cons, List.sum_cons] at h
    cases i with
    | zero =>
      simp only [List.getElem?_cons_zero, Option.some.injEq] at hx
      subst hx
      omega
    | succ i =>
      simp only [List.getElem?_cons_succ] at hx
      exact ih (by omega) i hx

theorem fnet_progress {T : Type} (n : Nat) (S : Nat → List T) (st : FNet T)
    (hI : FNet.Inv n S st) (hf : st.fin = false) :
    ∃ m, m ≠ FMove.cancel ∧ (FNet.step m st).isSome = true := by
  obtain ⟨done, lanes, wg, closer, outClosed, got, fin⟩ := st
  obtain ⟨hd, hlen, hl, htag, hwg, hcl, hfin⟩ := hI
  simp only at hd hlen hl htag hwg hcl hfin hf
  subst hd hf
  rcases closer with _ | _ | _ <;> simp only at hcl
  · by_cases h0 : wg = 0
    · exact ⟨.closerAct, by simp, by simp [FNet.step, FanIn.closerOp, h0]⟩
    · rw [hwg] at h0
      obtain ⟨i, l, hw, hlive⟩ := exists_pos_of_sum_pos lanes _ h0
      obtain ⟨h1, h2⟩ := hl i l hw
      obtain ⟨src, closed, log, fwd⟩ := l
      rcases fwd with _ | v | _ | _
      · rcases src with (_ | ⟨v, vs⟩) | _ | _
        · exact ⟨.srcAct i, by simp, by simp [FNet.step, hw, From.op, Op.act]⟩
        · refine ⟨.pass i, by simp, ?_⟩
          have hc : closed = false := h1.1
          simp [FNet.step, hw, From.op, Op.sendOffer, FanIn.op, Op.recvOffer, hc]
        · exact h1.elim
        · refine ⟨.eofIn i, by simp, ?_⟩
          have hc : closed = true := h1.1
          simp [FNet.step, hw, FanIn.op, Op.recvOffer, hc]
      · exact ⟨.emit i, by simp, by simp [FNet.step, hw, FanIn.op, Op.sendOffer, hcl]⟩
      · exact ⟨.fwdAct i, by simp, by simp [FNet.step, hw, FanIn.op]⟩
      · exact absurd rfl hlive
  · exact ⟨.closerAct, by simp, by simp [FNet.step, FanIn.closerOp]⟩
  · exact ⟨.eof, by simp, by simp [FNet.step, hcl.1]⟩

theorem perm_filter_tags {α : Type} (l : List (Nat × α)) (n : Nat) :
    (l.filter (fun p => decide (p.1 < n))).Perm
      ((List.range n).flatMap (fun i => l.filter (fun p => p.1 == i))) := by
  induction n with
  | zero => simp
  | succ n ih =>
    rw [List.range_succ, List.flatMap_append]
    simp only [List.flatMap_cons, List.flatMap_nil, List.append_nil]
    have h1 : (l.filter (fun p => decide (p.1 < n + 1))).Perm
        ((l.filter (fun p => decide (p.1 < n + 1))).filter (fun p => decide (p.1 < n)) ++
          (l.filter (fun p => decide (p.1 < n + 1))).filter (fun p => !decide (p.1 < n))) :=
      (List.filter_append_perm _ _).symm
    have e1 : (l.filter (fun p => decide (p.1 < n + 1))).filter (fun p => decide (p.1 < n)) =
        l.filter (fun p => decide (p.1 < n)) := by
      rw [List.filter_filter]
      congr 1
      funext p
      by_cases h : p.1 < n
      · have : p.1 < n + 1 := by omega
        simp [h, this]
      · simp [h]
    have e2 : (l.filter (fun p => decide (p.1 < n + 1))).filter (fun p => !decide (p.1 < n)) =
        l.filter (fun p => p.1 == n) := by
      rw [List.filter_filter]
      congr 1
      funext p
      by_cases h : p.1 = n
      · simp [h]
      · have hb : (p.1 == n) = false := by simpa using h
        rw [hb]
        by_cases h2 : p.1 < n
        · simp [h2]
        · have : ¬ p.1 < n + 1 := by omega
          simp [this]
    rw [e1, e2] at h1
    exact h1.trans (List.Perm.append_right _ ih)

theorem lane_inv_final {T : Type} {S : List T} {sent : List T} {l : Lane T}
    (h : Lane.inv S sent l) : sent <+: S ∧ (l.fwd = .halted → sent = S) := by
  obtain ⟨h1, h2⟩ := h
  have hlog := from_inv_log h1
  obtain ⟨src, closed, log, fwd⟩ := l
  rcases fwd with _ | v | _ | _ <;> simp only at h2 hlog ⊢
  · exact ⟨h2 ▸ hlog.1, by simp⟩
  · exact ⟨(List.prefix_append sent [v]).trans (h2 ▸ hlog.1), by simp⟩
  · exact ⟨h2.1 ▸ hlog.1, by simp⟩
  · exact ⟨h2.1 ▸ hlog.1, fun _ => h2.1.trans (hlog.2 h2.2)⟩

/-- C3: `FanOut(ctx, n, fn)` returns exactly `n` streams, the `i`-th being
`fn(ctx, i)`; and in every schedule of `FanIn` over the streams
`From(ctx, S i...)` of `FanOut` in which the context is not cancelled, whatever
the merge order, the values the consumer got from any one stream are at every
moment a prefix of that stream, and once it has read the output to closure
they are exactly that stream, in its order, so that all the values it got
are, as a multiset, the union of the streams; the output is read to closure:
while the consumer has not seen the close some move is enabled, and the
length of a schedule is bounded. -/
theorem fanin_fanout_interleaves {T : Type} (n : Nat) (S : Nat → List T) (ms : List FMove)
    (st : FNet T) (hnc : FNoCancel ms)
    (hrun : FNet.run ms (FNet.init (FanOut n (fun i => From (S i))) false) = some st) :
    ((FanOut n (fun i => From (S i))).length = n ∧
      ∀ i, i < n → (FanOut n (fun i => From (S i)))[i]? = some (From (S i))) ∧
    (∀ p, p ∈ st.got → p.1 < n) ∧
    (∀ i, i < n → FanIn.gotFrom st.got i <+: S i) ∧
    (st.fin = true → ∀ i, i < n → FanIn.gotFrom st.got i = S i) ∧
    (st.fin = true → st.values.Perm ((List.range n).flatMap S)) ∧
    (st.fin = false → ∃ m, m ≠ FMove.cancel ∧ (FNet.step m st).isSome = true) ∧
    ms.length ≤ ((List.range n).map (fun i => 3 * (S i).length + 5)).sum + 3 := by
  obtain ⟨hI, hμ⟩ := fnet_run_ok n S ms _ st (fnet_init_inv n S) hnc hrun
  have hprog := fnet_progress n S st hI
  obtain ⟨hd, hlen, hl, htag, hwg, hcl, hfin⟩ := hI
  have hlane : ∀ i, i < n → ∃ l, st.lanes[i]? = some l := by
    intro i hi
    exact ⟨st.lanes[i], List.getElem?_eq_getElem (by omega)⟩
  have hpre : ∀ i, i < n → FanIn.gotFrom st.got i <+: S i := by
    intro i hi
    obtain ⟨l, hw⟩ := hlane i hi
    exact (lane_inv_final (hl i l hw)).1
  have hall : st.fin = true → ∀ i, i < n → FanIn.gotFrom st.got i = S i := by
    intro hf i hi
    obtain ⟨l, hw⟩ := hlane i hi
    have hc := hfin hf
    have h0 : st.wg = 0 := by
      rcases hcs : st.closer with _ | _ | _ <;> rw [hcs] at hcl <;> simp only at hcl
      · rw [hcl] at hc; cases hc
      · rw [hcl.1] at hc; cases hc
      · exact hcl.2
    rw [hwg] at h0
    have hz := forall_zero_of_sum_zero st.lanes _ h0 i l hw
    have hh : l.fwd = .halted := by
      rcases hfw : l.fwd with _ | v | _ | _ <;> simp [hfw, FanIn.live] at hz
      rfl
    exact (lane_inv_final (hl i l hw)).2 hh
  refine ⟨⟨by simp [FanOut], fun i hi => by simp [FanOut, List.getElem?_range hi]⟩, htag, hpre,
    hall, fun hf => ?_, hprog, ?_⟩
  · have e1 : st.got.filter (fun p => decide (p.1 < n)) = st.got := by
      rw [List.filter_eq_self]
      intro p hp
      simpa using htag p hp
    have h1 := (perm_filter_tags st.got n).map (fun p => p.2)
    rw [e1, List.map_flatMap] at h1
    have e2 : (List.range n).flatMap (fun i => (st.got.filter (fun p => p.1 == i)).map
        (fun p => p.2)) = (List.range n).flatMap S := by
      apply List.flatMap_congr
      intro i hi
      exact hall hf i (List.mem_range.mp hi)
    rw [e2] at h1
    exact h1
  · have h0 : FNet.mu (FNet.init (FanOut n (fun i => From (S i))) false) =
        ((List.range n).map (fun i => 3 * (S i).length + 5)).sum + 3 := by
      simp only [FNet.mu, FNet.init, FanOut, List.map_map, FanIn.closerRank]
      have : (Lane.mu ∘ (fun w : Worker (FromPc T) Empty T =>
          (⟨w.init, w.out.closed, [], FanInPc.loop⟩ : Lane T)) ∘ fun i => From (S i)) =
          fun i => 3 * (S i).length + 5 := by
        funext i
        simp [Lane.mu, From, From.rank, FanIn.rank]
        omega
      rw [this]
      simp
    omega

/-- The example of the tests: `FanIn` over `FanOut(ctx, 2, From(ctx, 1, 2, 3))`
read to closure gives a merge of the two streams, each in its own order; as a
multiset, `{1, 1, 2, 2, 3, 3}`. -/
theorem fanin_fanout_interleaves_witness :
    FNet.run Demo.fanIn2 (FNet.init (FanOut 2 (fun _ => From [1, 2, 3])) false)
        = some Demo.fanIn2End ∧
      Demo.fanIn2End.values = [1, 1, 2, 2, 3, 3] ∧
      Demo.fanIn2End.values.Perm ((List.range 2).flatMap (fun _ => [1, 2, 3])) :=
  ⟨by decide, rfl,
    (fanin_fanout_interleaves 2 (fun _ => [1, 2, 3]) Demo.fanIn2 Demo.fanIn2End (by decide)
      (by decide)).2.2.2.2.1 rfl⟩

/-! ## C4: Tee -/

theorem ordone_ok {T : Type} : StageOk (OrDone : Worker (OrDonePc T) T T) OrDone.inv OrDone.rank 1 0 where
  env := by
    intro s log c cl2 sent hi
    rcases s with _ | _ | _ | _ <;> simp_all [OrDone.inv]
  act := by
    intro s cl1 log c cl2 sent nx isCall isClose hi h
    rcases s with _ | v | _ | _ <;> simp [OrDone, OrDone.op, Op.act] at h
    obtain ⟨rfl, rfl, rfl⟩ := h
    simp_all [OrDone.inv, OrDone.rank]
  recv := by
    intro s log c cl2 sent k v hi h
    rcases s with _ | _ | _ | _ <;> simp [OrDone, OrDone.op, Op.recvOffer] at h
    subst h
    simp_all [OrDone.inv, OrDone.rank]
  eof := by
    intro s log c cl2 sent k hi h
    rcases s with _ | _ | _ | _ <;> simp [OrDone, OrDone.op, Op.recvOffer] at h
    subst h
    simp_all [OrDone.inv, OrDone.rank]
  emit := by
    intro s cl1 log c sent v nx hi h
    rcases s with _ | _ | _ | _ <;> simp [OrDone, OrDone.op, Op.sendOffer] at h
    obtain ⟨rfl, rfl⟩ := h
    simp_all [OrDone.inv, OrDone.rank]
  live := by
    intro s cl1 log c cl2 sent hi
    rcases s with _ | _ | _ | _ <;>
      simp_all [OrDone, OrDone.op, Op.act, Op.sendOffer, Op.recvOffer, OrDone.inv]

theorem tnet_step_up {T : Type} (S : List T) (st : TNet T) (m : TMove)
    (st' : TNet T) (hI : TNet.Inv S st)
    (hm : m = .srcAct ∨ m = .srcDone ∨ m = .pass0 ∨ m = .eof0 ∨ m = .odDone ∨ m = .odAct)
    (h : TNet.step m st = some st') :
    TNet.Inv S st' ∧ TNet.mu st' < TNet.mu st := by
  obtain ⟨done, src, closed0, log0, od, odClosed, log1, tee, out1Closed, out2Closed, got1, got2,
    fin1, fin2⟩ := st
  obtain ⟨hd, h0, h1, h2, hf1, hf2⟩ := hI
  simp only at hd h0 h1 h2 hf1 hf2
  subst hd
  have hP := from_ok S
  have hQ := ordone_ok (T := T)
  have hop : (OrDone : Worker (OrDonePc T) T T).op = OrDone.op := rfl
  have hop0 : (From S).op = From.op := rfl
  rcases hm with rfl | rfl | rfl | rfl | rfl | rfl
  · -- srcAct
    simp only [TNet.step] at h
    cases ha : (From.op src : Op (FromPc T) Empty T).act with
    | none => simp [ha] at h
    | some r =>
      obtain ⟨nx, isCall, isClose⟩ := r
      simp only [ha, Option.some.injEq] at h
      subst h
      obtain ⟨hi, hr⟩ := hP.act src closed0 log0 0 nx isCall isClose h0 ha
      refine ⟨⟨rfl, hi, ?_, h2, hf1, hf2⟩, ?_⟩
      · cases isClose
        · simpa using h1
        · cases closed0
          · simpa using hQ.env _ _ _ _ _ h1
          · simpa using h1
      · simp only [TNet.mu]
        omega
  · -- srcDone
    simp only [TNet.step] at h
    cases hd : (From.op src : Op (FromPc T) Empty T).doneOffer <;> simp [hd] at h
  · -- pass0
    simp only [TNet.step] at h
    cases hs : (From.op src : Op (FromPc T) Empty T).sendOffer with
    | none => simp [hs] at h
    | some r =>
      obtain ⟨v, nx⟩ := r
      cases hr : (OrDone.op od).recvOffer with
      | none => simp [hs, hr] at h
      | some k =>
        cases closed0
        · simp only [hs, hr, Bool.false_eq_true, if_false, Option.some.injEq] at h
          subst h
          obtain ⟨hi1, hr1⟩ := hP.send src log0 0 v nx h0 hs
          obtain ⟨hi2, hr2⟩ := hQ.recv od log0 0 odClosed log1 k v h1 hr
          refine ⟨⟨rfl, hi1, hi2, h2, hf1, hf2⟩, ?_⟩
          simp only [TNet.mu]
          omega
        · simp [hs, hr] at h
  · -- eof0
    simp only [TNet.step] at h
    cases hr : (OrDone.op od).recvOffer with
    | none => simp [hr] at h
    | some k =>
      cases closed0
      · simp [hr] at h
      · simp only [hr, if_true, Option.some.injEq] at h
        subst h
        obtain ⟨hi2, hr2⟩ := hQ.eof od log0 0 odClosed log1 k h1 hr
        refine ⟨⟨rfl, h0, hi2, h2, hf1, hf2⟩, ?_⟩
        simp only [TNet.mu]
        omega
  · -- odDone
    simp only [TNet.step] at h
    cases hd : (OrDone.op od).doneOffer <;> simp [hd] at h
  · -- odAct
    simp only [TNet.step] at h
    cases ha : (OrDone.op od).act with
    | none => simp [ha] at h
    | some r =>
      obtain ⟨nx, isCall, isClose⟩ := r
      simp only [ha, Option.some.injEq] at h
      subst h
      obtain ⟨hi, hr⟩ := hQ.act od closed0 log0 0 odClosed log1 nx isCall isClose h1 ha
      refine ⟨⟨rfl, h0, hi, ?_, hf1, hf2⟩, ?_⟩
      · rcases tee with _ | ⟨k, v, o1, o2⟩ | _ | _ | _ <;> simp only [Tee.inv] at h2 ⊢
        · exact h2
        · exact h2
        · exact ⟨h2.1, h2.2.1, by simp [h2.2.2.1], h2.2.2.2⟩
        · exact ⟨h2.1, h2.2.1, by simp [h2.2.2.1], h2.2.2.2⟩
        · exact ⟨h2.1, h2.2.1, by simp [h2.2.2.1], h2.2.2.2⟩
      · simp only [TNet.mu]
        omega

theorem tee_count_zero {o1 o2 : Bool}
    (h : 0 = (if o1 = true then 1 else 0) + (if o2 = true then 1 else 0)) :
    o1 = false ∧ o2 = false := by
  cases o1 <;> cases o2 <;> simp at h ⊢

theorem tnet_step_down {T : Type} (S : List T) (st : TNet T) (m : TMove)
    (st' : TNet T) (hI : TNet.Inv S st)
    (hm : m = .pass1 ∨ m = .eof1 ∨ m = .teeDone ∨ m = .teeAct ∨ m = .emit1 ∨ m = .emit2 ∨
      m = .eofC1 ∨ m = .eofC2)
    (h : TNet.step m st = some st') :
    TNet.Inv S st' ∧ TNet.mu st' < TNet.mu st := by
  obtain ⟨done, src, closed0, log0, od, odClosed, log1, tee, out1Closed, out2Closed, got1, got2,
    fin1, fin2⟩ := st
  obtain ⟨hd, h0, h1, h2, hf1, hf2⟩ := hI
  simp only at hd h0 h1 h2 hf1 hf2
  subst hd
  have hQ := ordone_ok (T := T)
  rcases hm with rfl | rfl | rfl | rfl | rfl | rfl | rfl | rfl
  · -- pass1
    simp only [TNet.step] at h
    cases hs : (OrDone.op od).sendOffer with
    | none => simp [hs] at h
    | some r =>
      obtain ⟨v, nx⟩ := r
      cases odClosed
      · obtain ⟨hi, hr⟩ := hQ.emit od closed0 log0 0 log1 v nx h1 hs
        rcases tee with _ | ⟨k, w, o1, o2⟩ | _ | _ | _
        · simp only [hs, Tee.op, Bool.false_eq_true, if_false, Option.some.injEq] at h
          subst h
          simp only [Tee.inv] at h2
          refine ⟨⟨rfl, h0, hi, ?_, hf1, hf2⟩, ?_⟩
          · show got1 ++ [v] = log1 ++ [v] ∧ got2 ++ [v] = log1 ++ [v] ∧ 2 = 1 + 1 ∧
              out1Closed = false ∧ out2Closed = false
            exact ⟨by rw [h2.1], by rw [h2.2.1], rfl, h2.2.2⟩
          · simp only [TNet.mu, Tee.rank]
            omega
        · cases k with
          | zero =>
            simp only [hs, Tee.op, Bool.false_eq_true, if_false, Option.some.injEq] at h
            subst h
            simp only [Tee.inv] at h2
            obtain ⟨a1, a2, a3, a4⟩ := h2
            obtain ⟨ho1, ho2⟩ := tee_count_zero a3
            subst ho1 ho2
            simp only [Bool.false_eq_true, if_false, List.append_nil] at a1 a2
            refine ⟨⟨rfl, h0, hi, ?_, hf1, hf2⟩, ?_⟩
            · show got1 ++ [v] = log1 ++ [v] ∧ got2 ++ [v] = log1 ++ [v] ∧ 2 = 1 + 1 ∧
                out1Closed = false ∧ out2Closed = false
              exact ⟨by rw [a1], by rw [a2], rfl, a4⟩
            · simp only [TNet.mu, Tee.rank]
              omega
          | succ k => simp [hs, Tee.op] at h
        · simp [hs, Tee.op] at h
        · simp [hs, Tee.op] at h
        · simp [hs, Tee.op] at h
      · rcases tee with _ | ⟨_ | k, w, o1, o2⟩ | _ | _ | _ <;> simp [hs, Tee.op] at h
  · -- eof1
    have hod : odClosed = true → closed0 = true ∧ log1 = log0 := by
      intro hc
      rcases od with _ | v | _ | _ <;> simp only [OrDone.inv] at h1
      · rw [h1.1] at hc; cases hc
      · rw [h1.1] at hc; cases hc
      · rw [h1.1] at hc; cases hc
      · exact ⟨h1.2.1, h1.2.2⟩
    rcases tee with _ | ⟨_ | k, w, o1, o2⟩ | _ | _ | _ <;> simp [TNet.step, Tee.op] at h
    · obtain ⟨hc, h⟩ := h
      subst h
      simp only [Tee.inv] at h2
      refine ⟨⟨rfl, h0, h1, ?_, hf1, hf2⟩, ?_⟩
      · show got1 = log1 ∧ got2 = log1 ∧ odClosed = true ∧ out1Closed = false ∧
          out2Closed = false
        exact ⟨h2.1, h2.2.1, hc, h2.2.2⟩
      · simp only [TNet.mu, Tee.rank]
        omega
    · obtain ⟨hc, h⟩ := h
      subst h
      simp only [Tee.inv] at h2
      obtain ⟨a1, a2, a3, a4⟩ := h2
      obtain ⟨ho1, ho2⟩ := tee_count_zero a3
      subst ho1 ho2
      simp only [Bool.false_eq_true, if_false, List.append_nil] at a1 a2
      refine ⟨⟨rfl, h0, h1, ?_, hf1, hf2⟩, ?_⟩
      · show got1 = log1 ∧ got2 = log1 ∧ odClosed = true ∧ out1Closed = false ∧
          out2Closed = false
        exact ⟨a1, a2, hc, a4⟩
      · simp only [TNet.mu, Tee.rank]
        omega
  · -- teeDone
    rcases tee with _ | ⟨_ | k, w, o1, o2⟩ | _ | _ | _ <;> simp [TNet.step, Tee.op] at h
  · -- teeAct
    rcases tee with _ | ⟨_ | k, w, o1, o2⟩ | _ | _ | _ <;> simp [TNet.step, Tee.op] at h
    · subst h
      simp only [Tee.inv] at h2
      refine ⟨⟨rfl, h0, h1, ?_, hf1, fun _ => rfl⟩, ?_⟩
      · show got1 = log1 ∧ got2 = log1 ∧ odClosed = true ∧ out1Closed = false ∧ true = true
        exact ⟨h2.1, h2.2.1, h2.2.2.1, h2.2.2.2.1, rfl⟩
      · simp only [TNet.mu, Tee.rank]
        omega
    · subst h
      simp only [Tee.inv] at h2
      refine ⟨⟨rfl, h0, h1, ?_, fun _ => rfl, hf2⟩, ?_⟩
      · show got1 = log1 ∧ got2 = log1 ∧ odClosed = true ∧ true = true ∧ out2Closed = true
        exact ⟨h2.1, h2.2.1, h2.2.2.1, rfl, h2.2.2.2.2⟩
      · simp only [TNet.mu, Tee.rank]
        omega
  · -- emit1
    rcases tee with _ | ⟨_ | k, w, o1, o2⟩ | _ | _ | _ <;> simp [TNet.step, Tee.op] at h
    cases o1 <;> simp at h
    obtain ⟨⟨hc, hf⟩, h⟩ := h
    subst h
    simp only [Tee.inv] at h2
    obtain ⟨a1, a2, a3, a4, a5⟩ := h2
    refine ⟨⟨rfl, h0, h1, ?_, ?_, hf2⟩, ?_⟩
    · show got1 ++ [w] ++ (if false = true then [w] else []) = log1 ∧
        got2 ++ (if o2 then [w] else []) = log1 ∧
        k = (if false = true then 1 else 0) + (if o2 then 1 else 0) ∧
        out1Closed = false ∧ out2Closed = false
      refine ⟨by simpa using a1, a2, ?_, a4, a5⟩
      simp only [if_true] at a3
      simp only [Bool.false_eq_true, if_false]
      omega
    · intro hf'
      simp only at hf'
      rw [hf] at hf'
      cases hf'
    · simp only [TNet.mu, Tee.rank]
      omega
  · -- emit2
    rcases tee with _ | ⟨_ | k, w, o1, o2⟩ | _ | _ | _ <;> simp [TNet.step, Tee.op] at h
    cases o2 <;> simp at h
    obtain ⟨⟨hc, hf⟩, h⟩ := h
    subst h
    simp only [Tee.inv] at h2
    obtain ⟨a1, a2, a3, a4, a5⟩ := h2
    refine ⟨⟨rfl, h0, h1, ?_, hf1, ?_⟩, ?_⟩
    · show got1 ++ (if o1 then [w] else []) = log1 ∧
        got2 ++ [w] ++ (if false = true then [w] else []) = log1 ∧
        k = (if o1 then 1 else 0) + (if false = true then 1 else 0) ∧
        out1Closed = false ∧ out2Closed = false
      refine ⟨a1, by simpa using a2, ?_, a4, a5⟩
      simp only [if_true] at a3
      simp only [Bool.false_eq_true, if_false]
      omega
    · intro hf'
      simp only at hf'
      rw [hf] at hf'
      cases hf'
    · simp only [TNet.mu, Tee.rank]
      omega
  · -- eofC1
    simp only [TNet.step] at h
    cases out1Closed <;> cases fin1 <;> simp at h
    subst h
    exact ⟨⟨rfl, h0, h1, h2, fun _ => rfl, hf2⟩, by simp [TNet.mu]⟩
  · -- eofC2
    simp only [TNet.step] at h
    cases out2Closed <;> cases fin2 <;> simp at h
    subst h
    exact ⟨⟨rfl, h0, h1, h2, hf1, fun _ => rfl⟩, by simp [TNet.mu]⟩

theorem tnet_step_ok {T : Type} (S : List T) (st : TNet T) (m : TMove)
    (st' : TNet T) (hI : TNet.Inv S st) (hm : m ≠ TMove.cancel)
    (h : TNet.step m st = some st') :
    TNet.Inv S st' ∧ TNet.mu st' < TNet.mu st := by
  cases m
  case cancel => exact absurd rfl hm
  case srcAct => exact tnet_step_up S st _ st' hI (by simp) h
  case srcDone => exact tnet_step_up S st _ st' hI (by simp) h
  case pass0 => exact tnet_step_up S st _ st' hI (by simp) h
  case eof0 => exact tnet_step_up S st _ st' hI (by simp) h
  case odDone => exact tnet_step_up S st _ st' hI (by simp) h
  case odAct => exact tnet_step_up S st _ st' hI (by simp) h
  case pass1 => exact tnet_step_down S st _ st' hI (by simp) h
  case eof1 => exact tnet_step_down S st _ st' hI (by simp) h
  case teeDone => exact tnet_step_down S st _ st' hI (by simp) h
  case teeAct => exact tnet_step_down S st _ st' hI (by simp) h
  case emit1 => exact tnet_step_down S st _ st' hI (by simp) h
  case emit2 => exact tnet_step_down S st _ st' hI (by simp) h
  case eofC1 => exact tnet_step_down S st _ st' hI (by simp) h
  case eofC2 => exact tnet_step_down S st _ st' hI (by simp) h

theorem tnet_run_ok {T : Type} (S : List T) :
    ∀ (ms : List TMove) (st st' : TNet T), TNet.Inv S st → TNoCancel ms →
      TNet.run ms st = some st' → TNet.Inv S st' ∧ TNet.mu st' + ms.length ≤ TNet.mu st := by
  intro ms
  induction ms with
  | nil =>
    intro st st' hI _ h
    simp only [TNet.run, Option.some.injEq] at h
    subst h
    exact ⟨hI, by simp⟩
  | cons m ms ih =>
    intro st st' hI hnc h
    simp only [TNet.run] at h
    cases hs : TNet.step m st with
    | none => simp [hs] at h
    | some mid =>
      simp only [hs, Option.some_bind] at h
      have hm : m ≠ TMove.cancel := fun e => hnc (by simp [e])
      have hms : TNoCancel ms := fun e => hnc (by simp [e])
      obtain ⟨hI1, hμ1⟩ := tnet_step_ok S st m mid hI hm hs
      obtain ⟨hI2, hμ2⟩ := ih mid st' hI1 hms h
      refine ⟨hI2, ?_⟩
      simp only [List.length_cons]
      omega

theorem tnet_init_inv {T : Type} (S : List T) : TNet.Inv S (TNet.init S false) := by
  refine ⟨rfl, from_init_inv S, ?_, ?_, by simp [TNet.init], by simp [TNet.init]⟩
  · simp [TNet.init, OrDone, OrDone.inv, Chan.make]
  · simp [TNet.init, Tee.inv]

theorem tnet_progress {T : Type} (S : List T) (st : TNet T) (hI : TNet.Inv S st)
    (hf : st.fin1 = false ∨ st.fin2 = false) :
    ∃ m, m ≠ TMove.cancel ∧ (TNet.step m st).isSome = true := by
  obtain ⟨done, src, closed0, log0, od, odClosed, log1, tee, out1Closed, out2Closed, got1, got2,
    fin1, fin2⟩ := st
  obtain ⟨hd, h0, h1, h2, hf1, hf2⟩ := hI
  simp only at hd h0 h1 h2 hf1 hf2 hf
  subst hd
  have hup : (∃ k, Tee.op tee = .recv k) →
      ∃ m, m ≠ TMove.cancel ∧ (TNet.step m
        ⟨false, src, closed0, log0, od, odClosed, log1, tee, out1Closed, out2Closed, got1, got2,
          fin1, fin2⟩).isSome = true := by
    rintro ⟨k, hk⟩
    rcases od with _ | v | _ | _ <;> simp only [OrDone.inv] at h1
    · rcases src with (_ | ⟨v, vs⟩) | _ | _ <;> simp only [From.inv] at h0
      · exact ⟨.srcAct, by simp, by simp [TNet.step, From.op, Op.act]⟩
      · exact ⟨.pass0, by simp,
          by simp [TNet.step, From.op, Op.sendOffer, OrDone.op, Op.recvOffer, h0.1]⟩
      · exact ⟨.eof0, by simp, by simp [TNet.step, OrDone.op, Op.recvOffer, h0.1]⟩
    · exact ⟨.pass1, by simp, by simp [TNet.step, OrDone.op, Op.sendOffer, hk, h1.1]⟩
    · exact ⟨.odAct, by simp, by simp [TNet.step, OrDone.op, Op.act]⟩
    · exact ⟨.eof1, by simp, by simp [TNet.step, hk, h1.1]⟩
  rcases tee with _ | ⟨_ | k, w, o1, o2⟩ | _ | _ | _
  · exact hup ⟨_, rfl⟩
  · exact hup ⟨_, rfl⟩
  · simp only [Tee.inv] at h2
    obtain ⟨a1, a2, a3, a4, a5⟩ := h2
    cases o1
    · cases o2
      · simp at a3
      · have : fin2 = false := by
          cases fin2
          · rfl
          · rw [hf2 rfl] at a5; cases a5
        exact ⟨.emit2, by simp, by simp [TNet.step, Tee.op, a5, this]⟩
    · have : fin1 = false := by
        cases fin1
        · rfl
        · rw [hf1 rfl] at a4; cases a4
      exact ⟨.emit1, by simp, by simp [TNet.step, Tee.op, a4, this]⟩
  · exact ⟨.teeAct, by simp, by simp [TNet.step, Tee.op]⟩
  · exact ⟨.teeAct, by simp, by simp [TNet.step, Tee.op]⟩
  · simp only [Tee.inv] at h2
    rcases hf with hf | hf
    · exact ⟨.eofC1, by simp, by simp [TNet.step, h2.2.2.2.1, hf]⟩
    · exact ⟨.eofC2, by simp, by simp [TNet.step, h2.2.2.2.2, hf]⟩

theorem tnet_outputs {T : Type} (S : List T) (st : TNet T) (hI : TNet.Inv S st) :
    st.got1 <+: S ∧ st.got2 <+: S ∧ (st.out1Closed = true → st.got1 = S) ∧
      (st.out2Closed = true → st.got2 = S) := by
  obtain ⟨done, src, closed0, log0, od, odClosed, log1, tee, out1Closed, out2Closed, got1, got2,
    fin1, fin2⟩ := st
  obtain ⟨hd, h0, h1, h2, hf1, hf2⟩ := hI
  simp only at hd h0 h1 h2 hf1 hf2 ⊢
  have hlog0 := from_inv_log h0
  have hlog1 : log1 <+: log0 ∧ (odClosed = true → log1 = S) := by
    rcases od with _ | v | _ | _ <;> simp only [OrDone.inv] at h1
    · exact ⟨by rw [h1.2], by simp [h1.1]⟩
    · exact ⟨⟨[v], h1.2⟩, by simp [h1.1]⟩
    · exact ⟨by rw [h1.2.2], by simp [h1.1]⟩
    · exact ⟨by rw [h1.2.2], fun _ => h1.2.2.trans (hlog0.2 h1.2.1)⟩
  have hS : log1 <+: S := hlog1.1.trans hlog0.1
  rcases tee with _ | ⟨k, w, o1, o2⟩ | _ | _ | _ <;> simp only [Tee.inv] at h2
  · obtain ⟨a1, a2, a3, a4⟩ := h2
    subst a1 a2
    exact ⟨hS, hS, by simp [a3], by simp [a4]⟩
  · obtain ⟨a1, a2, a3, a4, a5⟩ := h2
    refine ⟨?_, ?_, by simp [a4], by simp [a5]⟩
    · exact (List.prefix_append _ _).trans (a1 ▸ hS)
    · exact (List.prefix_append _ _).trans (a2 ▸ hS)
  · obtain ⟨a1, a2, a3, a4, a5⟩ := h2
    subst a1 a2
    exact ⟨hS, hS, by simp [a4], by simp [a5]⟩
  · obtain ⟨a1, a2, a3, a4, a5⟩ := h2
    subst a1 a2
    exact ⟨hS, hS, by simp [a4], fun _ => hlog1.2 a3⟩
  · obtain ⟨a1, a2, a3, a4, a5⟩ := h2
    subst a1 a2
    exact ⟨hS, hS, fun _ => hlog1.2 a3, fun _ => hlog1.2 a3⟩

/-- C4: in every schedule of `Tee(ctx, From(ctx, S...))` in which the context is
not cancelled, whichever of the two sends of a round happens first, what each
consumer got is at every moment a prefix of `S`, and a consumer that has read
its output to closure holds exactly `S`, in order: every value once, none
skipped; both outputs are read to closure: while a consumer has not seen its
close some move is enabled, and no schedule is longer than `4 |S| + 15`
moves. -/
theorem tee_from_duplicates {T : Type} (S : List T) (ms : List TMove) (st : TNet T)
    (hnc : TNoCancel ms) (hrun : TNet.run ms (TNet.init S false) = some st) :
    (st.fin1 = true → st.got1 = S) ∧ (st.fin2 = true → st.got2 = S) ∧
    st.got1 <+: S ∧ st.got2 <+: S ∧
    (st.fin1 = false ∨ st.fin2 = false →
      ∃ m, m ≠ TMove.cancel ∧ (TNet.step m st).isSome = true) ∧
    ms.length ≤ 4 * S.length + 15 := by
  obtain ⟨hI, hμ⟩ := tnet_run_ok S ms _ st (tnet_init_inv S) hnc hrun
  obtain ⟨p1, p2, c1, c2⟩ := tnet_outputs S st hI
  refine ⟨fun hf => c1 (hI.2.2.2.2.1 hf), fun hf => c2 (hI.2.2.2.2.2 hf), p1, p2,
    tnet_progress S st hI, ?_⟩
  have h0 : TNet.mu (TNet.init S false) = 4 * S.length + 15 := by
    simp [TNet.mu, TNet.init, From, From.rank, OrDone, OrDone.rank, Tee.rank]
    omega
  omega

/-- The example of the tests: both outputs of `Tee(ctx, From(ctx, 1, 2, 3))`
read to closure give `[1, 2, 3]`. -/
theorem tee_from_duplicates_witness :
    TNet.run Demo.tee3 (TNet.init [1, 2, 3] false) = some Demo.tee3End ∧
      Demo.tee3End.got1 = [1, 2, 3] ∧ Demo.tee3End.got2 = [1, 2, 3] :=
  ⟨by decide,
    (tee_from_duplicates [1, 2, 3] Demo.tee3 Demo.tee3End (by decide) (by decide)).1 rfl,
    (tee_from_duplicates [1, 2, 3] Demo.tee3 Demo.tee3End (by decide) (by decide)).2.1 rfl⟩

/-! ## C9: a context cancelled before the pipeline is built -/

/-- C9 fails on the code: in the schedule `Demo.bridgeCancelled` of
`Bridge(ctx, ChanChan(ctx, 3, i * 10))`, built on a context that is cancelled
from the start, every select up to the consumer has its send or receive ready
next to `<-ctx.Done()` (buffered channels with room, a consumer waiting in its
`range`) and takes it: the consumer receives one value, `fn 0 = 0`, before the
output closes.  The pipeline is the one `TestBridge` runs through
`runCancelledStreamTest`, which expects no value. -/
theorem bridge_cancelled_delivers_value :
    (BNet.init 3 true : BNet Nat).done = true ∧
      BNet.run 3 (fun i => i * 10) Demo.bridgeCancelled (BNet.init 3 true)
        = some Demo.bridgeCancelledEnd ∧
      Demo.bridgeCancelledEnd.done = true ∧ Demo.bridgeCancelledEnd.outClosed = true ∧
      Demo.bridgeCancelledEnd.fin = true ∧ Demo.bridgeCancelledEnd.got = [0] ∧
      Demo.bridgeCancelledEnd.got.length = 1 := by
  decide

/-! ## C10: cancellation in the middle of a stream -/

/-- C10 fails on `Bridge` and on `OrDone`, whose inner select has an empty
`<-ctx.Done()` case and so goes on to the next iteration instead of
returning.  In the schedule `Demo.bridgeMid` of
`Bridge(ctx, ChanChan(ctx, 3, i * 10))` the consumer reads `[0, 20]` to
closure: 10 was dropped and 20 delivered after it, and `[0, 20]` is not a
prefix of `[0, 10, 20]`, what the pipeline delivers without cancellation.  In
the schedule `Demo.orDoneTake` of `OrDone(ctx, Take(ctx, From(ctx, 1, 2, 3), 3))`
the consumer reads `[2]` to closure, not a prefix of the input `[1, 2, 3]` of
`OrDone`. -/
theorem cancel_mid_stream_drops_then_delivers :
    BNet.run 3 (fun i => i * 10) Demo.bridgeMid (BNet.init 3 false) = some Demo.bridgeMidEnd ∧
      Demo.bridgeMidEnd.fin = true ∧ Demo.bridgeMidEnd.got = [0, 20] ∧
      ¬ (Demo.bridgeMidEnd.got <+: (List.range 3).map (fun i => i * 10)) ∧
    Net3.run (From [1, 2, 3]) (Take 3) OrDone Demo.orDoneTake
        (Net3.init (From [1, 2, 3]) (Take 3) OrDone false) = some Demo.orDoneTakeEnd ∧
      Demo.orDoneTakeEnd.fin = true ∧ Demo.orDoneTakeEnd.got = [2] ∧
      ¬ (Demo.orDoneTakeEnd.got <+: [1, 2, 3]) := by
  decide

/-! ## C11: blocking operations that are not raced against cancellation -/

/-- C11 fails on the code.  `Take` with `n >= 2` sends with a plain `out <- v`
on an unbuffered channel: in the schedule `Demo.takeParked` of
`Take(ctx, From(ctx, 1, 2, 3), 2)` the context is cancelled while the goroutine
of `Take` holds `1` at that send; the operation has no `<-ctx.Done()` case and
the only move enabled from then on is the rendezvous with the consumer, so
with a consumer that has stopped receiving the goroutine never returns and
never closes its output.  `Skip`, `Map`, the forwarding loop of `SkipN` and
the forwarding goroutines of `FanIn` receive with a plain `range stream`: over
a stream on which nobody sends any more and which nobody closes, after
cancellation no move at all is enabled while the goroutine has not returned
and its output is open (for `FanIn` the closing goroutine stays in
`wg.Wait()` as well).  By contrast the send of `Map` is a case of a select
with `<-ctx.Done()`, and the plain send of `First` goes to a channel with a
buffer of one. -/
theorem cancelled_workers_stay_blocked :
    (Net.run (From [1, 2, 3]) (Take 2) Demo.takeParked
        (Net.init (From [1, 2, 3]) (Take 2) false) = some Demo.takeParkedEnd ∧
      Demo.takeParkedEnd.done = true ∧ Demo.takeParkedEnd.s2 = .sendv 1 1 ∧
      Demo.takeParkedEnd.c2 = ⟨0, [], false⟩ ∧
      (Take.op Demo.takeParkedEnd.s2).doneOffer = none ∧
      ∀ m, m ≠ Move.emit → Net.step (From [1, 2, 3]) (Take 2) m Demo.takeParkedEnd = none) ∧
    (Skip (some Demo.isEven) = some ⟨.loop, Skip.op Demo.isEven, Chan.make 0⟩ ∧
      Net.run (Demo.feed [1]) ⟨.loop, Skip.op Demo.isEven, Chan.make 0⟩
        [.pass, .act2, .emit, .cancel]
        (Net.init (Demo.feed [1]) ⟨.loop, Skip.op Demo.isEven, Chan.make 0⟩ false)
        = some { (Demo.starved [1] .loop 1 : Net (List Nat) (SkipPc Nat) Nat Nat) with
                 got := [1] } ∧
      (Skip.op Demo.isEven .loop).doneOffer = none ∧
      ∀ m, Net.step (Demo.feed [1]) ⟨.loop, Skip.op Demo.isEven, Chan.make 0⟩ m
        { (Demo.starved [1] .loop 1 : Net (List Nat) (SkipPc Nat) Nat Nat) with got := [1] }
        = none) ∧
    (Net.run (Demo.feed []) (Map (fun v => v * 10)) [.cancel]
        (Net.init (Demo.feed []) (Map (fun v => v * 10)) false)
        = some (Demo.starved [] .loop 0) ∧
      (Map.op (fun v => v * 10) .loop).doneOffer = none ∧
      ∀ m, Net.step (Demo.feed []) (Map (fun v => v * 10)) m
        (Demo.starved [] .loop 0 : Net (List Nat) (MapPc Nat Nat) Nat Nat) = none) ∧
    ((SkipN 1 : Option (Worker (SkipNPc Nat) Nat Nat)) = some ⟨.drop 1, SkipN.op, Chan.make 0⟩ ∧
      Net.run (Demo.feed [7]) ⟨.drop 1, SkipN.op, Chan.make 0⟩ [.pass, .cancel]
        (Net.init (Demo.feed [7]) ⟨.drop 1, SkipN.op, Chan.make 0⟩ false)
        = some (Demo.starved [7] (.drop 0) 0) ∧
      (SkipN.op (.drop 0 : SkipNPc Nat)).doneOffer = none ∧
      ∀ m, Net.step (Demo.feed [7]) ⟨.drop 1, SkipN.op, Chan.make 0⟩ m
        (Demo.starved [7] (.drop 0) 0 : Net (List Nat) (SkipNPc Nat) Nat Nat) = none) ∧
    (FNet.run [.cancel] (FNet.init [Demo.silentLane] false) = some Demo.fanInStarved ∧
      (FanIn.op (.loop : FanInPc Nat)).doneOffer = none ∧
      ∀ m, FNet.step m Demo.fanInStarved = none) ∧
    ((Map.op (fun v => v * 10) (.sel 10)).doneOffer = some .exit ∧
      (First : Worker (FirstPc Nat) Nat Nat).out.cap = 1 ∧
      (Take 2 : Worker (TakePc Nat) Nat Nat).out.cap = 0) := by
  refine ⟨⟨by decide, rfl, rfl, rfl, rfl, ?_⟩, ⟨rfl, by decide, rfl, ?_⟩, ⟨by decide, rfl, ?_⟩,
    ⟨rfl, by decide, rfl, ?_⟩, ⟨by decide, rfl, ?_⟩, rfl, rfl, rfl⟩
  · intro m hm
    cases m <;> first | rfl | exact absurd rfl hm
  · intro m
    cases m <;> rfl
  · intro m
    cases m <;> rfl
  · intro m
    cases m <;> rfl
  · intro m
    cases m with
    | cancel => rfl
    | closerAct => rfl
    | eof => rfl
    | srcAct i => cases i <;> rfl
    | srcDone i => cases i <;> rfl
    | pass i => cases i <;> rfl
    | eofIn i => cases i <;> rfl
    | fwdDone i => cases i <;> rfl
    | fwdAct i => cases i <;> rfl
    | emit i => cases i <;> rfl

/-! ## C12: the degenerate arguments of Skip and SkipN -/

/-- C12: for every program state (cancelled context or not) and every stream
`s`, `Skip(ctx, s, nil)` and `SkipN(ctx, s, 0)` return `s` itself and leave
the program as it was: no channel is made and no goroutine is started, so
whatever can be observed of the result, in particular the values a consumer
reads from it under any schedule and any cancellation, is what can be
observed of `s`.  With a predicate, or with `n >= 1`, the result is a channel
made by the call and one goroutine has been started on `s`. -/
theorem skip_nil_skipn_zero_return_stream {T : Type} (rt : Runtime T) (s : Nat) :
    Skip.call rt s none = (s, rt) ∧ SkipN.call rt s 0 = (s, rt) ∧
    (Skip.call rt s none).2.gos.length = rt.gos.length ∧
    (SkipN.call rt s 0).2.chans.length = rt.chans.length ∧
    (∀ (α : Type) (observe : Runtime T → Nat → α),
      observe (Skip.call rt s none).2 (Skip.call rt s none).1 = observe rt s ∧
      observe (SkipN.call rt s 0).2 (SkipN.call rt s 0).1 = observe rt s) ∧
    (∀ pred : T → Bool,
      (Skip.call rt s (some pred)).1 = rt.chans.length ∧
      (Skip.call rt s (some pred)).2.chans.length = rt.chans.length + 1 ∧
      (Skip.call rt s (some pred)).2.gos.length = rt.gos.length + 1 ∧
      ((Skip.call rt s (some pred)).2.gos.map (fun g => g.stream)).getLast? = some s) ∧
    (∀ n : Nat,
      (SkipN.call rt s (n + 1)).1 = rt.chans.length ∧
      (SkipN.call rt s (n + 1)).2.chans.length = rt.chans.length + 1 ∧
      (SkipN.call rt s (n + 1)).2.gos.length = rt.gos.length + 1 ∧
      ((SkipN.call rt s (n + 1)).2.gos.map (fun g => g.stream)).getLast? = some s) := by
  refine ⟨rfl, rfl, rfl, rfl, fun _ _ => ⟨rfl, rfl⟩, fun pred => ?_, fun n => ?_⟩
  · simp [Skip.call, Skip, Runtime.spawn]
  · simp [SkipN.call, SkipN, Runtime.spawn]

/-! ## C13: the two outputs of Tee stay in lock step -/

theorem tnet_step_lock {T : Type} (m : TMove) (st st' : TNet T) (hI : TNet.Lock st)
    (h : TNet.step m st = some st') : TNet.Lock st' := by
  obtain ⟨done, src, closed0, log0, od, odClosed, log1, tee, out1Closed, out2Closed, got1, got2,
    fin1, fin2⟩ := st
  obtain ⟨hf1, hf2, hl⟩ := hI
  simp only at hf1 hf2 hl
  cases m with
  | cancel =>
    simp only [TNet.step] at h
    cases done
    · simp only [Bool.false_eq_true, if_false, Option.some.injEq] at h
      subst h
      refine ⟨hf1, hf2, ?_⟩
      show Tee.lock true tee out1Closed out2Closed got1 got2
      rcases tee with _ | ⟨k, v, o1, o2⟩ | _ | _ | _ <;> simp only [Tee.lock] at hl ⊢
      · exact hl
      · exact hl
      · exact ⟨hl.1.imp id (fun hx => ⟨trivial, hx.2⟩), hl.2⟩
      · exact ⟨hl.1.imp id (fun hx => ⟨trivial, hx.2⟩), hl.2⟩
      · exact ⟨hl.1.imp id (fun hx => ⟨trivial, hx.2⟩), hl.2⟩
    · simp at h
  | srcAct =>
    simp only [TNet.step] at h
    cases ha : (From.op src : Op (FromPc T) Empty T).act with
    | none => simp [ha] at h
    | some r =>
      obtain ⟨nx, isCall, isClose⟩ := r
      simp only [ha, Option.some.injEq] at h
      subst h
      exact ⟨hf1, hf2, hl⟩
  | srcDone =>
    simp only [TNet.step] at h
    cases hd : (From.op src : Op (FromPc T) Empty T).doneOffer with
    | none => simp [hd] at h
    | some nx =>
      cases done
      · simp [hd] at h
      · simp only [hd, if_true, Option.some.injEq] at h
        subst h
        exact ⟨hf1, hf2, hl⟩
  | pass0 =>
    simp only [TNet.step] at h
    cases hs : (From.op src : Op (FromPc T) Empty T).sendOffer with
    | none => simp [hs] at h
    | some r =>
      obtain ⟨v, nx⟩ := r
      cases hr : (OrDone.op od).recvOffer with
      | none => simp [hs, hr] at h
      | some k =>
        cases closed0
        · simp only [hs, hr, Bool.false_eq_true, if_false, Option.some.injEq] at h
          subst h
          exact ⟨hf1, hf2, hl⟩
        · simp [hs, hr] at h
  | eof0 =>
    simp only [TNet.step] at h
    cases hr : (OrDone.op od).recvOffer with
    | none => simp [hr] at h
    | some k =>
      cases closed0
      · simp [hr] at h
      · simp only [hr, if_true, Option.some.injEq] at h
        subst h
        exact ⟨hf1, hf2, hl⟩
  | odDone =>
    simp only [TNet.step] at h
    cases hd : (OrDone.op od).doneOffer with
    | none => simp [hd] at h
    | some nx =>
      cases done
      · simp [hd] at h
      · simp only [hd, if_true, Option.some.injEq] at h
        subst h
        exact ⟨hf1, hf2, hl⟩
  | odAct =>
    simp only [TNet.step] at h
    cases ha : (OrDone.op od).act with
    | none => simp [ha] at h
    | some r =>
      obtain ⟨nx, isCall, isClose⟩ := r
      simp only [ha, Option.some.injEq] at h
      subst h
      exact ⟨hf1, hf2, hl⟩
  | pass1 =>
    simp only [TNet.step] at h
    cases hs : (OrDone.op od).sendOffer with
    | none => simp [hs] at h
    | some r =>
      obtain ⟨v, nx⟩ := r
      cases odClosed
      · rcases tee with _ | ⟨k, w, o1, o2⟩ | _ | _ | _
        · simp only [hs, Tee.op, Bool.false_eq_true, if_false, Option.some.injEq] at h
          subst h
          simp only [Tee.lock] at hl
          refine ⟨hf1, hf2, ?_⟩
          show Tee.lock done (.sel 2 v true true) out1Closed out2Closed got1 got2
          simp only [Tee.lock]
          exact ⟨rfl, by simp [hl.1], hl.2⟩
        · cases k with
          | zero =>
            simp only [hs, Tee.op, Bool.false_eq_true, if_false, Option.some.injEq] at h
            subst h
            simp only [Tee.lock] at hl
            obtain ⟨hk, hg, hc⟩ := hl
            obtain ⟨rfl, rfl⟩ := tee_count_zero hk
            refine ⟨hf1, hf2, ?_⟩
            show Tee.lock done (.sel 2 v true true) out1Closed out2Closed got1 got2
            simp only [Tee.lock]
            refine ⟨rfl, ?_, hc⟩
            simp at hg
            simp [hg]
          | succ k => simp [hs, Tee.op] at h
        · simp [hs, Tee.op] at h
        · simp [hs, Tee.op] at h
        · simp [hs, Tee.op] at h
      · rcases tee with _ | ⟨k, w, o1, o2⟩ | _ | _ | _
        · simp [hs, Tee.op] at h
        · cases k <;> simp [hs, Tee.op] at h
        · simp [hs, Tee.op] at h
        · simp [hs, Tee.op] at h
        · simp [hs, Tee.op] at h
  | eof1 =>
    simp only [TNet.step] at h
    rcases tee with _ | ⟨k, w, o1, o2⟩ | _ | _ | _
    · cases odClosed
      · simp [Tee.op] at h
      · simp only [Tee.op, if_true, Option.some.injEq] at h
        subst h
        simp only [Tee.lock] at hl
        refine ⟨hf1, hf2, ?_⟩
        show Tee.lock done .exit out1Closed out2Closed got1 got2
        simp only [Tee.lock]
        exact ⟨Or.inl hl.1, hl.2⟩
    · cases k with
      | zero =>
        cases odClosed
        · simp [Tee.op] at h
        · simp only [Tee.op, if_true, Option.some.injEq] at h
          subst h
          simp only [Tee.lock] at hl
          obtain ⟨hk, hg, hc⟩ := hl
          obtain ⟨rfl, rfl⟩ := tee_count_zero hk
          refine ⟨hf1, hf2, ?_⟩
          show Tee.lock done .exit out1Closed out2Closed got1 got2
          simp only [Tee.lock]
          refine ⟨Or.inl ?_, hc⟩
          simpa using hg
      | succ k => simp [Tee.op] at h
    · simp [Tee.op] at h
    · simp [Tee.op] at h
    · simp [Tee.op] at h
  | teeDone =>
    simp only [TNet.step] at h
    rcases tee with _ | ⟨k, w, o1, o2⟩ | _ | _ | _
    · simp [Tee.op] at h
    · cases k with
      | zero => simp [Tee.op] at h
      | succ k =>
        cases done
        · simp [Tee.op] at h
        · simp only [Tee.op, if_true, Option.some.injEq] at h
          subst h
          simp only [Tee.lock] at hl
          obtain ⟨hk, hg, hc⟩ := hl
          refine ⟨hf1, hf2, ?_⟩
          show Tee.lock true .exit out1Closed out2Closed got1 got2
          simp only [Tee.lock]
          refine ⟨?_, hc⟩
          cases o1 <;> cases o2 <;> simp at hk hg
          · exact Or.inr ⟨trivial, w, Or.inl hg⟩
          · exact Or.inr ⟨trivial, w, Or.inr hg.symm⟩
          · exact Or.inl hg
    · simp [Tee.op] at h
    · simp [Tee.op] at h
    · simp [Tee.op] at h
  | teeAct =>
    simp only [TNet.step] at h
    rcases tee with _ | ⟨k, w, o1, o2⟩ | _ | _ | _
    · simp [Tee.op] at h
    · cases k <;> simp [Tee.op] at h
    · simp only [Tee.op, Option.some.injEq] at h
      subst h
      simp only [Tee.lock] at hl
      refine ⟨hf1, fun _ => rfl, ?_⟩
      show Tee.lock done .exit1 out1Closed true got1 got2
      simp only [Tee.lock]
      exact ⟨hl.1, hl.2.1, trivial⟩
    · simp only [Tee.op, Option.some.injEq] at h
      subst h
      simp only [Tee.lock] at hl
      refine ⟨fun _ => rfl, hf2, ?_⟩
      show Tee.lock done .halted true out2Closed got1 got2
      simp only [Tee.lock]
      exact ⟨hl.1, trivial, hl.2.2⟩
    · simp [Tee.op] at h
  | emit1 =>
    simp only [TNet.step] at h
    rcases tee with _ | ⟨k, w, o1, o2⟩ | _ | _ | _
    · simp [Tee.op] at h
    · cases k with
      | zero => simp [Tee.op] at h
      | succ k =>
        cases o1
        · simp [Tee.op] at h
        · simp only [Tee.lock] at hl
          obtain ⟨hk, hg, hc1, hc2⟩ := hl
          subst hc1
          cases fin1
          · simp only [Tee.op, if_true, Bool.or_self, Bool.false_eq_true, if_false,
              Option.some.injEq] at h
            subst h
            refine ⟨hf1, hf2, ?_⟩
            show Tee.lock done (.sel k w false o2) false out2Closed (got1 ++ [w]) got2
            simp only [Tee.lock]
            refine ⟨?_, ?_, trivial, hc2⟩
            · simp at hk ⊢
              omega
            · simpa using hg
          · simp [Tee.op] at h
    · simp [Tee.op] at h
    · simp [Tee.op] at h
    · simp [Tee.op] at h
  | emit2 =>
    simp only [TNet.step] at h
    rcases tee with _ | ⟨k, w, o1, o2⟩ | _ | _ | _
    · simp [Tee.op] at h
    · cases k with
      | zero => simp [Tee.op] at h
      | succ k =>
        cases o2
        · simp [Tee.op] at h
        · simp only [Tee.lock] at hl
          obtain ⟨hk, hg, hc1, hc2⟩ := hl
          subst hc2
          cases fin2
          · simp only [Tee.op, if_true, Bool.or_self, Bool.false_eq_true, if_false,
              Option.some.injEq] at h
            subst h
            refine ⟨hf1, hf2, ?_⟩
            show Tee.lock done (.sel k w o1 false) out1Closed false got1 (got2 ++ [w])
            simp only [Tee.lock]
            refine ⟨?_, ?_, hc1, trivial⟩
            · simp at hk ⊢
              omega
            · simpa using hg
          · simp [Tee.op] at h
    · simp [Tee.op] at h
    · simp [Tee.op] at h
    · simp [Tee.op] at h
  | eofC1 =>
    simp only [TNet.step] at h
    cases out1Closed <;> cases fin1 <;> simp at h
    subst h
    exact ⟨fun _ => rfl, hf2, hl⟩
  | eofC2 =>
    simp only [TNet.step] at h
    cases out2Closed <;> cases fin2 <;> simp at h
    subst h
    exact ⟨hf1, fun _ => rfl, hl⟩

theorem tnet_run_lock {T : Type} (ms : List TMove) (st st' : TNet T) (hI : TNet.Lock st)
    (h : TNet.run ms st = some st') : TNet.Lock st' := by
  induction ms generalizing st with
  | nil =>
    simp only [TNet.run, Option.some.injEq] at h
    subst h
    exact hI
  | cons m ms ih =>
    simp only [TNet.run] at h
    cases hs : TNet.step m st with
    | none => simp [hs] at h
    | some st1 =>
      simp only [hs, Option.bind_some] at h
      exact ih st1 (tnet_step_lock m st st1 hI hs) h

theorem tnet_init_lock {T : Type} (S : List T) (cancelled : Bool) :
    TNet.Lock (TNet.init S cancelled) := by
  simp [TNet.Lock, TNet.init, Tee.lock]

theorem tee_lock_shape {T : Type} {done : Bool} {tee : TeePc T} {c1 c2 : Bool} {g1 g2 : List T}
    (h : Tee.lock done tee c1 c2 g1 g2) :
    g1 = g2 ∨
      (∃ v, (g1 = g2 ++ [v] ∧ tee = .sel 1 v false true) ∨
        (g2 = g1 ++ [v] ∧ tee = .sel 1 v true false)) ∨
      (tee.returned = true ∧ done = true ∧ ∃ v, g1 = g2 ++ [v] ∨ g2 = g1 ++ [v]) := by
  rcases tee with _ | ⟨k, v, o1, o2⟩ | _ | _ | _ <;> simp only [Tee.lock] at h
  · exact Or.inl h.1
  · obtain ⟨hk, hg, -⟩ := h
    cases o1 <;> cases o2 <;> simp at hk hg
    · exact Or.inl hg
    · subst hk
      exact Or.inr (Or.inl ⟨v, Or.inl ⟨hg, rfl⟩⟩)
    · subst hk
      exact Or.inr (Or.inl ⟨v, Or.inr ⟨hg.symm, rfl⟩⟩)
    · exact Or.inl hg
  · exact h.1.imp id (fun hx => Or.inr ⟨rfl, hx.1, hx.2⟩)
  · exact h.1.imp id (fun hx => Or.inr ⟨rfl, hx.1, hx.2⟩)
  · exact h.1.imp id (fun hx => Or.inr ⟨rfl, hx.1, hx.2⟩)

/-- C13: in every schedule of `Tee(ctx, From(ctx, S...))`, on a context
cancelled from the start, cancelled at any point of the schedule, or never,
the values delivered on the two outputs are at every moment in lock step: one
sequence is a prefix of the other, the lengths differ by at most one, and
when they differ the longer one is the shorter one with a single last value
added.  When they differ, either the goroutine of `Tee` is between the two
sends of a round, holding that value with the send to the other output
pending, or it has returned and the context is cancelled; so once both
outputs have been read to closure they are equal, or the context was
cancelled and one has a single last value more.  That difference occurs: in
the schedule `Demo.teeSplit` of `Tee(ctx, From(ctx, 1, 2, 3))` the context is
cancelled between the two sends of the first round and the outputs, read to
closure, are `[1]` and `[]`. -/
theorem tee_outputs_lock_step {T : Type} (S : List T) (cancelled : Bool) (ms : List TMove)
    (st : TNet T) (hrun : TNet.run ms (TNet.init S cancelled) = some st) :
    (st.got1 <+: st.got2 ∨ st.got2 <+: st.got1) ∧
    (st.got1.length ≤ st.got2.length + 1 ∧ st.got2.length ≤ st.got1.length + 1) ∧
    (st.got1 = st.got2 ∨ ∃ v, st.got1 = st.got2 ++ [v] ∨ st.got2 = st.got1 ++ [v]) ∧
    (st.got1 ≠ st.got2 →
      (∃ v, (st.got1 = st.got2 ++ [v] ∧ st.tee = .sel 1 v false true) ∨
        (st.got2 = st.got1 ++ [v] ∧ st.tee = .sel 1 v true false)) ∨
      (st.tee.returned = true ∧ st.done = true)) ∧
    (st.fin1 = true → st.fin2 = true →
      st.got1 = st.got2 ∨
        (st.done = true ∧ ∃ v, st.got1 = st.got2 ++ [v] ∨ st.got2 = st.got1 ++ [v])) ∧
    (TNet.run Demo.teeSplit (TNet.init [1, 2, 3] false) = some Demo.teeSplitEnd ∧
      Demo.teeSplitEnd.fin1 = true ∧ Demo.teeSplitEnd.fin2 = true ∧
      Demo.teeSplitEnd.got1 = [1] ∧ Demo.teeSplitEnd.got2 = []) := by
  have hI := tnet_run_lock ms _ st (tnet_init_lock S cancelled) hrun
  obtain ⟨hf1, hf2, hl⟩ := hI
  have hshape := tee_lock_shape hl
  have hdiff : st.got1 = st.got2 ∨ ∃ v, st.got1 = st.got2 ++ [v] ∨ st.got2 = st.got1 ++ [v] := by
    rcases hshape with h | ⟨v, h | h⟩ | ⟨-, -, v, h⟩
    · exact Or.inl h
    · exact Or.inr ⟨v, Or.inl h.1⟩
    · exact Or.inr ⟨v, Or.inr h.1⟩
    · exact Or.inr ⟨v, h⟩
  refine ⟨?_, ?_, hdiff, ?_, ?_, by decide, rfl, rfl, rfl, rfl⟩
  · rcases hdiff with h | ⟨v, h | h⟩
    · exact Or.inl (h ▸ List.prefix_refl _)
    · exact Or.inr (h ▸ List.prefix_append _ _)
    · exact Or.inl (h ▸ List.prefix_append _ _)
  · have hlen : st.got1.length = st.got2.length ∨ st.got1.length = st.got2.length + 1 ∨
        st.got2.length = st.got1.length + 1 := by
      rcases hdiff with h | ⟨v, h | h⟩
      · exact Or.inl (by rw [h])
      · exact Or.inr (Or.inl (by rw [h]; simp))
      · exact Or.inr (Or.inr (by rw [h]; simp))
    omega
  · intro hne
    rcases hshape with h | h | ⟨hr, hd, -⟩
    · exact absurd h hne
    · exact Or.inl h
    · exact Or.inr ⟨hr, hd⟩
  · intro h1 h2
    have hc1 := hf1 h1
    rcases hshape with h | ⟨v, h | h⟩ | ⟨-, hd, hv⟩
    · exact Or.inl h
    · rw [h.2] at hl
      simp only [Tee.lock] at hl
      rw [hc1] at hl
      simp at hl
    · rw [h.2] at hl
      simp only [Tee.lock] at hl
      rw [hc1] at hl
      simp at hl
    · exact Or.inr ⟨hd, hv⟩

/-- The example of the documentation `Tee(ctx, From(ctx, 1, 2, 3))` with the
context cancelled between the two sends of the first round: the outputs
`[1]` and `[]` differ by a single last value, and the context is cancelled. -/
theorem tee_outputs_lock_step_witness :
    TNet.run Demo.teeSplit (TNet.init [1, 2, 3] false) = some Demo.teeSplitEnd ∧
      (Demo.teeSplitEnd.got1 = Demo.teeSplitEnd.got2 ∨
        (Demo.teeSplitEnd.done = true ∧
          ∃ v, Demo.teeSplitEnd.got1 = Demo.teeSplitEnd.got2 ++ [v] ∨
            Demo.teeSplitEnd.got2 = Demo.teeSplitEnd.got1 ++ [v])) :=
  ⟨by decide,
    (tee_outputs_lock_step [1, 2, 3] false Demo.teeSplit Demo.teeSplitEnd
      (by decide)).2.2.2.2.1 rfl rfl⟩

end Conduit
